import Mathlib

/-!
# Route-advisory engine: shallow embedding and verification

Embedding of the route-search programs of the repository:

* `src/project/main.cpp`                   (namespace `MainCpp`)
* `src/trial1/cpp/safepath_core.cpp`       (namespace `SafePath`)
* `src/first3_using_c&python/graph_logic.c` (namespace `GraphLogic`)

Conventions of the embedding.

* A C++ `double` is a rational number (`ℚ`).  Every routine is embedded in exact
  arithmetic (`relaxStep`, `MainCpp.dijkstra`, `SafePath.edge_cost`,
  `GraphLogic.solve`): there is no rounding, overflow or NaN.  The literals
  `1e18`, `1e17`, `1e7`, `1e6`, `1e-9` and the constant `DBL_MAX` are the
  rationals they denote.
* The function `fl64` rounds a rational to binary64: to the nearest double, ties
  to even, with subnormal numbers below `2^-1022`; overflow to infinity is not
  modelled.  The definitions `relaxStep64`, `MainCpp.dijkstra64`,
  `SafePath.edge_costR` and `GraphLogic.solve64` repeat the routines with every
  operation rounded.  A theorem whose conclusion would change with the rounding
  of a sum of weights is stated either for these, or for the exact routines on
  weights that are non-negative whole numbers with a total below `2^53`:
  binary64 then forms every sum of weights exactly, and adding the tolerance
  `1e-9` cannot change the outcome of a comparison of two whole numbers.  The
  theorems `relaxStep64_eq`, `MainCpp.relaxEdges64_eq` and
  `GraphLogic.relaxLoop64_eq` prove this for a pass of the relaxation loop, and
  `MainCpp.demo_dijkstra64_agree` and `GraphLogic.demo_solve_agree` evaluate the
  two embeddings against each other on the data that the programs hold.
* A `vector` indexed by node id is a total function on `Nat`; reading it is only
  meaningful below the vector size (out-of-range reads are undefined in C++).
* The sentinel `-1` of the predecessor arrays is `none`; the recursion of `get_path`
  (graph_logic.c) takes a fuel argument like a loop.
* `std::priority_queue<pair<double,int>, ..., greater<>>` is the list of its
  elements; `top` is the least pair in the lexicographic order and `pop`
  removes one occurrence of it.
* `while` loops take a fuel argument and return `none` when the fuel is
  exhausted before the loop exits.
* `sprintf` with `%d` writes the decimal representation of the integer; the
  conversion `%.2f` of a double is a parameter of `explain_reason`; the size
  of the character buffers is not modelled.
-/

/-! ## Shared constants and the relaxation loop -/

/-- The tolerance of the relaxation test `nd + 1e-9 < dist[v]`. -/
def EPS : ℚ := 1 / 1000000000

/-- The constant `INF = 1e18` of both Dijkstra routines. -/
def INF : ℚ := 1000000000000000000

/-- The threshold `1e17` above which a distance is reported as "no path". -/
def NOPATH : ℚ := 100000000000000000

/-- Search state: the arrays `dist`, `parent` (`prev`) and the priority queue. -/
structure DState where
  dist : Nat → ℚ
  parent : Nat → Option Nat
  pq : List (ℚ × Nat)

/-- Order of `greater<pair<double,int>>`: lexicographic on (distance, node). -/
def pqLe (a b : ℚ × Nat) : Bool :=
  decide (a.1 < b.1) || (decide (a.1 = b.1) && decide (a.2 ≤ b.2))

/-- The element returned by `pq.top()`: the least pair of the queue. -/
def pqTop : List (ℚ × Nat) → Option (ℚ × Nat)
  | [] => none
  | a :: rest =>
    match pqTop rest with
    | none => some a
    | some b => if pqLe a b then some a else some b

/-- State at loop entry: `dist[s] = 0`, all other `INF`, no predecessor, `pq = {(0, s)}`. -/
def initState (s : Nat) : DState :=
  { dist := Function.update (fun _ => INF) s 0
    parent := fun _ => none
    pq := [(0, s)] }

/-- The body of the relaxation test for one usable edge `u -> v` of cost `c`:
`nd = d + c; if (nd + 1e-9 < dist[v]) { dist[v] = nd; parent[v] = u; pq.push({nd, v}); }`. -/
def relaxStep (d : ℚ) (u : Nat) (st : DState) (v : Nat) (c : ℚ) : DState :=
  if d + c + EPS < st.dist v then
    { dist := Function.update st.dist v (d + c)
      parent := Function.update st.parent v (some u)
      pq := (d + c, v) :: st.pq }
  else st

/-- The `while (!pq.empty())` loop shared by `dijkstra` (main.cpp) and `dijkstra_path`
(safepath_core.cpp); `relax d u st` is the inner `for` loop over the edges leaving `u`.

    auto top = pq.top(); pq.pop();
    if (d > dist[u]) continue;
    if (u == t) break;
    for (...) relax
-/
def searchLoop (relax : ℚ → Nat → DState → DState) (t : Nat) : Nat → DState → Option DState
  | 0, _ => none
  | fuel + 1, st =>
    match pqTop st.pq with
    | none => some st
    | some top =>
      let st1 : DState := { st with pq := st.pq.erase top }
      if top.1 > st1.dist top.2 then searchLoop relax t fuel st1
      else if top.2 = t then some st1
      else searchLoop relax t fuel (relax top.1 top.2 st1)

/-- Relaxation of a list of usable edges `(v, c)` leaving `u`, in order. -/
def relaxOut (d : ℚ) (u : Nat) : List (Nat × ℚ) → DState → DState
  | [], st => st
  | e :: es, st => relaxOut d u es (relaxStep d u st e.1 e.2)

/-- A walk in the graph whose usable out-edges are `out`: the list of the edges `(v, c)`
taken, starting at `u` and ending at `v`. -/
def IsWalk (out : Nat → List (Nat × ℚ)) : Nat → List (Nat × ℚ) → Nat → Prop
  | u, [], v => u = v
  | u, e :: es, v => e ∈ out u ∧ IsWalk out e.1 es v

/-- Total cost of a walk. -/
def walkCost (p : List (Nat × ℚ)) : ℚ := (p.map Prod.snd).sum

/-- The nodes visited by a walk that starts at `u`. -/
def walkNodes (u : Nat) (p : List (Nat × ℚ)) : List Nat := u :: p.map Prod.fst

/-- Lexicographic comparison of two `vector<int>` (`operator<=`). -/
def lexLe : List Nat → List Nat → Bool
  | [], _ => true
  | _ :: _, [] => false
  | x :: xs, y :: ys => decide (x < y) || (decide (x = y) && lexLe xs ys)

/-- Order of `std::set<pair<double, vector<int>>>`. -/
def candLe (a b : ℚ × List Nat) : Bool :=
  decide (a.1 < b.1) || (decide (a.1 = b.1) && lexLe a.2 b.2)

/-- The element `*candidates.begin()`: the least element of the set. -/
def candMin : List (ℚ × List Nat) → Option (ℚ × List Nat)
  | [] => none
  | a :: rest =>
    match candMin rest with
    | none => some a
    | some b => if candLe a b then some a else some b

/-- The operation `candidates.insert(x)` on a set kept as a duplicate-free list. -/
def candInsert (x : ℚ × List Nat) (l : List (ℚ × List Nat)) : List (ℚ × List Nat) :=
  if x ∈ l then l else x :: l

/-- The consecutive pairs `(path[i], path[i+1])` visited by `for (i = 0; i+1 < size; ++i)`. -/
def consecPairs (path : List Nat) : List (Nat × Nat) := path.zip path.tail

/-- Facts of the search state that hold whatever the edge costs are: distances never exceed
`INF`, a node with a distance below `INF` is the source or has a predecessor, and a
predecessor is a node with a distance below `INF` joined to its successor by a usable edge. -/
structure Touched (out : Nat → List (Nat × ℚ)) (s : Nat) (st : DState) : Prop where
  dist_le : ∀ v, st.dist v ≤ INF
  root : ∀ v, st.dist v < INF → v = s ∨ st.parent v ≠ none
  par : ∀ v u, st.parent v = some u → st.dist u < INF ∧ ∃ c, (v, c) ∈ out u
  queued : ∀ x ∈ st.pq, st.dist x.2 < INF

/-- The list `l` is the predecessor chain that starts at `cur` and ends where the
predecessor is `-1`. -/
def PrevChain (prev : Nat → Option Nat) : Option Nat → List Nat → Prop
  | cur, [] => cur = none
  | cur, x :: rest => cur = some x ∧ PrevChain prev (prev x) rest

/-- The predecessor chain from `v` reaches a node without predecessor after `k` steps. -/
inductive Anc (parent : Nat → Option Nat) : Nat → Nat → Prop
  | root {v : Nat} : parent v = none → Anc parent v 0
  | step {v u k : Nat} : parent v = some u → Anc parent u k → Anc parent v (k + 1)

/-- All usable edges have a non-negative cost. -/
def NonNegOut (out : Nat → List (Nat × ℚ)) : Prop := ∀ u, ∀ e ∈ out u, 0 ≤ e.2

/-- Invariant of the relaxation loop for non-negative costs; `S` is the set of the nodes
whose edges have been relaxed (popped with a distance that was not stale). -/
structure Settled (out : Nat → List (Nat × ℚ)) (s : Nat) (S : Finset Nat) (st : DState) :
    Prop where
  dist_nonneg : ∀ v, 0 ≤ st.dist v
  dist_le : ∀ v, st.dist v ≤ INF
  src_dist : st.dist s = 0
  src_parent : st.parent s = none
  reach : ∀ v, st.dist v < INF → ∃ p, IsWalk out s p v ∧ walkCost p = st.dist v
  par : ∀ v u, st.parent v = some u → u ∈ S ∧ ∃ c, (v, c) ∈ out u ∧ st.dist v = st.dist u + c
  anc : ∀ x ∈ S, ∃ k, k < S.card ∧ Anc st.parent x k
  front : ∀ v, v ∉ S → st.dist v < INF → (st.dist v, v) ∈ st.pq
  pq_ge : ∀ x ∈ st.pq, st.dist x.2 ≤ x.1
  pq_fin : ∀ x ∈ st.pq, x.1 < INF
  pq_nodup : st.pq.Nodup
  done_le : ∀ u ∈ S, ∀ x ∈ st.pq, st.dist u ≤ x.1
  done_out : ∀ u ∈ S, (st.dist u, u) ∉ st.pq
  done_fin : ∀ u ∈ S, st.dist u < INF

/-- The edges selected by `T` have been relaxed: the head is at most `1e-9` above the tail
plus the cost. -/
def Relaxed (T : Nat → Nat × ℚ → Prop) (st : DState) : Prop :=
  ∀ u e, T u e → st.dist e.1 ≤ st.dist u + e.2 + EPS

/-- Bound on the number of iterations the relaxation loop has left: the queue length plus
the number of edges leaving the nodes below `n` that are not yet settled. -/
def workLeft (out : Nat → List (Nat × ℚ)) (n : Nat) (S : Finset Nat) (st : DState) : Nat :=
  st.pq.length + ∑ u ∈ Finset.range n, if u ∈ S then 0 else (out u).length

/-- The power of two `2^e` for an integer exponent. -/
def pow2 (e : Int) : ℚ :=
  if 0 ≤ e then ((2 ^ e.toNat : Nat) : ℚ) else 1 / ((2 ^ (-e).toNat : Nat) : ℚ)

/-- Rounding of a rational to the nearest integer, a tie going to the even one. -/
def roundEven (q : ℚ) : Int :=
  let f := Rat.floor q
  if q - f < 1 / 2 then f
  else if 1 / 2 < q - f then f + 1
  else if f % 2 = 0 then f else f + 1

/-- The number of binary digits of a natural number (fuel: an upper bound of that number). -/
def bitLength : Nat → Nat → Nat
  | 0, _ => 0
  | fuel + 1, n => if n = 0 then 0 else bitLength fuel (n / 2) + 1

/-- The binary exponent of a positive rational `q` (numerator and denominator below
`2^4096`): the `e` with `2^e <= q < 2^(e+1)`. -/
def binade (q : ℚ) : Int :=
  let e0 : Int := (bitLength 4096 q.num.natAbs : Int) - (bitLength 4096 q.den : Int)
  if pow2 e0 ≤ q then e0 else e0 - 1

/-- Rounding of a real number to binary64 (53 significant bits, least exponent -1022,
subnormal numbers included), to the nearest value with ties to even: the rounding of every
`double` operation.  Overflow to infinity is not modelled. -/
def fl64 (x : ℚ) : ℚ :=
  if x = 0 then 0
  else
    let e := max (binade |x|) (-1022)
    (roundEven (x / pow2 (e - 52)) : ℚ) * pow2 (e - 52)

/-- The `double` literal `1e-9`. -/
def EPS64 : ℚ := fl64 EPS

/-- The relaxation test and update of `relaxStep` with every `double` operation rounded to
binary64: `nd = d + c` and `nd + 1e-9` are both rounded. -/
def relaxStep64 (d : ℚ) (u : Nat) (st : DState) (v : Nat) (c : ℚ) : DState :=
  let nd := fl64 (d + c)
  if fl64 (nd + EPS64) < st.dist v then
    { dist := Function.update st.dist v nd
      parent := Function.update st.parent v (some u)
      pq := (nd, v) :: st.pq }
  else st

/-- All usable edges have a whole number as cost. -/
def WholeOut (out : Nat → List (Nat × ℚ)) : Prop := ∀ u, ∀ e ∈ out u, ∃ z : Int, e.2 = z

/-- Every distance of the search state, in the array and in the queue, is a whole number. -/
def WholeState (st : DState) : Prop :=
  (∀ v, ∃ z : Int, st.dist v = z) ∧ (∀ x ∈ st.pq, ∃ z : Int, x.1 = z)

namespace MainCpp

/-- Adjacency entry: `struct Edge { int to; double w; int id; }`; the field `to` is named
`dst` here, `to` being a reserved word. -/
structure Edge where
  dst : Nat
  w : ℚ
  id : Nat
deriving DecidableEq, Inhabited

/-- The global `G`: `vector<vector<Edge>>`. -/
abbrev Graph := List (List Edge)

/-- Result record: `struct PathInfo { vector<int> nodes; double dist; }`. -/
structure PathInfo where
  nodes : List Nat
  dist : ℚ
deriving DecidableEq, Inhabited

/-- The function `add_edge(u, v, meters)` on the pair (`G`, `EDGE_COUNTER`). -/
def add_edge (g : Graph × Nat) (u v : Nat) (meters : ℚ) : Graph × Nat :=
  let G1 := g.1.modify (fun l => l ++ [{ dst := v, w := meters, id := g.2 }]) u
  let G2 := G1.modify (fun l => l ++ [{ dst := u, w := meters, id := g.2 + 1 }]) v
  (G2, g.2 + 2)

/-- The inner loop `for (auto &e : G[u])` of `dijkstra`. -/
def relaxEdges (forbiddenEdgeIds : List Nat) (d : ℚ) (u : Nat) : List Edge → DState → DState
  | [], st => st
  | e :: es, st =>
    if e.id ∈ forbiddenEdgeIds then relaxEdges forbiddenEdgeIds d u es st
    else relaxEdges forbiddenEdgeIds d u es (relaxStep d u st e.dst e.w)

/-- The function `dijkstra(s, t, forbiddenEdgeIds, parent)`: returns `dist[t]` and the array
`parent`. -/
def dijkstra (fuel : Nat) (G : Graph) (s t : Nat) (forbiddenEdgeIds : List Nat) :
    Option (ℚ × (Nat → Option Nat)) :=
  match searchLoop (fun d u st => relaxEdges forbiddenEdgeIds d u (G.getD u []) st) t fuel
      (initState s) with
  | none => none
  | some st => some (st.dist t, st.parent)

/-- The loop of `build_path_from_parent`: push `cur`, stop when `parent[cur] == -1`. -/
def buildLoop (parent : Nat → Option Nat) : Nat → Nat → List Nat → Option (List Nat)
  | 0, _, _ => none
  | fuel + 1, cur, path =>
    match parent cur with
    | none => some (path ++ [cur])
    | some p => buildLoop parent fuel p (path ++ [cur])

/-- The function `build_path_from_parent(t, parent)`. -/
def build_path_from_parent (fuel : Nat) (t : Nat) (parent : Nat → Option Nat) :
    Option (List Nat) :=
  (buildLoop parent fuel t []).map List.reverse

/-- The inner search of `compute_path_info`: weight of the first entry of `G[u]` that leads
to `v`, `1e18` when there is none. -/
def firstWeight (G : Graph) (u v : Nat) : ℚ :=
  match (G.getD u []).find? (fun e => e.dst == v) with
  | some e => e.w
  | none => INF

/-- The summation loop of `compute_path_info`. -/
def pathTotal (G : Graph) : List Nat → ℚ → ℚ
  | u :: v :: rest, total =>
    let w := firstWeight G u v
    pathTotal G (v :: rest) (if w > NOPATH then total else total + w)
  | _, total => total

/-- The function `compute_path_info(path)`. -/
def compute_path_info (G : Graph) (path : List Nat) : PathInfo :=
  { nodes := path, dist := pathTotal G path 0 }

/-- The set `forb` built in `yen_lite_k_shortest`: ids of all entries of `G[a]` leading to
`b`. -/
def forbidAll (G : Graph) (a b : Nat) : List Nat :=
  ((G.getD a []).filter (fun e => e.dst == b)).map (fun e => e.id)

/-- The loop `for (i = 0; i+1 < basePath.size(); ++i)` of `yen_lite_k_shortest`, over the
consecutive pairs of the base path; it only changes `candidates`. -/
def probeLoop (fuel : Nat) (G : Graph) (s t : Nat) (results : List PathInfo) :
    List (Nat × Nat) → List (ℚ × List Nat) → Option (List (ℚ × List Nat))
  | [], candidates => some candidates
  | ab :: rest, candidates =>
    match dijkstra fuel G s t (forbidAll G ab.1 ab.2) with
    | none => none
    | some (d2, parent2) =>
      if d2 < NOPATH then
        match build_path_from_parent fuel t parent2 with
        | none => none
        | some p2 =>
          let duplicate := results.any (fun r => r.nodes == p2)
          if duplicate then probeLoop fuel G s t results rest candidates
          else probeLoop fuel G s t results rest (candInsert (d2, p2) candidates)
      else probeLoop fuel G s t results rest candidates

/-- The loop `for (k = 1; k < K; ++k)` of `yen_lite_k_shortest`; the first argument is the
number of iterations left. -/
def yenLoop (fuel : Nat) (G : Graph) (s t : Nat) :
    Nat → List PathInfo → List (ℚ × List Nat) → Option (List PathInfo)
  | 0, results, _ => some results
  | k + 1, results, candidates =>
    match results.getLast? with
    | none => some results
    | some last =>
      match probeLoop fuel G s t results (consecPairs last.nodes) candidates with
      | none => none
      | some candidates1 =>
        match candMin candidates1 with
        | none => some results
        | some it =>
          yenLoop fuel G s t k (results ++ [compute_path_info G it.2]) (candidates1.erase it)

/-- The function `yen_lite_k_shortest(s, t, K)`. -/
def yen_lite_k_shortest (fuel : Nat) (G : Graph) (s t : Nat) (K : Int) :
    Option (List PathInfo) :=
  match dijkstra fuel G s t [] with
  | none => none
  | some (bestd, parent) =>
    if bestd ≥ NOPATH then some []
    else
      match build_path_from_parent fuel t parent with
      | none => none
      | some bestpath => yenLoop fuel G s t (K - 1).toNat [compute_path_info G bestpath] []

/-- The usable out-edges of `u` for `dijkstra`: entries of `G[u]` whose id is not forbidden. -/
def usable (G : Graph) (F : List Nat) (u : Nat) : List (Nat × ℚ) :=
  ((G.getD u []).filter (fun e => decide (e.id ∉ F))).map (fun e => (e.dst, e.w))

/-- A path of the graph as the list of the adjacency entries it takes, none of them
forbidden. -/
def IsPath (G : Graph) (F : List Nat) : Nat → List Edge → Nat → Prop
  | u, [], v => u = v
  | u, e :: es, v => e ∈ G.getD u [] ∧ e.id ∉ F ∧ IsPath G F e.dst es v

/-- Total weight of a path. -/
def pathWeight (es : List Edge) : ℚ := (es.map (fun e => e.w)).sum

/-- Every weight of the graph is non-negative. -/
def NonNeg (G : Graph) : Prop := ∀ l ∈ G, ∀ e ∈ l, 0 ≤ e.w

/-- Every adjacency entry leads to a node of the graph. -/
def WellFormed (G : Graph) : Prop := ∀ l ∈ G, ∀ e ∈ l, e.dst < G.length

/-- The calls `add_edge(u, v, m(km))` of `main`, in program order, as triples `(u, v, km)`. -/
def demoEdges : List (Nat × Nat × ℚ) :=
  [(0, 1, 5.0), (0, 6, 3.1), (0, 19, 2.7), (1, 2, 3.2), (2, 14, 1.8), (2, 15, 1.1),
   (3, 11, 12.0), (11, 10, 6.2), (10, 8, 5.3), (8, 9, 12.0), (4, 0, 7.2), (4, 5, 10.0),
   (5, 16, 6.4), (16, 11, 6.1), (6, 12, 6.8), (6, 19, 3.0), (7, 6, 3.5), (7, 4, 8.5),
   (12, 13, 10.0), (13, 14, 6.5), (14, 15, 2.3), (15, 2, 2.0), (11, 16, 4.5), (16, 17, 7.5),
   (17, 0, 6.2), (19, 0, 2.7), (18, 13, 5.9), (12, 19, 7.0), (9, 8, 11.7), (10, 2, 9.8),
   (11, 3, 12.0), (1, 17, 6.0), (5, 4, 10.5), (16, 0, 4.8), (2, 11, 8.0), (14, 13, 3.2)]

/-- The graph built by `main`: 20 nodes, `G.assign(n, {})`, then the `add_edge` calls with
`m(km) = km * 1000.0`. -/
def demoGraph : Graph :=
  (demoEdges.foldl (fun g e => add_edge g e.1 e.2.1 (e.2.2 * 1000)) (List.replicate 20 [], 0)).1

/-- A three-node graph: the direct edge 0 -> 2 of weight 1 is listed before the edge
0 -> 1 of weight 0, and 1 -> 2 has weight `1 - 0.5e-9`. -/
def epsGraph : Graph :=
  [[{ dst := 2, w := 1, id := 0 }, { dst := 1, w := 0, id := 1 }],
   [{ dst := 2, w := 1 - EPS / 2, id := 2 }],
   []]

/-- A five-node graph with two parallel entries 2 -> 3 whose weights differ by `0.5e-9`. -/
def twinGraph : Graph :=
  [[{ dst := 1, w := 0, id := 0 }, { dst := 2, w := 1, id := 1 }],
   [{ dst := 4, w := 1, id := 2 }, { dst := 3, w := 2 + 3 / 4 * EPS, id := 3 }],
   [{ dst := 3, w := 1, id := 4 }, { dst := 3, w := 1 - EPS / 2, id := 5 }],
   [{ dst := 4, w := 1, id := 6 }],
   []]

/-- Node record: `struct NodeInfo { string name; double lat; double lon; }`. -/
structure NodeInfo where
  name : String
  lat : ℚ
  lon : ℚ
deriving Inhabited

/-- The text written by `sprintf(buf, "Longer than best by %.2f km", diff_m/1000.0)`; the
conversion `%.2f` of the C library is the parameter `fmt2`. -/
def distanceText (fmt2 : ℚ → String) (diff_m : ℚ) : String :=
  "Longer than best by " ++ fmt2 (diff_m / 1000) ++ " km"

/-- The text written by `sprintf(buf, "More hops (%d edges vs %d)", ...)`. -/
def hopText (candEdges bestEdges : Int) : String :=
  "More hops (" ++ toString candEdges ++ " edges vs " ++ toString bestEdges ++ ")"

/-- The loop `for (i = 0; i < det.size() && i < 6; ++i) { if (i) s += ", "; s += name; }`. -/
def detourLoop (NODES : List NodeInfo) : List Nat → Nat → String → String
  | [], _, s => s
  | x :: rest, i, s =>
    if i < 6 then
      detourLoop NODES rest (i + 1)
        ((if i ≠ 0 then s ++ ", " else s) ++ (NODES.getD x default).name)
    else s

/-- The string `s` built for a non-empty list `det` of detour nodes. -/
def detourText (NODES : List NodeInfo) (det : List Nat) : String :=
  let s := detourLoop NODES det 0 "Detours via "
  if det.length > 6 then s ++ ", ..." else s

/-- The loop over the consecutive pairs of `cand.nodes` that updates `heavy` and
`heavyCount`: only the first entry of `G[u]` leading to `v` is looked at. -/
def heavyLoop (G : Graph) : List Nat → Bool × Int → Bool × Int
  | u :: v :: rest, st =>
    match (G.getD u []).find? (fun e => e.dst == v) with
    | some e =>
      if e.w ≥ 6000 then heavyLoop G (v :: rest) (true, st.2 + 1)
      else heavyLoop G (v :: rest) st
    | none => heavyLoop G (v :: rest) st
  | _, st => st

/-- The text written by `sprintf(buf, "Contains %d long segment(s) >= 6 km", heavyCount)`. -/
def heavyText (heavyCount : Int) : String :=
  "Contains " ++ toString heavyCount ++ " long segment(s) >= 6 km"

/-- The sentence returned when no reason was collected. -/
def fallbackText : String := "Very similar to best; slight differences make it less optimal."

/-- First block of `explain_reason`: the distance reason. -/
def distanceBlock (fmt2 : ℚ → String) (best cand : PathInfo) (reasons : List String) :
    List String :=
  let diff_m := cand.dist - best.dist
  if diff_m > 1 then reasons ++ [distanceText fmt2 diff_m] else reasons

/-- Second block of `explain_reason`: the hop-count reason. -/
def hopBlock (best cand : PathInfo) (reasons : List String) : List String :=
  if cand.nodes.length > best.nodes.length then
    reasons ++ [hopText ((cand.nodes.length : Int) - 1) ((best.nodes.length : Int) - 1)]
  else reasons

/-- The vector `det`: the nodes of `cand.nodes` that are not in `bestset`, in order. -/
def detours (best cand : PathInfo) : List Nat :=
  cand.nodes.filter (fun x => !(best.nodes.contains x))

/-- Third block of `explain_reason`: the detour reason. -/
def detourBlock (NODES : List NodeInfo) (best cand : PathInfo) (reasons : List String) :
    List String :=
  let det := detours best cand
  if det ≠ [] then reasons ++ [detourText NODES det] else reasons

/-- Fourth block of `explain_reason`: the heavy-segment reason. -/
def heavyBlock (G : Graph) (cand : PathInfo) (reasons : List String) : List String :=
  let r := heavyLoop G cand.nodes (false, 0)
  if r.1 then reasons ++ [heavyText r.2] else reasons

/-- The final loop `for (i ...) { if (i) out += ". "; out += reasons[i]; }`. -/
def joinLoop : List String → Nat → String → String
  | [], _, out => out
  | r :: rest, i, out => joinLoop rest (i + 1) ((if i ≠ 0 then out ++ ". " else out) ++ r)

/-- The vector `reasons` at the end of the four blocks of `explain_reason`. -/
def collectReasons (fmt2 : ℚ → String) (NODES : List NodeInfo) (G : Graph)
    (best cand : PathInfo) : List String :=
  heavyBlock G cand (detourBlock NODES best cand (hopBlock best cand
    (distanceBlock fmt2 best cand [])))

/-- The function `explain_reason(best, cand)`. -/
def explain_reason (fmt2 : ℚ → String) (NODES : List NodeInfo) (G : Graph)
    (best cand : PathInfo) : String :=
  let reasons := collectReasons fmt2 NODES G best cand
  if reasons = [] then fallbackText else joinLoop reasons 0 ""

/-- The number of consecutive pairs `(u, v)` of a node sequence for which the graph has an
edge `u -> v` of weight at least 6000. -/
def heavyPairs (G : Graph) (nodes : List Nat) : Nat :=
  (consecPairs nodes).countP (fun uv => (G.getD uv.1 []).any (fun e => e.dst == uv.2 && decide (e.w ≥ 6000)))

/-- The heavy count of a route: the number of its consecutive pairs `(u, v)` whose connecting
edge is at least 6000 m long, the connecting edge of a pair being the first entry of `G[u]`
that leads to `v` (the entry whose weight `compute_path_info` adds). -/
def heavyFirst (G : Graph) (nodes : List Nat) : Nat :=
  (consecPairs nodes).countP (fun uv =>
    match (G.getD uv.1 []).find? (fun e => e.dst == uv.2) with
    | some e => decide (e.w ≥ 6000)
    | none => false)

/-- The reference list of reasons: the four reasons in their fixed order, each present
exactly under its condition. -/
def refReasons (fmt2 : ℚ → String) (NODES : List NodeInfo) (G : Graph)
    (best cand : PathInfo) : List String :=
  (if cand.dist - best.dist > 1 then [distanceText fmt2 (cand.dist - best.dist)] else [])
    ++ (if cand.nodes.length > best.nodes.length then
          [hopText ((cand.nodes.length : Int) - 1) ((best.nodes.length : Int) - 1)]
        else [])
    ++ (if ∃ x ∈ cand.nodes, x ∉ best.nodes then [detourText NODES (detours best cand)]
        else [])
    ++ (if heavyFirst G cand.nodes > 0 then [heavyText (heavyFirst G cand.nodes : Int)]
        else [])

/-- The reference detour text: the names of the first six detour nodes separated by `", "`,
followed by `", ..."` when there are more than six. -/
def refDetourText (NODES : List NodeInfo) (det : List Nat) : String :=
  "Detours via " ++ ", ".intercalate ((det.take 6).map (fun x => (NODES.getD x default).name))
    ++ (if det.length > 6 then ", ..." else "")

/-- At most one entry per ordered pair of nodes. -/
def SimpleGraph (G : Graph) : Prop :=
  ∀ l ∈ G, ∀ e1 ∈ l, ∀ e2 ∈ l, e1.dst = e2.dst → e1 = e2

/-- The string is not empty and does not start with the first letter of the fallback
sentence. -/
def ReasonLike (r : String) : Prop := ∃ c rest, r.data = c :: rest ∧ c ≠ 'V'

/-- A graph with a best route 0 -> 1 -> 2 of two 1000 m edges and a second route 0 -> 3 -> 2
whose first edge is 7000 m long. -/
def longEdgeGraph : Graph :=
  [[{ dst := 1, w := 1000, id := 0 }, { dst := 3, w := 7000, id := 2 }],
   [{ dst := 2, w := 1000, id := 1 }],
   [],
   [{ dst := 2, w := 1000, id := 3 }]]

/-- A node sequence that is a traversable path from `s` to `t`: it is not empty, starts at
`s`, ends at `t`, and each consecutive pair `(u, v)` is joined by an entry of `G[u]`. -/
def Traversable (G : Graph) (s t : Nat) (nodes : List Nat) : Prop :=
  nodes ≠ [] ∧ nodes.head? = some s ∧ nodes.getLast? = some t ∧
    List.Chain' (fun u v => ∃ e ∈ G.getD u [], e.dst = v) nodes

/-- The diamond A -> B -> D, A -> C -> D (A = 0, B = 1, C = 2, D = 3) with four edges of
weight 1000, the entry A -> B listed before A -> C. -/
def diamondGraph : Graph :=
  [[{ dst := 1, w := 1000, id := 0 }, { dst := 2, w := 1000, id := 2 }],
   [{ dst := 3, w := 1000, id := 1 }],
   [{ dst := 3, w := 1000, id := 3 }],
   []]

/-- The same diamond with the entry A -> C listed before A -> B. -/
def diamondGraphSwapped : Graph :=
  [[{ dst := 2, w := 1000, id := 2 }, { dst := 1, w := 1000, id := 0 }],
   [{ dst := 3, w := 1000, id := 1 }],
   [{ dst := 3, w := 1000, id := 3 }],
   []]

/-- Two nodes joined by a single edge of weight `1e17`. -/
def farGraph : Graph := [[{ dst := 1, w := NOPATH, id := 0 }], []]

/-- Every weight of the graph is a non-negative whole number. -/
def WholeWeights (G : Graph) : Prop := ∀ l ∈ G, ∀ e ∈ l, e.w.den = 1 ∧ 0 ≤ e.w

/-- The sum of all weights of the graph. -/
def totalWeight (G : Graph) : ℚ := (G.map (fun l => (l.map (fun e => e.w)).sum)).sum

/-- The inner loop `for (auto &e : G[u])` of `dijkstra` with every `double` operation rounded
to binary64. -/
def relaxEdges64 (forbiddenEdgeIds : List Nat) (d : ℚ) (u : Nat) : List Edge → DState → DState
  | [], st => st
  | e :: es, st =>
    if e.id ∈ forbiddenEdgeIds then relaxEdges64 forbiddenEdgeIds d u es st
    else relaxEdges64 forbiddenEdgeIds d u es (relaxStep64 d u st e.dst e.w)

/-- The function `dijkstra(s, t, forbiddenEdgeIds, parent)` with every `double` operation
rounded to binary64. -/
def dijkstra64 (fuel : Nat) (G : Graph) (s t : Nat) (forbiddenEdgeIds : List Nat) :
    Option (ℚ × (Nat → Option Nat)) :=
  match searchLoop (fun d u st => relaxEdges64 forbiddenEdgeIds d u (G.getD u []) st) t fuel
      (initState s) with
  | none => none
  | some st => some (st.dist t, st.parent)

/-- The chain 0 -> 1 -> 2 whose two weights are the `double` values `0.1` and `0.7`. -/
def tenthGraph : Graph :=
  [[{ dst := 1, w := fl64 (1 / 10), id := 0 }], [{ dst := 2, w := fl64 (7 / 10), id := 1 }], []]

/-- No two adjacency entries of the graph carry the same id (`add_edge` takes every id from
the counter `EDGE_COUNTER`). -/
def UniqueIds (G : Graph) : Prop :=
  (((List.range G.length).flatMap (fun u => (G.getD u []).map (fun e => (u, e)))).map
    (fun x => x.2.id)).Nodup

/-- The pair `c = (d, p)` is the outcome of a probe of `yen_lite_k_shortest`: for some pair
`(a, b)` whose entries are forbidden, `p` is the node sequence of a path from `s` to `t`
that avoids them, `d` is its weight, and no path avoiding them weighs less. -/
def ProbeResult (G : Graph) (s t : Nat) (c : ℚ × List Nat) : Prop :=
  ∃ a b es, IsPath G (forbidAll G a b) s es t ∧ c.2 = s :: es.map (fun e => e.dst) ∧
    pathWeight es = c.1 ∧ ∀ es1, IsPath G (forbidAll G a b) s es1 t → c.1 ≤ pathWeight es1

/-- The value and the first `n` entries of `parent` that a call of `dijkstra` leaves. -/
def outcome (n : Nat) (r : Option (ℚ × (Nat → Option Nat))) : Option (ℚ × List (Option Nat)) :=
  r.map (fun r => (r.1, (List.range n).map r.2))

end MainCpp

/-! ## `safepath_core.cpp` -/

namespace SafePath

/-- Row of the edge table: `struct Edge`. -/
structure Edge where
  u : Nat
  v : Nat
  distance_m : ℚ
  freeflow_time_s : ℚ
  road_quality : ℚ
  safety_index : ℚ
  edge_id : Int
deriving DecidableEq, Inhabited

/-- The JSON object stored per edge id in `updates_by_edge`, restricted to the four keys
the program reads; `none` is an absent key. -/
structure Update where
  traffic_multiplier : Option ℚ
  rain_mm_hr : Option ℚ
  blocked : Option Bool
  road_quality_adjust : Option ℚ
deriving DecidableEq, Inhabited

/-- The map `updates_by_edge`: edge id to update object, `none` for an absent key. -/
abbrev Overlay := Int → Option Update

def W_TIME : ℚ := 1
def W_TRAFFIC : ℚ := 300
def W_WEATHER : ℚ := 250
def W_ROAD_QUAL : ℚ := 200
def W_SAFETY : ℚ := 180
def W_BLOCK : ℚ := 10000000

/-- The threshold `1e6` of `if (c >= 1e6) continue;`. -/
def IMPASSABLE : ℚ := 1000000

/-- The body of `edge_cost` once the edge record `e = edges[edge_index]` is read. -/
def edge_cost_of (upd : Overlay) (e : Edge) : ℚ :=
  let base_time := e.freeflow_time_s
  let obj := upd e.edge_id
  let traffic_mul : ℚ :=
    match obj with
    | some o => (match o.traffic_multiplier with | some x => x | none => 1)
    | none => 1
  let rain_mm : ℚ :=
    match obj with
    | some o => (match o.rain_mm_hr with | some x => x | none => 0)
    | none => 0
  let blocked : Bool :=
    match obj with
    | some o => (match o.blocked with | some x => x | none => false)
    | none => false
  let road_adj : ℚ :=
    match obj with
    | some o => (match o.road_quality_adjust with | some x => x | none => 0)
    | none => 0
  if blocked then W_BLOCK
  else
    let cost := e.distance_m + W_TRAFFIC * (traffic_mul - 1) + W_WEATHER * rain_mm
      + W_ROAD_QUAL * ((10 - e.road_quality - road_adj) / 10)
      + W_SAFETY * ((10 - e.safety_index) / 10)
    cost + W_TIME * base_time

/-- The function `edge_cost(edge_index)`; the index is always one stored in `adj`, hence
below `edges.size()`. -/
def edge_cost (edges : List Edge) (upd : Overlay) (edge_index : Nat) : ℚ :=
  edge_cost_of upd (edges.getD edge_index default)

/-- The array `adj`: `adj[u]` lists the pairs `(v, edge_index)`. -/
abbrev Adj := Nat → List (Nat × Nat)

/-- The adjacency loop of `load_edges`: edge number `i` is pushed onto `adj[e.u]` as
`(e.v, i)` and onto `adj[e.v]` as `(e.u, i)`. -/
def adjLoop : List Edge → Nat → Adj → Adj
  | [], _, adj => adj
  | e :: es, i, adj =>
    let adj1 := Function.update adj e.u (adj e.u ++ [(e.v, i)])
    let adj2 := Function.update adj1 e.v (adj1 e.v ++ [(e.u, i)])
    adjLoop es (i + 1) adj2

/-- The adjacency built by `load_edges` from the edge table (after `adj.assign(maxn+1, {})`). -/
def build_adj (edges : List Edge) : Adj := adjLoop edges 0 (fun _ => [])

/-- The inner loop `for (auto pr2 : adj[u])` of `dijkstra_path`; the array `prev_edge`,
which is written and never read, is left out. -/
def relaxAdj (edges : List Edge) (upd : Overlay) (d : ℚ) (u : Nat) :
    List (Nat × Nat) → DState → DState
  | [], st => st
  | pr2 :: rest, st =>
    let c := edge_cost edges upd pr2.2
    if c ≥ IMPASSABLE then relaxAdj edges upd d u rest st
    else relaxAdj edges upd d u rest (relaxStep d u st pr2.1 c)

/-- The loop `while (cur != -1) { path_nodes.push_back(cur); cur = prev[cur]; }`. -/
def walkLoop (prev : Nat → Option Nat) : Nat → Option Nat → List Nat → Option (List Nat)
  | 0, _, _ => none
  | _ + 1, none, path_nodes => some path_nodes
  | fuel + 1, some cur, path_nodes => walkLoop prev fuel (prev cur) (path_nodes ++ [cur])

/-- The function `dijkstra_path(src, tgt)`; the empty list is the answer "no path". -/
def dijkstra_path (fuel : Nat) (edges : List Edge) (adj : Adj) (upd : Overlay)
    (src tgt : Nat) : Option (List Nat) :=
  match searchLoop (fun d u st => relaxAdj edges upd d u (adj u) st) tgt fuel
      (initState src) with
  | none => none
  | some st =>
    if st.dist tgt ≥ NOPATH then some []
    else (walkLoop st.parent fuel (some tgt) []).map List.reverse

/-- The loop of `k_short_simple` that blocks the edges joining `a` to `b`; the state is
(`updates_by_edge`, `orig`, `changed`).  An edge without an entry in `updates_by_edge` is
skipped by `if (updates_by_edge.count(...) == 0) continue;`. -/
def blockLoop (edges : List Edge) (b : Nat) :
    List (Nat × Nat) → Overlay × Overlay × List Int → Overlay × Overlay × List Int
  | [], st => st
  | pr :: rest, (upd, orig, changed) =>
    if pr.1 = b then
      let eid := (edges.getD pr.2 default).edge_id
      match upd eid with
      | none => blockLoop edges b rest (upd, orig, changed)
      | some o =>
        blockLoop edges b rest
          (Function.update upd eid (some { o with blocked := some true }),
           Function.update orig eid (some o), changed ++ [eid])
    else blockLoop edges b rest (upd, orig, changed)

/-- The loop `for (auto c : changed) updates_by_edge[c] = orig[c];`. -/
def restoreLoop (orig : Overlay) : List Int → Overlay → Overlay
  | [], upd => upd
  | c :: cs, upd => restoreLoop orig cs (Function.update upd c (orig c))

/-- The search `for (auto pr : adj[u]) if (pr.first == v) { ... distance_m; break; }`:
length of the first adjacency entry of `u` that leads to `v`, `0` when there is none. -/
def firstDistance (edges : List Edge) (adj : Adj) (u v : Nat) : ℚ :=
  match (adj u).find? (fun pr => pr.1 == v) with
  | some pr => (edges.getD pr.2 default).distance_m
  | none => 0

/-- The summation loop `for (z = 0; z+1 < np.size(); ++z)` of `k_short_simple`. -/
def distLoop (edges : List Edge) (adj : Adj) : List Nat → ℚ → ℚ
  | u :: v :: rest, dist => distLoop edges adj (v :: rest) (dist + firstDistance edges adj u v)
  | _, dist => dist

/-- The loop `for (i = 0; i+1 < base.size(); ++i)` of `k_short_simple` over the consecutive
pairs of the base path; the state is (`updates_by_edge`, `candidate_set`). -/
def probeLoop (fuel : Nat) (edges : List Edge) (adj : Adj) (src tgt : Nat) :
    List (Nat × Nat) → Overlay × List (ℚ × List Nat) → Option (Overlay × List (ℚ × List Nat))
  | [], st => some st
  | ab :: rest, (upd, candidate_set) =>
    let blocked := blockLoop edges ab.2 (adj ab.1) (upd, fun _ => none, [])
    match dijkstra_path fuel edges adj blocked.1 src tgt with
    | none => none
    | some np =>
      let upd1 := restoreLoop blocked.2.1 blocked.2.2 blocked.1
      if np ≠ [] then
        probeLoop fuel edges adj src tgt rest
          (upd1, candInsert (distLoop edges adj np 0, np) candidate_set)
      else probeLoop fuel edges adj src tgt rest (upd1, candidate_set)

/-- The loop `for (k = 1; k < K; ++k)` of `k_short_simple`; the first argument is the number
of iterations left. -/
def kLoop (fuel : Nat) (edges : List Edge) (adj : Adj) (src tgt : Nat) :
    Nat → List (List Nat) → Overlay × List (ℚ × List Nat) → Option (List (List Nat) × Overlay)
  | 0, result, st => some (result, st.1)
  | k + 1, result, st =>
    match result.getLast? with
    | none => some (result, st.1)
    | some base =>
      match probeLoop fuel edges adj src tgt (consecPairs base) st with
      | none => none
      | some st1 =>
        match candMin st1.2 with
        | none => some (result, st1.1)
        | some it => kLoop fuel edges adj src tgt k (result ++ [it.2]) (st1.1, st1.2.erase it)

/-- The function `k_short_simple(src, tgt, K)`; it returns the routes and leaves the global
`updates_by_edge` in the state given as second component. -/
def k_short_simple (fuel : Nat) (edges : List Edge) (adj : Adj) (upd : Overlay)
    (src tgt : Nat) (K : Int) : Option (List (List Nat) × Overlay) :=
  match dijkstra_path fuel edges adj upd src tgt with
  | none => none
  | some best =>
    if best = [] then some ([], upd)
    else kLoop fuel edges adj src tgt (K - 1).toNat [best] (upd, [])

/-- The usable out-edges of `u` for `dijkstra_path`: adjacency entries whose current cost is
below the threshold `1e6`, with that cost. -/
def usable (edges : List Edge) (adj : Adj) (upd : Overlay) (u : Nat) : List (Nat × ℚ) :=
  ((adj u).filter (fun pr => decide (edge_cost edges upd pr.2 < IMPASSABLE))).map
    (fun pr => (pr.1, edge_cost edges upd pr.2))

/-- The record `LiveCondition` of the specification, with every field present. -/
structure LiveCondition where
  trafficMultiplier : ℚ
  rainfallMmPerHour : ℚ
  roadQualityAdjust : ℚ
  blocked : Bool

/-- Reading of the sparse overlay as the specification describes it: an absent entry, or
an absent field of a present entry, takes the default `1.0 / 0.0 / 0.0 / false`. -/
def getCondition (upd : Overlay) (edgeId : Int) : LiveCondition :=
  match upd edgeId with
  | none => { trafficMultiplier := 1, rainfallMmPerHour := 0, roadQualityAdjust := 0,
              blocked := false }
  | some o =>
    { trafficMultiplier := o.traffic_multiplier.getD 1
      rainfallMmPerHour := o.rain_mm_hr.getD 0
      roadQualityAdjust := o.road_quality_adjust.getD 0
      blocked := o.blocked.getD false }

/-- The reference cost of the specification (section 4.2), with the default weights. -/
def specCost (e : Edge) (c : LiveCondition) : ℚ :=
  if c.blocked then 10000000
  else
    e.distance_m + 300 * (c.trafficMultiplier - 1) + 250 * c.rainfallMmPerHour
      + 200 * (10 - e.road_quality - c.roadQualityAdjust) / 10
      + 180 * (10 - e.safety_index) / 10
      + 1 * e.freeflow_time_s

/-- Static attributes of an edge within the ranges of the data model. -/
def ValidEdge (e : Edge) : Prop :=
  0 ≤ e.distance_m ∧ 0 ≤ e.freeflow_time_s ∧ 0 ≤ e.road_quality ∧ e.road_quality ≤ 10 ∧
    0 ≤ e.safety_index ∧ e.safety_index ≤ 10

/-- Live condition within the ranges of the data model, with a non-negative quality term. -/
def ValidCondition (e : Edge) (c : LiveCondition) : Prop :=
  0 ≤ c.trafficMultiplier ∧ 0 ≤ c.rainfallMmPerHour ∧
    e.road_quality + c.roadQualityAdjust ≤ 10

/-- An edge record with neutral attributes: no free-flow time, quality and safety 10. -/
def neutralEdge (u v : Nat) (distance_m : ℚ) (edge_id : Int) : Edge :=
  { u := u, v := v, distance_m := distance_m, freeflow_time_s := 0, road_quality := 10,
    safety_index := 10, edge_id := edge_id }

/-- The empty overlay. -/
def noUpdates : Overlay := fun _ => none

/-- An overlay with one entry, which sets nothing but the traffic multiplier. -/
def trafficOnly (edge_id : Int) (mul : ℚ) : Overlay :=
  fun i => if i = edge_id then
    some { traffic_multiplier := some mul, rain_mm_hr := none, blocked := none,
           road_quality_adjust := none }
  else none

/-- The entries that the adjacency loop of `load_edges` appends to `adj[a]` for the edges
`es`, the first of which has index `i`. -/
def adjOf : List Edge → Nat → Nat → List (Nat × Nat)
  | [], _, _ => []
  | e :: es, i, a =>
    (if e.u = a then [(e.v, i)] else []) ++ (if e.v = a then [(e.u, i)] else [])
      ++ adjOf es (i + 1) a

/-- A number above every node id of the edge table. -/
def nodeBound : List Edge → Nat
  | [] => 0
  | e :: es => max (max e.u e.v + 1) (nodeBound es)

/-- An overlay whose entries set nothing but the traffic multiplier, one per listed edge id. -/
def trafficList (l : List (Int × ℚ)) : Overlay :=
  fun i => (l.lookup i).map (fun mul =>
    { traffic_multiplier := some mul, rain_mm_hr := none, blocked := none,
      road_quality_adjust := none })

/-- Edge table of the chain 0 - 1 - 2 with two zero-length neutral edges (ids 1 and 2). -/
def chainEdges : List Edge := [neutralEdge 0 1 0 1, neutralEdge 1 2 0 2]

/-- Overlay for `chainEdges`: traffic multiplier 0.5 on edge 1 and 0 on edge 2, so that the
costs are -150 and -300. -/
def chainUpdates : Overlay := trafficList [(1, 1 / 2), (2, 0)]

/-- Relation between the state (`updates_by_edge`, `orig`, `changed`) of a probe and the
overlay `upd0` in force before the probe: `orig` holds the former value of every changed
key, and the keys that are not in `changed` are untouched. -/
def Saved (upd0 : Overlay) (st : Overlay × Overlay × List Int) : Prop :=
  (∀ c ∈ st.2.2, st.2.1 c = upd0 c) ∧ (∀ c, c ∉ st.2.2 → st.1 c = upd0 c)

/-- The edge ids that the blocking loop reaches for the target `b` in the adjacency list `l`. -/
def blockIds (edges : List Edge) (b : Nat) (l : List (Nat × Nat)) : List Int :=
  (l.filter (fun pr => decide (pr.1 = b))).map (fun pr => (edges.getD pr.2 default).edge_id)

/-- Edge table of a triangle: the direct edge 0 - 1 (id 7, 1000 m) and the detour 0 - 2 - 1
(ids 8 and 9, 500 m and 600 m). -/
def triangleEdges : List Edge :=
  [neutralEdge 0 1 1000 7, neutralEdge 0 2 500 8, neutralEdge 2 1 600 9]

/-- Overlay for `triangleEdges` with an entry without effect for each of the three edges. -/
def triangleUpdates : Overlay := trafficList [(7, 1), (8, 1), (9, 1)]

/-- The arithmetic of `edge_cost` on an unblocked edge, in the order of the source, with
every operation rounded by `fl`: the statement `double cost = ...;` followed by
`cost += W_TIME * base_time;`. With `fl64` for `fl` this is the value that the program
computes in binary64. -/
def costR (fl : ℚ → ℚ) (distance_m base_time road_quality safety_index traffic_mul rain_mm
    road_adj : ℚ) : ℚ :=
  let cost :=
    fl (fl (fl (fl (distance_m + fl (W_TRAFFIC * fl (traffic_mul - 1)))
        + fl (W_WEATHER * rain_mm))
        + fl (W_ROAD_QUAL * fl (fl (fl (10 - road_quality) - road_adj) / 10)))
        + fl (W_SAFETY * fl (fl (10 - safety_index) / 10)))
  fl (cost + fl (W_TIME * base_time))

/-- The body of `edge_cost` with every arithmetic operation rounded by `fl`. -/
def edge_cost_ofR (fl : ℚ → ℚ) (upd : Overlay) (e : Edge) : ℚ :=
  let base_time := e.freeflow_time_s
  let obj := upd e.edge_id
  let traffic_mul : ℚ :=
    match obj with
    | some o => (match o.traffic_multiplier with | some x => x | none => 1)
    | none => 1
  let rain_mm : ℚ :=
    match obj with
    | some o => (match o.rain_mm_hr with | some x => x | none => 0)
    | none => 0
  let blocked : Bool :=
    match obj with
    | some o => (match o.blocked with | some x => x | none => false)
    | none => false
  let road_adj : ℚ :=
    match obj with
    | some o => (match o.road_quality_adjust with | some x => x | none => 0)
    | none => 0
  if blocked then W_BLOCK
  else costR fl e.distance_m base_time e.road_quality e.safety_index traffic_mul rain_mm road_adj

/-- The function `edge_cost(edge_index)` with every arithmetic operation rounded by `fl`. -/
def edge_costR (fl : ℚ → ℚ) (edges : List Edge) (upd : Overlay) (edge_index : Nat) : ℚ :=
  edge_cost_ofR fl upd (edges.getD edge_index default)

/-- The sixteen exact results that `costR` hands to `fl`, in the order of evaluation: the
operands of each operation are the rounded results of the earlier ones. -/
def costOps (fl : ℚ → ℚ) (distance_m base_time road_quality safety_index traffic_mul rain_mm
    road_adj : ℚ) : List ℚ :=
  let a1 := traffic_mul - 1
  let a2 := W_TRAFFIC * fl a1
  let s1 := distance_m + fl a2
  let b1 := W_WEATHER * rain_mm
  let s2 := fl s1 + fl b1
  let c1 := 10 - road_quality
  let c2 := fl c1 - road_adj
  let c3 := fl c2 / 10
  let c4 := W_ROAD_QUAL * fl c3
  let s3 := fl s2 + fl c4
  let d1 := 10 - safety_index
  let d2 := fl d1 / 10
  let d3 := W_SAFETY * fl d2
  let s4 := fl s3 + fl d3
  let e1 := W_TIME * base_time
  let s5 := fl s4 + fl e1
  [a1, a2, s1, b1, s2, c1, c2, c3, c4, s3, d1, d2, d3, s4, e1, s5]

/-- The reference cost of the specification evaluated with the rounding `fl` in the order in
which the formula is written: the quality and safety terms multiply before they divide. -/
def specCostR (fl : ℚ → ℚ) (e : Edge) (c : LiveCondition) : ℚ :=
  if c.blocked then 10000000
  else
    fl (fl (fl (fl (fl (e.distance_m + fl (300 * fl (c.trafficMultiplier - 1)))
        + fl (250 * c.rainfallMmPerHour))
        + fl (fl (200 * fl (fl (10 - e.road_quality) - c.roadQualityAdjust)) / 10))
        + fl (fl (180 * fl (10 - e.safety_index)) / 10))
        + fl (1 * e.freeflow_time_s))

/-- The reference cost with every term replaced by its magnitude: the scale against which
the rounding error of `edge_cost` is measured. -/
def costScale (e : Edge) (c : LiveCondition) : ℚ :=
  |e.distance_m| + 300 * (|c.trafficMultiplier| + 1) + 250 * |c.rainfallMmPerHour|
    + 200 * ((10 + |e.road_quality| + |c.roadQualityAdjust|) / 10)
    + 180 * ((10 + |e.safety_index|) / 10)
    + 1 * |e.freeflow_time_s|

/-- The number `xt` approximates `x` after `k` roundings of relative error at most `u`,
where `m` bounds the magnitude of `x`. -/
def Near (u : ℚ) (k : Nat) (xt x m : ℚ) : Prop :=
  |xt - x| ≤ ((1 + u) ^ k - 1) * m ∧ |x| ≤ m

/-- A zero-length edge 0 - 1 (id 7) of safety 10 whose road quality is the double nearest
to 9.3. -/
def roughEdge : Edge :=
  { u := 0, v := 1, distance_m := 0, freeflow_time_s := 0, road_quality := fl64 (93 / 10),
    safety_index := 10, edge_id := 7 }

/-- An edge 0 - 1 (id 7) whose attributes are the doubles nearest to 1234.5 m, 77.7 s,
quality 9.3 and safety 6.1. -/
def busyEdge : Edge :=
  { u := 0, v := 1, distance_m := fl64 (12345 / 10), freeflow_time_s := fl64 (777 / 10),
    road_quality := fl64 (93 / 10), safety_index := fl64 (61 / 10), edge_id := 7 }

/-- An overlay with one entry, for edge 7: the doubles nearest to a traffic multiplier of
1.3, rainfall of 2.7 mm/h and a quality adjustment of 0.2; `blocked` is absent. -/
def busyUpdates : Overlay :=
  fun i => if i = 7 then
    some { traffic_multiplier := some (fl64 (13 / 10)), rain_mm_hr := some (fl64 (27 / 10)),
           blocked := none, road_quality_adjust := some (fl64 (1 / 5)) }
  else none

end SafePath

/-! ## `graph_logic.c` -/

namespace GraphLogic

/-- The constant `NODES`: the number of nodes, and the size of every array. -/
def NODES : Nat := 7

/-- The constant `DBL_MAX` of `<float.h>`: `(2 - 2^-52) * 2^1023`. -/
def DBL_MAX : ℚ := 2 ^ 1024 - 2 ^ 971

/-- The array `double graph[NODES][NODES]`; the entry `-1` marks an absent edge.  Only the
entries with both indices below `NODES` exist. -/
abbrev Matrix := Nat → Nat → ℚ

/-- The function `edge_score(time, traffic, quality, weather)`. -/
def edge_score (time traffic quality weather : Int) : ℚ :=
  time * (2 / 5) + traffic * (3 / 10) + (10 - quality) * (1 / 5) + weather * (1 / 10)

/-- The local arrays `visited`, `dist` and the array `prev` of `dijkstra`. -/
structure State where
  visited : Nat → Bool
  dist : Nat → ℚ
  prev : Nat → Option Nat

/-- The loop `for (j ...) if (!visited[j] && dist[j] < min) { min = dist[j]; u = j; }`; the
state is the pair (`min`, `u`), with `none` for `u == -1`. -/
def selectLoop (visited : Nat → Bool) (dist : Nat → ℚ) :
    List Nat → ℚ × Option Nat → ℚ × Option Nat
  | [], mu => mu
  | j :: js, mu =>
    if visited j = false ∧ dist j < mu.1 then selectLoop visited dist js (dist j, some j)
    else selectLoop visited dist js mu

/-- The loop `for (v ...) if (graph[u][v] != -1 && dist[u]+graph[u][v] < dist[v]) { ... }`. -/
def relaxLoop (graph : Matrix) (u : Nat) : List Nat → State → State
  | [], st => st
  | v :: vs, st =>
    if graph u v ≠ -1 ∧ st.dist u + graph u v < st.dist v then
      relaxLoop graph u vs
        { st with dist := Function.update st.dist v (st.dist u + graph u v)
                  prev := Function.update st.prev v (some u) }
    else relaxLoop graph u vs st

/-- The outer loop `for (i = 0; i < NODES; i++)` of `dijkstra`; the first argument is the
number of iterations left, and `if (u == -1) break;` ends the loop. -/
def mainLoop (graph : Matrix) : Nat → State → State
  | 0, st => st
  | i + 1, st =>
    match (selectLoop st.visited st.dist (List.range NODES) (DBL_MAX, none)).2 with
    | none => st
    | some u =>
      mainLoop graph i
        (relaxLoop graph u (List.range NODES)
          { st with visited := Function.update st.visited u true })

/-- The function `dijkstra(graph, src, dest, prev)`: the array `prev` when it returns.  The
parameter `dest` is not used by the function. -/
def dijkstra (graph : Matrix) (src _dest : Nat) (prev : Nat → Option Nat) : Nat → Option Nat :=
  (mainLoop graph NODES
    { visited := fun _ => false
      dist := Function.update (fun _ => DBL_MAX) src 0
      prev := prev }).prev

/-- The function `get_path(prev, dest, path, &length)`: the array `path` when it returns;
the fuel bounds the depth of the recursion. -/
def get_path (prev : Nat → Option Nat) : Nat → Nat → List Nat → Option (List Nat)
  | 0, _, _ => none
  | fuel + 1, dest, path =>
    match prev dest with
    | none => some (path ++ [dest])
    | some p => (get_path prev fuel p path).map (fun path1 => path1 ++ [dest])

/-- The array `prev` of `main` before the call: `prev[i] = -1` for every `i`. -/
def noPrev : Nat → Option Nat := fun _ => none

/-- The solver of `main`: `dijkstra(graph, start, end, prev)` on the array `prev` filled with
`-1`, then `get_path(prev, end, path, &length)` with `length = 0`. -/
def solve (fuel : Nat) (graph : Matrix) (src dest : Nat) : Option (List Nat) :=
  get_path (dijkstra graph src dest noPrev) fuel dest []

/-- The rows `{from, to, time, traffic, road_quality, weather}` of the array `edges` of
`main`. -/
def edgeRows : List (Nat × Nat × Int × Int × Int × Int) :=
  [(0, 1, 5, 2, 8, 1), (0, 2, 7, 3, 7, 2), (1, 3, 6, 4, 9, 1), (1, 4, 4, 3, 8, 1),
   (2, 3, 5, 5, 6, 2), (2, 5, 7, 4, 7, 2), (3, 4, 4, 2, 8, 1), (3, 5, 6, 3, 9, 1),
   (4, 6, 5, 3, 8, 1), (5, 6, 4, 2, 9, 1)]

/-- The matrix with every entry `-1`. -/
def emptyMatrix : Matrix := fun _ _ => -1

/-- The matrix built by `main`: every entry `-1`, then
`graph[from][to] = edge_score(time, traffic, road_quality, weather)` for each row. -/
def demoMatrix : Matrix :=
  edgeRows.foldl
    (fun g e => Function.update g e.1
      (Function.update (g e.1) e.2.1 (edge_score e.2.2.1 e.2.2.2.1 e.2.2.2.2.1 e.2.2.2.2.2)))
    emptyMatrix

/-- The present entries leaving `u`: the pairs `(v, graph[u][v])` with `graph[u][v] != -1`. -/
def out (graph : Matrix) (u : Nat) : List (Nat × ℚ) :=
  if u < NODES then
    ((List.range NODES).filter (fun v => decide (graph u v ≠ -1))).map (fun v => (v, graph u v))
  else []

/-- Node `dest` is reachable from `src` through present entries of the matrix. -/
def Reachable (graph : Matrix) (src dest : Nat) : Prop :=
  ∃ p, IsWalk (out graph) src p dest

/-- Every present entry of the matrix is non-negative. -/
def NonNeg (graph : Matrix) : Prop :=
  ∀ u v, u < NODES → v < NODES → graph u v ≠ -1 → 0 ≤ graph u v

/-- Total score of a node sequence: the sum of `graph[u][v]` over its consecutive pairs. -/
def pathScore (graph : Matrix) : List Nat → ℚ
  | u :: v :: rest => graph u v + pathScore graph (v :: rest)
  | _ => 0

/-- Facts on the arrays of `dijkstra` that hold for every matrix: a distance below `DBL_MAX`
or a predecessor is only given to a node that is reachable from `src`. -/
structure Reached (graph : Matrix) (src : Nat) (st : State) : Prop where
  dist_le : ∀ v, st.dist v ≤ DBL_MAX
  reach : ∀ v, st.dist v < DBL_MAX → Reachable graph src v
  par : ∀ v u, st.prev v = some u → Reachable graph src v

/-- The set of the visited nodes. -/
def visitedSet (st : State) : Finset Nat :=
  (Finset.range NODES).filter (fun v => st.visited v = true)

/-- A matrix with the single present entry `graph[0][1] = DBL_MAX`. -/
def farMatrix : Matrix := Function.update emptyMatrix 0 (Function.update (emptyMatrix 0) 1 DBL_MAX)

/-- Invariant of the outer loop of `dijkstra` on a matrix with non-negative entries, after
`n` iterations: the distances lie between 0 and `DBL_MAX`, a predecessor is a visited node
joined to its successor by a present entry along which the distance adds up, the
predecessor chain of a visited node ends after fewer than `n` steps, and no visited node is
farther than an unvisited one. -/
structure Visited (graph : Matrix) (src n : Nat) (st : State) : Prop where
  dist_nonneg : ∀ v, 0 ≤ st.dist v
  dist_le : ∀ v, st.dist v ≤ DBL_MAX
  src_dist : st.dist src = 0
  src_prev : st.prev src = none
  root : ∀ v, st.dist v < DBL_MAX → v = src ∨ st.prev v ≠ none
  par : ∀ v u, st.prev v = some u →
    u ∈ visitedSet st ∧ (v, graph u v) ∈ out graph u ∧ st.dist v = st.dist u + graph u v
  anc : ∀ x ∈ visitedSet st, ∃ k, k < n ∧ Anc st.prev x k
  order : ∀ u ∈ visitedSet st, ∀ v, v < NODES → st.visited v = false → st.dist u ≤ st.dist v
  vis_fin : ∀ u ∈ visitedSet st, st.dist u < DBL_MAX
  count : (visitedSet st).card = n

/-- Every present entry that leaves a visited node has been relaxed. -/
def Closed (graph : Matrix) (st : State) : Prop :=
  ∀ u ∈ visitedSet st, ∀ v, v < NODES → graph u v ≠ -1 → st.dist v ≤ st.dist u + graph u v

/-- The function `edge_score` with every `double` operation rounded to binary64: the `int`
arguments convert exactly, the constants are the `double` literals `0.4`, `0.3`, `0.2`,
`0.1`, and `10 - quality` is an `int` subtraction. -/
def edge_score64 (time traffic quality weather : Int) : ℚ :=
  fl64 (fl64 (fl64 (fl64 (time * fl64 (2 / 5)) + fl64 (traffic * fl64 (3 / 10)))
    + fl64 (((10 - quality : Int) : ℚ) * fl64 (1 / 5))) + fl64 (weather * fl64 (1 / 10)))

/-- The loop over `v` of `dijkstra` with the sum `dist[u]+graph[u][v]` rounded to binary64. -/
def relaxLoop64 (graph : Matrix) (u : Nat) : List Nat → State → State
  | [], st => st
  | v :: vs, st =>
    if graph u v ≠ -1 ∧ fl64 (st.dist u + graph u v) < st.dist v then
      relaxLoop64 graph u vs
        { st with dist := Function.update st.dist v (fl64 (st.dist u + graph u v))
                  prev := Function.update st.prev v (some u) }
    else relaxLoop64 graph u vs st

/-- The outer loop of `dijkstra` over `relaxLoop64`. -/
def mainLoop64 (graph : Matrix) : Nat → State → State
  | 0, st => st
  | i + 1, st =>
    match (selectLoop st.visited st.dist (List.range NODES) (DBL_MAX, none)).2 with
    | none => st
    | some u =>
      mainLoop64 graph i
        (relaxLoop64 graph u (List.range NODES)
          { st with visited := Function.update st.visited u true })

/-- The function `dijkstra(graph, src, dest, prev)` with every `double` operation rounded to
binary64. -/
def dijkstra64 (graph : Matrix) (src _dest : Nat) (prev : Nat → Option Nat) : Nat → Option Nat :=
  (mainLoop64 graph NODES
    { visited := fun _ => false
      dist := Function.update (fun _ => DBL_MAX) src 0
      prev := prev }).prev

/-- The solver of `main` over `dijkstra64`. -/
def solve64 (fuel : Nat) (graph : Matrix) (src dest : Nat) : Option (List Nat) :=
  get_path (dijkstra64 graph src dest noPrev) fuel dest []

/-- The matrix that `main` holds in binary64: every entry `-1`, then
`graph[from][to] = edge_score(time, traffic, road_quality, weather)` for each row, the score
being computed in binary64. -/
def demoMatrix64 : Matrix :=
  edgeRows.foldl
    (fun g e => Function.update g e.1
      (Function.update (g e.1) e.2.1 (edge_score64 e.2.2.1 e.2.2.2.1 e.2.2.2.2.1 e.2.2.2.2.2)))
    emptyMatrix

/-- Every present entry of the matrix is a non-negative whole number. -/
def WholeEntries (graph : Matrix) : Prop :=
  ∀ u, u < NODES → ∀ v, v < NODES → graph u v ≠ -1 → (graph u v).den = 1 ∧ 0 ≤ graph u v

/-- The sum of the present entries of the matrix. -/
def totalScore (graph : Matrix) : ℚ :=
  ((List.range NODES).map (fun u =>
    ((List.range NODES).map (fun v => if graph u v ≠ -1 then graph u v else 0)).sum)).sum

/-- The matrix of `main` with every score multiplied by ten: whole numbers from 25 to 48. -/
def tenfoldMatrix : Matrix :=
  fun u v => if demoMatrix u v = -1 then -1 else 10 * demoMatrix u v

end GraphLogic

/-! ## Theorems -/

/-! ### Basic facts on the queue and the relaxation loops -/

theorem pqTop_mem : ∀ (l : List (ℚ × Nat)) (x : ℚ × Nat), pqTop l = some x → x ∈ l
  | [], x, h => by simp [pqTop] at h
  | a :: rest, x, h => by
    unfold pqTop at h
    cases hr : pqTop rest with
    | none =>
      rw [hr] at h
      simp at h
      simp [h]
    | some b =>
      rw [hr] at h
      simp only at h
      split at h
      · simp at h; simp [h]
      · simp at h; subst h
        exact List.mem_cons_of_mem _ (pqTop_mem rest b hr)

theorem pqTop_eq_none : ∀ (l : List (ℚ × Nat)), pqTop l = none → l = []
  | [], _ => rfl
  | a :: rest, h => by
    unfold pqTop at h
    cases hr : pqTop rest with
    | none => rw [hr] at h; simp at h
    | some b => rw [hr] at h; simp only at h; split at h <;> simp at h

theorem pqLe_fst {a b : ℚ × Nat} (h : pqLe a b = true) : a.1 ≤ b.1 := by
  unfold pqLe at h
  simp only [Bool.or_eq_true, Bool.and_eq_true, decide_eq_true_eq] at h
  rcases h with h | ⟨h, _⟩
  · exact le_of_lt h
  · exact le_of_eq h

theorem pqLe_total {a b : ℚ × Nat} (h : ¬ pqLe a b = true) : b.1 ≤ a.1 := by
  unfold pqLe at h
  simp only [Bool.or_eq_true, Bool.and_eq_true, decide_eq_true_eq, not_or, not_and] at h
  exact not_lt.mp h.1

theorem pqTop_le : ∀ (l : List (ℚ × Nat)) (x : ℚ × Nat), pqTop l = some x →
    ∀ y ∈ l, x.1 ≤ y.1
  | [], x, h => by simp [pqTop] at h
  | a :: rest, x, h => by
    intro y hy
    unfold pqTop at h
    cases hr : pqTop rest with
    | none =>
      rw [hr] at h
      simp at h
      subst h
      have : rest = [] := pqTop_eq_none rest hr
      subst this
      simp at hy
      subst hy
      exact le_refl _
    | some b =>
      rw [hr] at h
      simp only at h
      have hb := pqTop_le rest b hr
      rcases List.mem_cons.mp hy with rfl | hy
      · split at h
        · simp at h; subst h; exact le_refl _
        · rename_i hle
          simp at h; subst h
          exact pqLe_total hle
      · split at h
        · rename_i hle
          simp at h; subst h
          exact le_trans (pqLe_fst hle) (hb y hy)
        · simp at h; subst h
          exact hb y hy

theorem getD_eq_of_lt {α : Type} (l : List α) (i : Nat) (d : α) (hi : i < l.length) :
    l.getD i d = l[i] := by
  simp [List.getD_eq_getElem?_getD, List.getElem?_eq_getElem hi]

theorem eps_pos : 0 < EPS := by unfold EPS; norm_num

theorem nopath_lt_inf : NOPATH < INF := by unfold NOPATH INF; norm_num

theorem inf_pos : 0 < INF := by unfold INF; norm_num

namespace MainCpp

theorem relaxEdges_eq_relaxOut (F : List Nat) (d : ℚ) (u : Nat) :
    ∀ (es : List Edge) (st : DState),
      relaxEdges F d u es st
        = relaxOut d u ((es.filter (fun e => decide (e.id ∉ F))).map (fun e => (e.dst, e.w))) st
  | [], st => rfl
  | e :: es, st => by
    unfold relaxEdges
    by_cases h : e.id ∈ F
    · simp [h, relaxEdges_eq_relaxOut F d u es st]
    · simp [h, relaxOut, relaxEdges_eq_relaxOut F d u es]

theorem relaxEdges_fun_eq (G : Graph) (F : List Nat) :
    (fun d u st => relaxEdges F d u (G.getD u []) st)
      = (fun d u st => relaxOut d u (usable G F u) st) := by
  funext d u st
  exact relaxEdges_eq_relaxOut F d u _ st

end MainCpp

namespace SafePath

theorem relaxAdj_eq_relaxOut (edges : List Edge) (upd : Overlay) (d : ℚ) (u : Nat) :
    ∀ (l : List (Nat × Nat)) (st : DState),
      relaxAdj edges upd d u l st
        = relaxOut d u ((l.filter (fun pr => decide (edge_cost edges upd pr.2 < IMPASSABLE))).map
            (fun pr => (pr.1, edge_cost edges upd pr.2))) st
  | [], st => rfl
  | pr :: rest, st => by
    unfold relaxAdj
    by_cases h : edge_cost edges upd pr.2 ≥ IMPASSABLE
    · have h2 : ¬ edge_cost edges upd pr.2 < IMPASSABLE := not_lt.mpr h
      simp [h, h2, relaxAdj_eq_relaxOut edges upd d u rest st]
    · have h2 : edge_cost edges upd pr.2 < IMPASSABLE := not_le.mp h
      simp [h, h2, relaxOut, relaxAdj_eq_relaxOut edges upd d u rest]

theorem relaxAdj_fun_eq (edges : List Edge) (adj : Adj) (upd : Overlay) :
    (fun d u st => relaxAdj edges upd d u (adj u) st)
      = (fun d u st => relaxOut d u (usable edges adj upd u) st) := by
  funext d u st
  exact relaxAdj_eq_relaxOut edges upd d u _ st

end SafePath

/-! ### The cost evaluator -/

namespace SafePath

/-- The body of `edge_cost` agrees with the reference cost on every edge record. -/
theorem edge_cost_of_eq (upd : Overlay) (e : Edge) :
    edge_cost_of upd e = specCost e (getCondition upd e.edge_id) := by
  unfold edge_cost_of specCost getCondition
  cases hu : upd e.edge_id with
  | none => simp [W_TRAFFIC, W_WEATHER, W_ROAD_QUAL, W_SAFETY, W_TIME]; ring
  | some o =>
    obtain ⟨tm, rn, bl, ra⟩ := o
    cases tm <;> cases rn <;> cases bl <;> cases ra <;>
      simp [W_TRAFFIC, W_WEATHER, W_ROAD_QUAL, W_SAFETY, W_TIME, W_BLOCK] <;>
      (try split) <;> (try ring)

/-- C9 (counterexample): an edge of length 0 with all attributes in range and a traffic
multiplier of 0, which the data model allows, has cost -300. -/
theorem edge_cost_negative :
    ValidEdge (neutralEdge 0 1 0 7) ∧
      ValidCondition (neutralEdge 0 1 0 7) (getCondition (trafficOnly 7 0) 7) ∧
      edge_cost [neutralEdge 0 1 0 7] (trafficOnly 7 0) 0 = -300 := by
  refine ⟨?_, ?_, ?_⟩
  · simp [ValidEdge, neutralEdge]
  · simp [ValidCondition, neutralEdge, getCondition, trafficOnly]
  · decide!

/-- C9 (amended): with attributes in range, a non-negative quality term, rainfall at least 0
and a traffic multiplier of at least 1, `edge_cost` is non-negative. -/
theorem edge_cost_nonneg (edges : List Edge) (upd : Overlay) (i : Nat)
    (hi : i < edges.length) (he : ValidEdge edges[i])
    (hc : ValidCondition edges[i] (getCondition upd edges[i].edge_id))
    (htm : 1 ≤ (getCondition upd edges[i].edge_id).trafficMultiplier) :
    0 ≤ edge_cost edges upd i := by
  unfold edge_cost
  rw [getD_eq_of_lt edges i default hi, edge_cost_of_eq]
  generalize edges[i] = e at he hc htm
  generalize getCondition upd e.edge_id = c at hc htm
  obtain ⟨h1, h2, h3, h4, h5, h6⟩ := he
  obtain ⟨_, c2, c3⟩ := hc
  unfold specCost
  split
  · norm_num
  · have a1 : 0 ≤ 300 * (c.trafficMultiplier - 1) := by linarith
    have a2 : 0 ≤ 250 * c.rainfallMmPerHour := by linarith
    have a3 : 0 ≤ 200 * (10 - e.road_quality - c.roadQualityAdjust) / 10 := by
      apply div_nonneg _ (by norm_num); linarith
    have a4 : 0 ≤ 180 * (10 - e.safety_index) / 10 := by
      apply div_nonneg _ (by norm_num); linarith
    linarith

/-- C9 (witness): the bound on a one-edge table with a traffic multiplier of 2. -/
theorem edge_cost_nonneg_witness :
    0 ≤ edge_cost [neutralEdge 0 1 1000 7] (trafficOnly 7 2) 0 :=
  edge_cost_nonneg [neutralEdge 0 1 1000 7] (trafficOnly 7 2) 0 (by decide)
    (by simp [ValidEdge, neutralEdge])
    (by simp [ValidCondition, neutralEdge, getCondition, trafficOnly])
    (by simp [neutralEdge, getCondition, trafficOnly])

end SafePath

/-! ### Facts of the search that hold for any edge costs -/

theorem relaxStep_dist_le (d : ℚ) (u : Nat) (st : DState) (v : Nat) (c : ℚ) (w : Nat) :
    (relaxStep d u st v c).dist w ≤ st.dist w := by
  unfold relaxStep
  split
  · rename_i h
    by_cases hw : w = v
    · subst hw
      simp only [Function.update_same]
      have := eps_pos
      linarith
    · simp [Function.update_noteq hw]
  · exact le_refl _

theorem touched_init (out : Nat → List (Nat × ℚ)) (s : Nat) : Touched out s (initState s) where
  dist_le := by
    intro v
    unfold initState
    by_cases h : v = s
    · subst h; simp; exact le_of_lt inf_pos
    · simp [Function.update_noteq h]
  root := by
    intro v hv
    by_cases h : v = s
    · exact Or.inl h
    · simp [initState, Function.update_noteq h] at hv
  par := by
    intro v u h
    simp [initState] at h
  queued := by
    intro x hx
    simp [initState] at hx
    subst hx
    simp [initState]
    exact inf_pos

theorem touched_relaxStep {out : Nat → List (Nat × ℚ)} {s : Nat} {st : DState}
    (d : ℚ) {u v : Nat} {c : ℚ} (T : Touched out s st) (hu : st.dist u < INF)
    (he : (v, c) ∈ out u) :
    Touched out s (relaxStep d u st v c) ∧ (relaxStep d u st v c).dist u < INF := by
  have hmono := relaxStep_dist_le d u st v c
  refine ⟨?_, lt_of_le_of_lt (hmono u) hu⟩
  unfold relaxStep at hmono ⊢
  split
  · rename_i h
    simp only [h, if_true] at hmono
    have hlt : d + c < INF := by
      have := T.dist_le v
      have := eps_pos
      linarith
    constructor
    · intro w
      exact le_trans (hmono w) (T.dist_le w)
    · intro w hw
      by_cases hwv : w = v
      · subst hwv
        right
        simp
      · simp only [Function.update_noteq hwv] at hw ⊢
        exact T.root w hw
    · intro w u' hp
      by_cases hwv : w = v
      · subst hwv
        simp only [Function.update_same, Option.some.injEq] at hp
        subst hp
        exact ⟨lt_of_le_of_lt (hmono u) hu, c, he⟩
      · simp only [Function.update_noteq hwv] at hp
        obtain ⟨h1, h2⟩ := T.par w u' hp
        exact ⟨lt_of_le_of_lt (hmono u') h1, h2⟩
    · intro x hx
      rcases List.mem_cons.mp hx with rfl | hx
      · simpa using hlt
      · exact lt_of_le_of_lt (hmono x.2) (T.queued x hx)
  · exact T

theorem touched_relaxOut {out : Nat → List (Nat × ℚ)} {s : Nat} (d : ℚ) {u : Nat} :
    ∀ (l : List (Nat × ℚ)) (st : DState), (∀ e ∈ l, e ∈ out u) → Touched out s st →
      st.dist u < INF →
      Touched out s (relaxOut d u l st) ∧ (relaxOut d u l st).dist u < INF
  | [], st, _, T, hu => ⟨T, hu⟩
  | e :: es, st, hl, T, hu => by
    unfold relaxOut
    have he : (e.1, e.2) ∈ out u := hl e (List.mem_cons_self _ _)
    obtain ⟨T1, hu1⟩ := touched_relaxStep d T hu he
    exact touched_relaxOut d es _ (fun x hx => hl x (List.mem_cons_of_mem _ hx)) T1 hu1

theorem touched_searchLoop {out : Nat → List (Nat × ℚ)} {s : Nat} (t : Nat) :
    ∀ (fuel : Nat) (st st' : DState), Touched out s st →
      searchLoop (fun d u st => relaxOut d u (out u) st) t fuel st = some st' →
      Touched out s st'
  | 0, st, st', _, h => by simp [searchLoop] at h
  | fuel + 1, st, st', T, h => by
    unfold searchLoop at h
    cases htop : pqTop st.pq with
    | none =>
      rw [htop] at h
      simp at h
      subst h
      exact T
    | some top =>
      rw [htop] at h
      simp only at h
      have hmem := pqTop_mem _ _ htop
      have T1 : Touched out s { st with pq := st.pq.erase top } :=
        { dist_le := T.dist_le, root := T.root, par := T.par,
          queued := fun x hx => T.queued x (List.mem_of_mem_erase hx) }
      split at h
      · exact touched_searchLoop t fuel _ st' T1 h
      · split at h
        · simp at h
          subst h
          exact T1
        · have hu : st.dist top.2 < INF := T.queued top hmem
          obtain ⟨T2, _⟩ := touched_relaxOut top.1 (out top.2) _ (fun e he => he) T1 hu
          exact touched_searchLoop t fuel _ st' T2 h

theorem prevChain_none (prev : Nat → Option Nat) (l : List Nat) :
    PrevChain prev none l → l = [] := by
  cases l with
  | nil => intro _; rfl
  | cons x rest => intro h; simp [PrevChain] at h

theorem walkLoop_chain (prev : Nat → Option Nat) :
    ∀ (fuel : Nat) (cur : Option Nat) (acc p : List Nat),
      SafePath.walkLoop prev fuel cur acc = some p →
      ∃ l, p = acc ++ l ∧ PrevChain prev cur l
  | 0, cur, acc, p, h => by simp [SafePath.walkLoop] at h
  | fuel + 1, none, acc, p, h => by
    simp [SafePath.walkLoop] at h
    exact ⟨[], by simp [h], rfl⟩
  | fuel + 1, some cur, acc, p, h => by
    simp only [SafePath.walkLoop] at h
    obtain ⟨l, hl, hc⟩ := walkLoop_chain prev fuel (prev cur) _ p h
    exact ⟨cur :: l, by simp [hl], ⟨rfl, hc⟩⟩

theorem touched_chain {out : Nat → List (Nat × ℚ)} {s : Nat} {st : DState}
    (T : Touched out s st) :
    ∀ (l : List Nat) (x : Nat), PrevChain st.parent (some x) l → st.dist x < INF →
      l.head? = some x ∧ l.getLast? = some s ∧
        List.Chain' (fun a b => ∃ c, (a, c) ∈ out b) l
  | [], x, h, _ => by simp [PrevChain] at h
  | y :: rest, x, h, hx => by
    obtain ⟨hxy, hrest⟩ := h
    simp only [Option.some.injEq] at hxy
    subst hxy
    cases hp : st.parent x with
    | none =>
      rw [hp] at hrest
      have := prevChain_none _ _ hrest
      subst this
      rcases T.root x hx with h | h
      · subst h; simp
      · exact absurd hp h
    | some z =>
      rw [hp] at hrest
      obtain ⟨hz, c, hc⟩ := T.par x z hp
      obtain ⟨h1, h2, h3⟩ := touched_chain T rest z hrest hz
      cases rest with
      | nil => simp at h1
      | cons r rest' =>
        simp only [List.head?_cons, Option.some.injEq] at h1
        subst h1
        refine ⟨rfl, ?_, ?_⟩
        · rw [List.getLast?_cons_cons]; exact h2
        · exact List.Chain'.cons ⟨c, hc⟩ h3

/-! ### The path returned by `dijkstra_path` -/

namespace SafePath

theorem mem_usable {edges : List Edge} {adj : Adj} {upd : Overlay} {u v : Nat} {c : ℚ}
    (h : (v, c) ∈ usable edges adj upd u) :
    ∃ pr ∈ adj u, pr.1 = v ∧ edge_cost edges upd pr.2 = c ∧
      edge_cost edges upd pr.2 < IMPASSABLE := by
  unfold usable at h
  simp only [List.mem_map, List.mem_filter, decide_eq_true_eq, Prod.mk.injEq] at h
  obtain ⟨pr, ⟨h1, h2⟩, h3, h4⟩ := h
  exact ⟨pr, h1, h3, h4, h2⟩

/-- C3: a non-empty path returned by `dijkstra_path` starts at `src`, ends at `tgt`, and each
consecutive pair `(u, v)` is joined by an entry of `adj[u]` whose `edge_cost` under the
overlay is below the threshold `1e6`. -/
theorem dijkstra_path_valid (fuel : Nat) (edges : List Edge) (adj : Adj) (upd : Overlay)
    (src tgt : Nat) (path : List Nat)
    (h : dijkstra_path fuel edges adj upd src tgt = some path) (hne : path ≠ []) :
    path.head? = some src ∧ path.getLast? = some tgt ∧
      List.Chain' (fun u v => ∃ pr ∈ adj u, pr.1 = v ∧ edge_cost edges upd pr.2 < IMPASSABLE)
        path := by
  unfold dijkstra_path at h
  rw [relaxAdj_fun_eq] at h
  cases hs : searchLoop (fun d u st => relaxOut d u (usable edges adj upd u) st) tgt fuel
      (initState src) with
  | none => rw [hs] at h; simp at h
  | some st =>
    rw [hs] at h
    simp only at h
    have T := touched_searchLoop tgt fuel _ st (touched_init _ src) hs
    split at h
    · simp at h; exact absurd h hne
    · rename_i hd
      have hlt : st.dist tgt < INF := lt_trans (not_le.mp hd) nopath_lt_inf
      cases hw : walkLoop st.parent fuel (some tgt) [] with
      | none => rw [hw] at h; simp at h
      | some p =>
        rw [hw] at h
        simp at h
        obtain ⟨l, hl, hc⟩ := walkLoop_chain _ _ _ _ _ hw
        simp at hl
        subst hl
        obtain ⟨h1, h2, h3⟩ := touched_chain T p tgt hc hlt
        subst h
        refine ⟨by rw [List.head?_reverse]; exact h2, by rw [List.getLast?_reverse]; exact h1, ?_⟩
        rw [List.chain'_reverse]
        refine List.Chain'.imp ?_ h3
        intro a b ⟨c, hc⟩
        obtain ⟨pr, hp1, hp2, _, hp4⟩ := mem_usable hc
        exact ⟨pr, hp1, hp2, hp4⟩

/-- C3 (witness): on the table with the single edge 0 - 1 the path from 0 to 1 is `[0, 1]`. -/
theorem dijkstra_path_valid_witness :
    [0, 1].head? = some 0 ∧ [0, 1].getLast? = some 1 ∧
      List.Chain' (fun u v => ∃ pr ∈ build_adj [neutralEdge 0 1 1000 7] u, pr.1 = v ∧
        edge_cost [neutralEdge 0 1 1000 7] noUpdates pr.2 < IMPASSABLE) [0, 1] :=
  dijkstra_path_valid 10 [neutralEdge 0 1 1000 7] (build_adj [neutralEdge 0 1 1000 7])
    noUpdates 0 1 [0, 1] (by decide!) (by decide)

end SafePath

/-! ### Evaluations of the alternative-route searches -/

namespace MainCpp

/-- C1 (counterexample): on `epsGraph` the call `dijkstra(0, 2, {}, parent)` returns 1, while
the path 0 -> 1 -> 2 has the smaller weight `1 - 0.5e-9`; all weights are non-negative. -/
theorem dijkstra_not_minimum :
    NonNeg epsGraph ∧
      (dijkstra 10 epsGraph 0 2 []).map Prod.fst = some 1 ∧
      IsPath epsGraph [] 0
        [{ dst := 1, w := 0, id := 1 }, { dst := 2, w := 1 - EPS / 2, id := 2 }] 2 ∧
      pathWeight [{ dst := 1, w := 0, id := 1 }, { dst := 2, w := 1 - EPS / 2, id := 2 }] < 1 := by
  refine ⟨by unfold NonNeg; decide!, by decide!, ?_, by decide!⟩
  simp [IsPath, epsGraph]

/-- C5 (failing input): on the built-in graph, from Jayanagar (6) to Rajajinagar (13) with
K = 2, the first route is stored with dist 19600 and the second with dist 16800. -/
theorem yen_lite_not_monotone :
    yen_lite_k_shortest 100 demoGraph 6 13 2
      = some [{ nodes := [6, 0, 1, 2, 14, 13], dist := 19600 },
              { nodes := [6, 12, 13], dist := 16800 }] := by
  decide!

/-- C6 (counterexample): on `twinGraph`, whose weights are non-negative, from 0 to 4 with
K = 3, the route `[0, 2, 3, 4]` is returned twice: two parallel entries 2 -> 3 differ by less
than the tolerance of the relaxation test, and two probes reach the same node sequence at
different distances. -/
theorem yen_lite_duplicate :
    NonNeg twinGraph ∧
      yen_lite_k_shortest 20 twinGraph 0 4 3
        = some [{ nodes := [0, 1, 4], dist := 1 }, { nodes := [0, 2, 3, 4], dist := 3 },
                { nodes := [0, 2, 3, 4], dist := 3 }] := by
  refine ⟨by unfold NonNeg; decide!, by decide!⟩

end MainCpp

namespace SafePath

/-- C8 (failing input): on the table with the single edge 0 - 1 and an empty overlay, the
probe for the pair (0, 1) changes no entry, the edge keeps its cost 1000, the probe finds
the path `[0, 1]` again, and `k_short_simple(0, 1, 2)` returns it twice. -/
theorem probe_leaves_edge_open :
    (blockLoop [neutralEdge 0 1 1000 7] 1 (build_adj [neutralEdge 0 1 1000 7] 0)
        (noUpdates, fun _ => none, [])).2.2 = [] ∧
      edge_cost [neutralEdge 0 1 1000 7]
        (blockLoop [neutralEdge 0 1 1000 7] 1 (build_adj [neutralEdge 0 1 1000 7] 0)
          (noUpdates, fun _ => none, [])).1 0 = 1000 ∧
      dijkstra_path 10 [neutralEdge 0 1 1000 7] (build_adj [neutralEdge 0 1 1000 7])
        (blockLoop [neutralEdge 0 1 1000 7] 1 (build_adj [neutralEdge 0 1 1000 7] 0)
          (noUpdates, fun _ => none, [])).1 0 1 = some [0, 1] ∧
      (k_short_simple 10 [neutralEdge 0 1 1000 7] (build_adj [neutralEdge 0 1 1000 7])
        noUpdates 0 1 2).map Prod.fst = some [[0, 1], [0, 1]] := by
  refine ⟨by decide!, by decide!, by decide!, by decide!⟩

end SafePath

/-! ### The relaxation loop for non-negative costs -/

theorem isWalk_append {out : Nat → List (Nat × ℚ)} :
    ∀ (p : List (Nat × ℚ)) (a b : Nat) (e : Nat × ℚ), IsWalk out a p b → e ∈ out b →
      IsWalk out a (p ++ [e]) e.1
  | [], a, b, e, h, he => by
    simp only [IsWalk] at h
    subst h
    exact ⟨he, rfl⟩
  | x :: p, a, b, e, h, he => by
    obtain ⟨h1, h2⟩ := h
    exact ⟨h1, isWalk_append p x.1 b e h2 he⟩

theorem isWalk_snoc {out : Nat → List (Nat × ℚ)} :
    ∀ (p : List (Nat × ℚ)) (a b : Nat) (e : Nat × ℚ), IsWalk out a (p ++ [e]) b →
      ∃ m, IsWalk out a p m ∧ e ∈ out m ∧ e.1 = b
  | [], a, b, e, h => by
    obtain ⟨h1, h2⟩ := h
    exact ⟨a, rfl, h1, h2⟩
  | x :: p, a, b, e, h => by
    obtain ⟨h1, h2⟩ := h
    obtain ⟨m, hm1, hm2, hm3⟩ := isWalk_snoc p x.1 b e h2
    exact ⟨m, ⟨h1, hm1⟩, hm2, hm3⟩

theorem walkCost_append (p : List (Nat × ℚ)) (e : Nat × ℚ) :
    walkCost (p ++ [e]) = walkCost p + e.2 := by
  simp [walkCost]

theorem anc_update {parent : Nat → Option Nat} {S : Finset Nat} {v : Nat} (y : Option Nat)
    (hpar : ∀ w u, parent w = some u → u ∈ S) (hv : v ∉ S) :
    ∀ (x k : Nat), x ∈ S → Anc parent x k → Anc (Function.update parent v y) x k := by
  intro x k hx h
  induction h with
  | @root w hp =>
    have hne : w ≠ v := fun h => hv (h ▸ hx)
    exact Anc.root (by rw [Function.update_noteq hne]; exact hp)
  | @step w u k hp _ ih =>
    have hne : w ≠ v := fun h => hv (h ▸ hx)
    exact Anc.step (by rw [Function.update_noteq hne]; exact hp) (ih (hpar w u hp))

theorem settled_relaxStep {out : Nat → List (Nat × ℚ)} {s : Nat} {S : Finset Nat}
    {st : DState} {d : ℚ} {u v : Nat} {c : ℚ}
    (hc : 0 ≤ c) (he : (v, c) ∈ out u) (H : Settled out s S st) (hu : u ∈ S)
    (hd : st.dist u = d) (hmax : ∀ x ∈ S, st.dist x ≤ d) :
    Settled out s S (relaxStep d u st v c) ∧
      (∀ x ∈ S, (relaxStep d u st v c).dist x = st.dist x) ∧
      (relaxStep d u st v c).dist v ≤ d + c + EPS ∧
      (relaxStep d u st v c).pq.length ≤ st.pq.length + 1 := by
  have hmono := relaxStep_dist_le d u st v c
  unfold relaxStep at hmono ⊢
  by_cases hlt : d + c + EPS < st.dist v
  · simp only [hlt, if_true] at hmono ⊢
    have heps := eps_pos
    have hd0 : 0 ≤ d := hd ▸ H.dist_nonneg u
    have hvS : v ∉ S := fun h => by
      have := hmax v h
      linarith
    have hvs : v ≠ s := fun h => by
      have := H.src_dist
      rw [h] at hlt
      linarith
    have huv : u ≠ v := fun h => hvS (h ▸ hu)
    have hnew : d + c < INF := by
      have := H.dist_le v
      linarith
    have hSne : ∀ x ∈ S, x ≠ v := fun x hx h => hvS (h ▸ hx)
    refine ⟨?_, ?_, ?_, ?_⟩
    · constructor
      · intro w
        by_cases hw : w = v
        · subst hw; simp; linarith
        · simp [Function.update_noteq hw]; exact H.dist_nonneg w
      · intro w
        exact le_trans (hmono w) (H.dist_le w)
      · simp [Function.update_noteq (Ne.symm hvs)]; exact H.src_dist
      · simp [Function.update_noteq (Ne.symm hvs)]; exact H.src_parent
      · intro w hw
        by_cases hwv : w = v
        · subst hwv
          have hu' : st.dist u < INF := H.done_fin u hu
          obtain ⟨p, hp1, hp2⟩ := H.reach u hu'
          refine ⟨p ++ [(w, c)], isWalk_append p s u (w, c) hp1 he, ?_⟩
          rw [walkCost_append, hp2, hd]
          simp
        · simp only [Function.update_noteq hwv] at hw ⊢
          exact H.reach w hw
      · intro w u' hp
        by_cases hwv : w = v
        · subst hwv
          simp only [Function.update_same, Option.some.injEq] at hp
          subst hp
          refine ⟨hu, c, he, ?_⟩
          simp [Function.update_noteq huv, hd]
        · simp only [Function.update_noteq hwv] at hp ⊢
          obtain ⟨h1, c', h2, h3⟩ := H.par w u' hp
          refine ⟨h1, c', h2, ?_⟩
          rw [Function.update_noteq (hSne u' h1)]
          exact h3
      · intro x hx
        obtain ⟨k, hk0, hk⟩ := H.anc x hx
        exact ⟨k, hk0, anc_update _ (fun w u' h => (H.par w u' h).1) hvS x k hx hk⟩
      · intro w hw hwd
        by_cases hwv : w = v
        · subst hwv
          simp
        · simp only [Function.update_noteq hwv] at hwd ⊢
          exact List.mem_cons_of_mem _ (H.front w hw hwd)
      · intro x hx
        rcases List.mem_cons.mp hx with rfl | hx
        · simp
        · exact le_trans (hmono x.2) (H.pq_ge x hx)
      · intro x hx
        rcases List.mem_cons.mp hx with rfl | hx
        · exact hnew
        · exact H.pq_fin x hx
      · refine List.nodup_cons.mpr ⟨?_, H.pq_nodup⟩
        intro hmem
        have := H.pq_ge _ hmem
        simp at this
        linarith
      · intro u' hu' x hx
        dsimp only at hx ⊢
        rw [Function.update_noteq (hSne u' hu')]
        rcases List.mem_cons.mp hx with rfl | hx
        · have := hmax u' hu'
          simp
          linarith
        · exact H.done_le u' hu' x hx
      · intro u' hu' hmem
        dsimp only at hmem
        rw [Function.update_noteq (hSne u' hu')] at hmem
        rcases List.mem_cons.mp hmem with h | h
        · simp only [Prod.mk.injEq] at h
          exact hSne u' hu' h.2
        · exact H.done_out u' hu' h
      · intro u' hu'
        dsimp only
        rw [Function.update_noteq (hSne u' hu')]
        exact H.done_fin u' hu'
    · intro x hx
      exact Function.update_noteq (hSne x hx) _ _
    · simp
      exact le_of_lt heps
    · simp
  · rw [if_neg hlt]
    exact ⟨H, fun _ _ => rfl, not_lt.mp hlt, Nat.le_succ _⟩

theorem settled_relaxOut {out : Nat → List (Nat × ℚ)} {s : Nat} {S : Finset Nat} {d : ℚ}
    {u : Nat} (hnn : NonNegOut out) (hu : u ∈ S) :
    ∀ (l : List (Nat × ℚ)) (st : DState), (∀ e ∈ l, e ∈ out u) → Settled out s S st →
      st.dist u = d → (∀ x ∈ S, st.dist x ≤ d) →
      Settled out s S (relaxOut d u l st) ∧
        (∀ x ∈ S, (relaxOut d u l st).dist x = st.dist x) ∧
        (∀ w, (relaxOut d u l st).dist w ≤ st.dist w) ∧
        (∀ e ∈ l, (relaxOut d u l st).dist e.1 ≤ d + e.2 + EPS) ∧
        (relaxOut d u l st).pq.length ≤ st.pq.length + l.length
  | [], st, _, H, _, _ => by
    refine ⟨H, fun _ _ => rfl, fun _ => le_refl _, fun e he => ?_, ?_⟩
    · simp at he
    · simp [relaxOut]
  | e :: es, st, hl, H, hd, hmax => by
    have he : (e.1, e.2) ∈ out u := hl e (List.mem_cons_self _ _)
    have hc : 0 ≤ e.2 := hnn u e he
    obtain ⟨H1, hS1, hv1, hlen1⟩ := settled_relaxStep hc he H hu hd hmax
    have hd1 : (relaxStep d u st e.1 e.2).dist u = d := by rw [hS1 u hu]; exact hd
    have hmax1 : ∀ x ∈ S, (relaxStep d u st e.1 e.2).dist x ≤ d := by
      intro x hx; rw [hS1 x hx]; exact hmax x hx
    obtain ⟨H2, hS2, hm2, hv2, hlen2⟩ :=
      settled_relaxOut hnn hu es _ (fun x hx => hl x (List.mem_cons_of_mem _ hx)) H1 hd1 hmax1
    simp only [relaxOut]
    refine ⟨H2, ?_, ?_, ?_, ?_⟩
    · intro x hx; rw [hS2 x hx, hS1 x hx]
    · intro w; exact le_trans (hm2 w) (relaxStep_dist_le d u st e.1 e.2 w)
    · intro e' he'
      rcases List.mem_cons.mp he' with rfl | he'
      · exact le_trans (hm2 _) hv1
      · exact hv2 e' he'
    · simp only [List.length_cons]
      omega

theorem sum_settle (f : Nat → Nat) (S : Finset Nat) (u : Nat) (hu : u ∉ S) :
    ∀ n : Nat, (∑ x ∈ Finset.range n, if x ∈ insert u S then 0 else f x)
        + (if u < n then f u else 0)
      = ∑ x ∈ Finset.range n, if x ∈ S then 0 else f x
  | 0 => by simp
  | n + 1 => by
    rw [Finset.sum_range_succ, Finset.sum_range_succ, ← sum_settle f S u hu n]
    by_cases hn : n = u
    · subst hn
      simp [hu]
    · have h1 : n ∈ insert u S ↔ n ∈ S := by simp [hn]
      have h2 : u < n + 1 ↔ u < n := by omega
      simp only [h1, h2]
      omega

theorem settled_pop {out : Nat → List (Nat × ℚ)} {s : Nat} {S : Finset Nat} {st : DState}
    {top : ℚ × Nat} (H : Settled out s S st) (htop : pqTop st.pq = some top)
    (hfresh : ¬ top.1 > st.dist top.2) :
    Settled out s (insert top.2 S) { st with pq := st.pq.erase top } ∧
      st.dist top.2 = top.1 ∧ (∀ x ∈ insert top.2 S, st.dist x ≤ top.1) ∧ top.2 ∉ S := by
  have hmem := pqTop_mem _ _ htop
  have hmin := pqTop_le _ _ htop
  have hdu : st.dist top.2 = top.1 := le_antisymm (H.pq_ge top hmem) (not_lt.mp hfresh)
  have hnotin : top.2 ∉ S := by
    intro h
    apply H.done_out top.2 h
    rw [hdu]
    exact hmem
  have hmax : ∀ x ∈ insert top.2 S, st.dist x ≤ top.1 := by
    intro x hx
    rcases Finset.mem_insert.mp hx with rfl | hx
    · exact le_of_eq hdu
    · exact H.done_le x hx top hmem
  refine ⟨?_, hdu, hmax, hnotin⟩
  constructor
  · exact H.dist_nonneg
  · exact H.dist_le
  · exact H.src_dist
  · exact H.src_parent
  · exact H.reach
  · intro v u hp
    obtain ⟨h1, h2⟩ := H.par v u hp
    exact ⟨Finset.mem_insert_of_mem h1, h2⟩
  · intro x hx
    have hcard : (insert top.2 S).card = S.card + 1 := Finset.card_insert_of_not_mem hnotin
    rcases Finset.mem_insert.mp hx with rfl | hx
    · cases hp : st.parent top.2 with
      | none => exact ⟨0, by omega, Anc.root hp⟩
      | some y =>
        obtain ⟨k, hk0, hk⟩ := H.anc y (H.par _ _ hp).1
        exact ⟨k + 1, by omega, Anc.step hp hk⟩
    · obtain ⟨k, hk0, hk⟩ := H.anc x hx
      exact ⟨k, by omega, hk⟩
  · intro v hv hvd
    have hv1 : v ≠ top.2 := fun h => hv (h ▸ Finset.mem_insert_self _ _)
    have hv2 : v ∉ S := fun h => hv (Finset.mem_insert_of_mem h)
    have := H.front v hv2 hvd
    refine (List.mem_erase_of_ne ?_).mpr this
    intro h
    apply hv1
    rw [← h]
  · intro x hx
    exact H.pq_ge x (List.mem_of_mem_erase hx)
  · intro x hx
    exact H.pq_fin x (List.mem_of_mem_erase hx)
  · exact H.pq_nodup.erase _
  · intro u hu x hx
    have hx' := List.mem_of_mem_erase hx
    rcases Finset.mem_insert.mp hu with rfl | hu
    · rw [hdu]; exact hmin x hx'
    · exact H.done_le u hu x hx'
  · intro u hu hin
    rcases Finset.mem_insert.mp hu with rfl | hu
    · have := (H.pq_nodup.mem_erase_iff).mp hin
      apply this.1
      dsimp only
      rw [hdu]
    · exact H.done_out u hu (List.mem_of_mem_erase hin)
  · intro u hu
    rcases Finset.mem_insert.mp hu with rfl | hu
    · rw [hdu]; exact H.pq_fin top hmem
    · exact H.done_fin u hu

theorem settled_searchLoop {out : Nat → List (Nat × ℚ)} {s : Nat} (t n : Nat)
    (hnn : NonNegOut out) (hn : ∀ u, n ≤ u → out u = []) :
    ∀ (fuel : Nat) (S : Finset Nat) (st : DState), Settled out s S st →
      Relaxed (fun u e => u ∈ S ∧ e ∈ out u) st → workLeft out n S st < fuel →
      ∃ st' S' st0, searchLoop (fun d u st => relaxOut d u (out u) st) t fuel st = some st' ∧
        Settled out s S' st0 ∧ Relaxed (fun u e => u ∈ S' ∧ e ∈ out u) st0 ∧
        st0.dist = st'.dist ∧ st0.parent = st'.parent ∧
        (∀ u, st'.dist u < st'.dist t → u ∈ S') ∧ S'.card ≤ S.card + workLeft out n S st
  | 0, S, st, _, _, hw => by omega
  | fuel + 1, S, st, H, R, hw => by
    unfold searchLoop
    cases htop : pqTop st.pq with
    | none =>
      have hnil := pqTop_eq_none _ htop
      refine ⟨st, S, st, rfl, H, R, rfl, rfl, ?_, Nat.le_add_right _ _⟩
      intro u hu
      by_contra hnot
      have := H.front u hnot (lt_of_lt_of_le hu (H.dist_le t))
      rw [hnil] at this
      simp at this
    | some top =>
      have hmem := pqTop_mem _ _ htop
      have hlen : (st.pq.erase top).length = st.pq.length - 1 := List.length_erase_of_mem hmem
      have hpos : 0 < st.pq.length := List.length_pos_of_mem hmem
      simp only
      by_cases hstale : top.1 > st.dist top.2
      · rw [if_pos hstale]
        have H1 : Settled out s S { st with pq := st.pq.erase top } :=
          { dist_nonneg := H.dist_nonneg
            dist_le := H.dist_le
            src_dist := H.src_dist
            src_parent := H.src_parent
            reach := H.reach
            par := H.par
            anc := H.anc
            front := by
              intro v hv hvd
              refine (List.mem_erase_of_ne ?_).mpr (H.front v hv hvd)
              intro h
              rw [← h] at hstale
              exact lt_irrefl _ hstale
            pq_ge := fun x hx => H.pq_ge x (List.mem_of_mem_erase hx)
            pq_fin := fun x hx => H.pq_fin x (List.mem_of_mem_erase hx)
            pq_nodup := H.pq_nodup.erase _
            done_le := fun u hu x hx => H.done_le u hu x (List.mem_of_mem_erase hx)
            done_out := fun u hu hin => H.done_out u hu (List.mem_of_mem_erase hin)
            done_fin := H.done_fin }
        have hw1 : workLeft out n S { st with pq := st.pq.erase top } < fuel := by
          unfold workLeft at hw ⊢
          dsimp only
          omega
        have hw1' : workLeft out n S { st with pq := st.pq.erase top } ≤ workLeft out n S st := by
          unfold workLeft
          dsimp only
          omega
        obtain ⟨st', S', st0, h1, h2, h3, h4, h5, h6, h7⟩ :=
          settled_searchLoop t n hnn hn fuel S _ H1 R hw1
        exact ⟨st', S', st0, h1, h2, h3, h4, h5, h6, by omega⟩
      · rw [if_neg hstale]
        by_cases ht : top.2 = t
        · rw [if_pos ht]
          refine ⟨_, S, st, rfl, H, R, rfl, rfl, ?_, Nat.le_add_right _ _⟩
          intro u hu
          dsimp only at hu
          by_contra hnot
          have h1 := H.front u hnot (lt_of_lt_of_le hu (H.dist_le t))
          have h2 := pqTop_le _ _ htop _ h1
          have h3 := H.pq_ge top hmem
          rw [ht] at h3
          dsimp only at h2
          linarith
        · rw [if_neg ht]
          obtain ⟨H1, hdu, hmax, hnotin⟩ := settled_pop H htop hstale
          obtain ⟨H2, hS2, hm2, hv2, hlen2⟩ :=
            settled_relaxOut hnn (Finset.mem_insert_self top.2 S) (out top.2) _
              (fun e he => he) H1 hdu hmax
          have R2 : Relaxed (fun u e => u ∈ insert top.2 S ∧ e ∈ out u)
              (relaxOut top.1 top.2 (out top.2) { st with pq := st.pq.erase top }) := by
            intro u e ⟨hu, he⟩
            rw [hS2 u hu]
            rcases Finset.mem_insert.mp hu with rfl | hu'
            · have := hv2 e he
              dsimp only
              rw [hdu]
              exact this
            · exact le_trans (hm2 e.1) (R u e ⟨hu', he⟩)
          have hw2 : workLeft out n (insert top.2 S)
              (relaxOut top.1 top.2 (out top.2) { st with pq := st.pq.erase top }) + 1
                ≤ workLeft out n S st := by
            unfold workLeft
            have hsum := sum_settle (fun x => (out x).length) S top.2 hnotin n
            dsimp only at hlen2 hsum
            by_cases hlt : top.2 < n
            · rw [if_pos hlt] at hsum
              omega
            · rw [if_neg hlt] at hsum
              have hzero : (out top.2).length = 0 := by
                rw [hn _ (not_lt.mp hlt)]; rfl
              omega
          have hcard : (insert top.2 S).card = S.card + 1 :=
            Finset.card_insert_of_not_mem hnotin
          obtain ⟨st', S', st0, h1, h2, h3, h4, h5, h6, h7⟩ :=
            settled_searchLoop t n hnn hn fuel _ _ H2 R2 (by omega)
          exact ⟨st', S', st0, h1, h2, h3, h4, h5, h6, by omega⟩

theorem settled_init (out : Nat → List (Nat × ℚ)) (s : Nat) :
    Settled out s ∅ (initState s) where
  dist_nonneg := by
    intro v
    unfold initState
    by_cases h : v = s
    · subst h; simp
    · simp [Function.update_noteq h]; exact le_of_lt inf_pos
  dist_le := (touched_init out s).dist_le
  src_dist := by simp [initState]
  src_parent := rfl
  reach := by
    intro v hv
    by_cases h : v = s
    · subst h
      exact ⟨[], rfl, by simp [walkCost, initState]⟩
    · simp [initState, Function.update_noteq h] at hv
  par := by intro v u h; simp [initState] at h
  anc := by intro x hx; simp at hx
  front := by
    intro v _ hv
    by_cases h : v = s
    · subst h; simp [initState]
    · simp [initState, Function.update_noteq h] at hv
  pq_ge := by
    intro x hx
    simp [initState] at hx
    subst hx
    simp [initState]
  pq_fin := by
    intro x hx
    simp [initState] at hx
    subst hx
    exact inf_pos
  pq_nodup := by simp [initState]
  done_le := by intro u hu; simp at hu
  done_out := by intro u hu; simp at hu
  done_fin := by intro u hu; simp at hu

/-- At loop entry the work left is one queue entry plus all usable edges below `n`. -/
theorem workLeft_init (out : Nat → List (Nat × ℚ)) (n s : Nat) :
    workLeft out n ∅ (initState s) = 1 + ∑ u ∈ Finset.range n, (out u).length := by
  simp [workLeft, initState]

/-- With a settled final state, the distance of `t` exceeds the cost of no walk from the
source by more than `1e-9` per edge. -/
theorem settled_upper {out : Nat → List (Nat × ℚ)} {s t : Nat} {S : Finset Nat}
    {st : DState} (hnn : NonNegOut out) (H : Settled out s S st)
    (R : Relaxed (fun u e => u ∈ S ∧ e ∈ out u) st)
    (hfin : ∀ u, st.dist u < st.dist t → u ∈ S) :
    ∀ (p : List (Nat × ℚ)) (v : Nat), IsWalk out s p v →
      st.dist t ≤ walkCost p + p.length * EPS ∨ st.dist v ≤ walkCost p + p.length * EPS := by
  intro p
  induction p using List.reverseRecOn with
  | nil =>
    intro v h
    simp only [IsWalk] at h
    subst h
    right
    simp [walkCost, H.src_dist]
  | append_singleton p e ih =>
    intro v h
    obtain ⟨m, hm1, hm2, hm3⟩ := isWalk_snoc p s v e h
    have hc : 0 ≤ e.2 := hnn m e hm2
    have heps := eps_pos
    rw [walkCost_append]
    simp only [List.length_append, List.length_singleton, Nat.cast_add, Nat.cast_one]
    rcases ih m hm1 with h1 | h1
    · left; linarith
    · by_cases hlt : st.dist m < st.dist t
      · right
        have := R m e ⟨hfin m hlt, hm2⟩
        rw [hm3] at this
        linarith
      · left
        have := not_lt.mp hlt
        linarith

/-- Summary of the relaxation loop for non-negative costs: with more fuel than usable edges
plus one the loop exits, in a state that is settled up to the queue. -/
theorem search_total {out : Nat → List (Nat × ℚ)} (s t n : Nat) (hnn : NonNegOut out)
    (hn : ∀ u, n ≤ u → out u = []) (fuel : Nat)
    (hfuel : 1 + ∑ u ∈ Finset.range n, (out u).length < fuel) :
    ∃ st S st0, searchLoop (fun d u st => relaxOut d u (out u) st) t fuel (initState s) = some st ∧
      Settled out s S st0 ∧ st0.dist = st.dist ∧ st0.parent = st.parent ∧
      (∀ p, IsWalk out s p t → st.dist t ≤ walkCost p + p.length * EPS) ∧
      S.card ≤ 1 + ∑ u ∈ Finset.range n, (out u).length := by
  have R0 : Relaxed (fun u e => u ∈ (∅ : Finset Nat) ∧ e ∈ out u) (initState s) := by
    intro u e ⟨hu, _⟩
    simp at hu
  have hw : workLeft out n ∅ (initState s) < fuel := by
    rw [workLeft_init]; exact hfuel
  obtain ⟨st, S, st0, h1, h2, h3, h4, h5, h6, h7⟩ :=
    settled_searchLoop t n hnn hn fuel ∅ (initState s) (settled_init out s) R0 hw
  refine ⟨st, S, st0, h1, h2, h4, h5, ?_, ?_⟩
  · intro p hp
    have hfin : ∀ u, st0.dist u < st0.dist t → u ∈ S := by
      rw [h4]; exact h6
    have := settled_upper hnn h2 h3 hfin p t hp
    rw [h4] at this
    rcases this with h | h <;> exact h
  · rw [workLeft_init] at h7
    simpa using h7

namespace MainCpp

theorem usable_nil (G : Graph) (F : List Nat) (u : Nat) (hu : G.length ≤ u) :
    usable G F u = [] := by
  unfold usable
  rw [List.getD_eq_getElem?_getD, List.getElem?_eq_none hu]
  rfl

theorem usable_length_le (G : Graph) (F : List Nat) (u : Nat) :
    (usable G F u).length ≤ (G.getD u []).length := by
  unfold usable
  rw [List.length_map]
  exact List.length_filter_le _ _

theorem sum_range_getD : ∀ (G : Graph),
    ∑ u ∈ Finset.range G.length, (G.getD u []).length = (G.map List.length).sum
  | [] => by simp
  | l :: G => by
    rw [List.length_cons, Finset.sum_range_succ', List.map_cons, List.sum_cons]
    have := sum_range_getD G
    simp only [List.getD_cons_succ, List.getD_cons_zero]
    omega

theorem sum_usable_le (G : Graph) (F : List Nat) :
    ∑ u ∈ Finset.range G.length, (usable G F u).length ≤ (G.map List.length).sum := by
  rw [← sum_range_getD]
  exact Finset.sum_le_sum (fun u _ => usable_length_le G F u)

theorem mem_getD_mem {G : Graph} {u : Nat} {e : Edge} (h : e ∈ G.getD u []) :
    ∃ l ∈ G, e ∈ l := by
  by_cases hu : u < G.length
  · rw [getD_eq_of_lt G u [] hu] at h
    exact ⟨G[u], List.getElem_mem _, h⟩
  · rw [List.getD_eq_getElem?_getD, List.getElem?_eq_none (not_lt.mp hu)] at h
    simp at h

theorem nonNegOut_usable {G : Graph} (hnn : NonNeg G) (F : List Nat) :
    NonNegOut (usable G F) := by
  intro u e he
  unfold usable at he
  simp only [List.mem_map, List.mem_filter] at he
  obtain ⟨x, ⟨hx, _⟩, rfl⟩ := he
  obtain ⟨l, hl, hxl⟩ := mem_getD_mem hx
  exact hnn l hl x hxl

theorem isPath_isWalk {G : Graph} {F : List Nat} :
    ∀ (es : List Edge) (u v : Nat), IsPath G F u es v →
      IsWalk (usable G F) u (es.map (fun e => (e.dst, e.w))) v
  | [], _, _, h => h
  | e :: es, u, v, h => by
    obtain ⟨h1, h2, h3⟩ := h
    refine ⟨?_, isPath_isWalk es e.dst v h3⟩
    unfold usable
    simp only [List.mem_map, List.mem_filter, decide_eq_true_eq]
    exact ⟨e, ⟨h1, h2⟩, rfl⟩

theorem isWalk_isPath {G : Graph} {F : List Nat} :
    ∀ (p : List (Nat × ℚ)) (u v : Nat), IsWalk (usable G F) u p v →
      ∃ es, IsPath G F u es v ∧ pathWeight es = walkCost p ∧ es.length = p.length
  | [], _, _, h => ⟨[], h, rfl, rfl⟩
  | x :: p, u, v, h => by
    obtain ⟨h1, h2⟩ := h
    unfold usable at h1
    simp only [List.mem_map, List.mem_filter, decide_eq_true_eq] at h1
    obtain ⟨e, ⟨he1, he2⟩, rfl⟩ := h1
    obtain ⟨es, hes1, hes2, hes3⟩ := isWalk_isPath p e.dst v h2
    refine ⟨e :: es, ⟨he1, he2, hes1⟩, ?_, by simp [hes3]⟩
    simp only [pathWeight, walkCost, List.map_cons, List.sum_cons] at hes2 ⊢
    rw [hes2]

theorem pathWeight_eq_walkCost (es : List Edge) :
    walkCost (es.map (fun e => (e.dst, e.w))) = pathWeight es := by
  simp [walkCost, pathWeight, Function.comp_def]

end MainCpp

/-! ### The value returned by `dijkstra` (main.cpp) -/

namespace MainCpp

/-- The relaxation loop of `dijkstra` on a graph with non-negative weights: it exits, and the
final arrays are those of a settled state. -/
theorem dijkstra_settled (G : Graph) (F : List Nat) (s t : Nat) (hnn : NonNeg G) (fuel : Nat)
    (hfuel : (G.map List.length).sum + 1 < fuel) :
    ∃ (st : DState) (S : Finset Nat) (st0 : DState),
      dijkstra fuel G s t F = some (st.dist t, st.parent) ∧
      Settled (usable G F) s S st0 ∧ st0.dist = st.dist ∧ st0.parent = st.parent ∧
      (∀ p, IsWalk (usable G F) s p t → st.dist t ≤ walkCost p + p.length * EPS) ∧
      S.card ≤ (G.map List.length).sum + 1 := by
  have hsum := sum_usable_le G F
  obtain ⟨st, S, st0, h1, h2, h3, h4, h5, h6⟩ :=
    search_total s t G.length (nonNegOut_usable hnn F) (usable_nil G F) fuel (by omega)
  refine ⟨st, S, st0, ?_, h2, h3, h4, h5, by omega⟩
  unfold dijkstra
  rw [relaxEdges_fun_eq, h1]

end MainCpp

/-! ### The adjacency built by `load_edges` -/

namespace SafePath

theorem adjLoop_apply : ∀ (es : List Edge) (i : Nat) (adj : Adj) (a : Nat),
    adjLoop es i adj a = adj a ++ adjOf es i a
  | [], _, _, _ => by simp [adjLoop, adjOf]
  | e :: es, i, adj, a => by
    obtain ⟨u, v, dm, ft, rq, si, id⟩ := e
    simp only [adjLoop, adjOf]
    rw [adjLoop_apply es (i + 1) _ a]
    by_cases h1 : v = a
    · by_cases h2 : u = a
      · subst h1
        subst h2
        simp
      · subst h1
        simp [h2, Function.update_noteq (Ne.symm h2)]
    · by_cases h2 : u = a
      · subst h2
        simp [h1, Function.update_noteq (Ne.symm h1)]
      · simp [h1, h2, Function.update_noteq (Ne.symm h1), Function.update_noteq (Ne.symm h2)]

theorem build_adj_apply (edges : List Edge) (a : Nat) : build_adj edges a = adjOf edges 0 a := by
  unfold build_adj
  rw [adjLoop_apply]
  rfl

theorem adjOf_nil_of_bound : ∀ (es : List Edge) (i a : Nat), nodeBound es ≤ a →
    adjOf es i a = []
  | [], _, _, _ => rfl
  | e :: es, i, a, h => by
    simp only [nodeBound] at h
    have h1 : e.u ≠ a := by omega
    have h2 : e.v ≠ a := by omega
    simp only [adjOf, h1, h2, if_false, List.nil_append]
    exact adjOf_nil_of_bound es (i + 1) a (by omega)

theorem sum_adjOf_le (n : Nat) : ∀ (es : List Edge) (i : Nat),
    ∑ a ∈ Finset.range n, (adjOf es i a).length ≤ 2 * es.length
  | [], _ => by simp [adjOf]
  | e :: es, i => by
    have ih := sum_adjOf_le n es (i + 1)
    have h1 : ∑ a ∈ Finset.range n, (if e.u = a then 1 else 0) ≤ 1 := by
      rw [Finset.sum_ite_eq]; split <;> omega
    have h2 : ∑ a ∈ Finset.range n, (if e.v = a then 1 else 0) ≤ 1 := by
      rw [Finset.sum_ite_eq]; split <;> omega
    have h3 : ∀ a, (adjOf (e :: es) i a).length
        = (if e.u = a then 1 else 0) + (if e.v = a then 1 else 0) + (adjOf es (i + 1) a).length := by
      intro a
      simp only [adjOf, List.length_append]
      split <;> split <;> simp
    simp only [h3, Finset.sum_add_distrib, List.length_cons]
    omega

theorem adjOf_index : ∀ (es : List Edge) (i a : Nat) (pr : Nat × Nat), pr ∈ adjOf es i a →
    i ≤ pr.2 ∧ pr.2 < i + es.length
  | [], _, _, _, h => by simp [adjOf] at h
  | e :: es, i, a, pr, h => by
    simp only [adjOf, List.mem_append] at h
    rcases h with (h | h) | h
    · split at h
      · simp at h; subst h; simp
      · simp at h
    · split at h
      · simp at h; subst h; simp
      · simp at h
    · have := adjOf_index es (i + 1) a pr h
      simp only [List.length_cons]
      omega

theorem nonNegOut_adj_usable (edges : List Edge) (upd : Overlay)
    (hcost : ∀ i, i < edges.length → 0 ≤ edge_cost edges upd i) :
    NonNegOut (usable edges (build_adj edges) upd) := by
  intro u e he
  obtain ⟨pr, hpr, _, hc, _⟩ := mem_usable (v := e.1) (c := e.2) he
  rw [build_adj_apply] at hpr
  have := adjOf_index edges 0 u pr hpr
  rw [← hc]
  exact hcost pr.2 (by omega)

theorem adj_usable_nil (edges : List Edge) (adj : Adj) (upd : Overlay) (u : Nat)
    (h : adj u = []) : usable edges adj upd u = [] := by
  simp [usable, h]

theorem adj_usable_length_le (edges : List Edge) (adj : Adj) (upd : Overlay) (u : Nat) :
    (usable edges adj upd u).length ≤ (adj u).length := by
  unfold usable
  rw [List.length_map]
  exact List.length_filter_le _ _

theorem sum_adj_usable_le (edges : List Edge) (upd : Overlay) :
    ∑ u ∈ Finset.range (nodeBound edges), (usable edges (build_adj edges) upd u).length
      ≤ 2 * edges.length := by
  refine le_trans (Finset.sum_le_sum (fun u _ => adj_usable_length_le edges _ upd u)) ?_
  simp only [build_adj_apply]
  exact sum_adjOf_le _ edges 0

end SafePath

/-! ### Termination of `dijkstra_path` for non-negative costs -/

theorem settled_anc_all {out : Nat → List (Nat × ℚ)} {s : Nat} {S : Finset Nat} {st : DState}
    (H : Settled out s S st) (v : Nat) : ∃ k, k ≤ S.card ∧ Anc st.parent v k := by
  cases hp : st.parent v with
  | none => exact ⟨0, Nat.zero_le _, Anc.root hp⟩
  | some y =>
    obtain ⟨k, hk0, hk⟩ := H.anc y (H.par v y hp).1
    exact ⟨k + 1, hk0, Anc.step hp hk⟩

namespace SafePath

theorem walkLoop_of_anc {prev : Nat → Option Nat} {x k : Nat} (h : Anc prev x k) :
    ∀ (fuel : Nat) (acc : List Nat), k + 2 ≤ fuel →
      ∃ p, walkLoop prev fuel (some x) acc = some p := by
  induction h with
  | @root v hp =>
    intro fuel acc hf
    obtain ⟨f, rfl⟩ : ∃ f, fuel = f + 2 := ⟨fuel - 2, by omega⟩
    simp [walkLoop, hp]
  | @step v u k hp _ ih =>
    intro fuel acc hf
    obtain ⟨f, rfl⟩ : ∃ f, fuel = f + 1 := ⟨fuel - 1, by omega⟩
    simp only [walkLoop, hp]
    exact ih f _ (by omega)

/-- With non-negative edge costs `dijkstra_path` returns once the fuel exceeds twice the number
of edges plus two, and it returns the empty path when `tgt` cannot be reached. -/
theorem dijkstra_path_total (edges : List Edge) (upd : Overlay) (src tgt : Nat)
    (hcost : ∀ i, i < edges.length → 0 ≤ edge_cost edges upd i) (fuel : Nat)
    (hfuel : 2 * edges.length + 3 ≤ fuel) :
    ∃ path, dijkstra_path fuel edges (build_adj edges) upd src tgt = some path ∧
      ((∀ p, ¬ IsWalk (usable edges (build_adj edges) upd) src p tgt) → path = []) := by
  have hsum := sum_adj_usable_le edges upd
  have hn : ∀ u, nodeBound edges ≤ u → usable edges (build_adj edges) upd u = [] := by
    intro u hu
    apply adj_usable_nil
    rw [build_adj_apply]
    exact adjOf_nil_of_bound edges 0 u hu
  obtain ⟨st, S, st0, h1, h2, h3, h4, _, h6⟩ :=
    search_total src tgt (nodeBound edges) (nonNegOut_adj_usable edges upd hcost) hn fuel (by omega)
  unfold dijkstra_path
  rw [relaxAdj_fun_eq, h1]
  simp only
  by_cases hd : st.dist tgt ≥ NOPATH
  · rw [if_pos hd]
    exact ⟨[], rfl, fun _ => rfl⟩
  · rw [if_neg hd]
    obtain ⟨k, hk0, hk⟩ := settled_anc_all h2 tgt
    rw [h4] at hk
    obtain ⟨p, hp⟩ := walkLoop_of_anc hk fuel [] (by omega)
    rw [hp]
    refine ⟨p.reverse, rfl, ?_⟩
    intro hno
    exfalso
    have hlt : st0.dist tgt < INF := by
      rw [h3]; exact lt_trans (not_le.mp hd) nopath_lt_inf
    obtain ⟨w, hw, _⟩ := h2.reach tgt hlt
    exact hno w hw

end SafePath

/-! ### More fuel, and inputs with negative costs -/

theorem searchLoop_mono (relax : ℚ → Nat → DState → DState) (t : Nat) :
    ∀ (fuel : Nat) (st r : DState), searchLoop relax t fuel st = some r →
      ∀ k, searchLoop relax t (fuel + k) st = some r
  | 0, _, _, h, _ => by simp [searchLoop] at h
  | fuel + 1, st, r, h, k => by
    have hk : fuel + 1 + k = (fuel + k) + 1 := by omega
    rw [hk]
    unfold searchLoop at h ⊢
    cases htop : pqTop st.pq with
    | none => rw [htop] at h; exact h
    | some top =>
      rw [htop] at h
      simp only at h ⊢
      split
      · rename_i hc
        rw [if_pos hc] at h
        exact searchLoop_mono relax t fuel _ r h k
      · rename_i hc
        rw [if_neg hc] at h
        split
        · rename_i hc2
          rw [if_pos hc2] at h
          exact h
        · rename_i hc2
          rw [if_neg hc2] at h
          exact searchLoop_mono relax t fuel _ r h k

namespace SafePath

theorem cycle_walk_diverges {prev : Nat → Option Nat} (h0 : prev 0 = some 1)
    (h1 : prev 1 = some 0) (h2 : prev 2 = some 1) :
    ∀ (fuel cur : Nat) (acc : List Nat), cur < 3 → walkLoop prev fuel (some cur) acc = none
  | 0, _, _, _ => rfl
  | fuel + 1, cur, acc, hc => by
    simp only [walkLoop]
    interval_cases cur
    · rw [h0]; exact cycle_walk_diverges h0 h1 h2 fuel 1 _ (by omega)
    · rw [h1]; exact cycle_walk_diverges h0 h1 h2 fuel 0 _ (by omega)
    · rw [h2]; exact cycle_walk_diverges h0 h1 h2 fuel 1 _ (by omega)

end SafePath

/-! ### Unreachable targets and termination -/

namespace SafePath

/-- C10 (counterexample): on the chain 0 - 1 - 2 with two zero-length edges and traffic
multipliers 0.5 and 0 (costs -150 and -300, all values within the data model), the relaxation
loop of `dijkstra_path(0, 2)` exits after three pops with `prev[0] = 1` and `prev[1] = 0`,
and the predecessor walk from 2 never reaches `-1`: the function returns for no amount of
fuel. -/
theorem dijkstra_path_walk_diverges :
    (∀ e ∈ chainEdges, ValidEdge e ∧ ValidCondition e (getCondition chainUpdates e.edge_id)) ∧
      (searchLoop (fun d u st => relaxAdj chainEdges chainUpdates d u (build_adj chainEdges u) st)
          2 4 (initState 0)).map (fun st => (st.dist 2, st.parent 0, st.parent 1, st.parent 2))
        = some (-450, some 1, some 0, some 1) ∧
      ¬ ∃ fuel path, dijkstra_path fuel chainEdges (build_adj chainEdges) chainUpdates 0 2
        = some path := by
  have hloop : (searchLoop
      (fun d u st => relaxAdj chainEdges chainUpdates d u (build_adj chainEdges u) st)
        2 4 (initState 0)).map (fun st => (st.dist 2, st.parent 0, st.parent 1, st.parent 2))
      = some (-450, some 1, some 0, some 1) := by decide!
  refine ⟨?_, hloop, ?_⟩
  · intro e he
    simp only [chainEdges, List.mem_cons, List.mem_singleton, List.not_mem_nil, or_false] at he
    rcases he with rfl | rfl
    · constructor
      · simp [ValidEdge, neutralEdge]
      · simp [ValidCondition, neutralEdge, getCondition, chainUpdates, trafficList, List.lookup]
    · constructor
      · simp [ValidEdge, neutralEdge]
      · simp [ValidCondition, neutralEdge, getCondition, chainUpdates, trafficList, List.lookup]
  · rintro ⟨fuel, path, h⟩
    by_cases hf : fuel < 4
    · have hnone : dijkstra_path fuel chainEdges (build_adj chainEdges) chainUpdates 0 2
          = none := by
        interval_cases fuel <;> decide!
      rw [hnone] at h
      cases h
    · cases h4 : searchLoop
          (fun d u st => relaxAdj chainEdges chainUpdates d u (build_adj chainEdges u) st)
          2 4 (initState 0) with
      | none => rw [h4] at hloop; simp at hloop
      | some st4 =>
        rw [h4] at hloop
        simp only [Option.map_some', Option.some.injEq, Prod.mk.injEq] at hloop
        obtain ⟨hd, hp0, hp1, hp2⟩ := hloop
        have hmono := searchLoop_mono _ 2 4 _ st4 h4 (fuel - 4)
        have hfe : 4 + (fuel - 4) = fuel := by omega
        rw [hfe] at hmono
        unfold dijkstra_path at h
        rw [hmono] at h
        simp only at h
        rw [if_neg (by rw [hd]; unfold NOPATH; norm_num)] at h
        rw [cycle_walk_diverges hp0 hp1 hp2 fuel 2 [] (by omega)] at h
        simp at h

/-- C10 (amended): on every finite edge table and overlay under which every edge has a
non-negative cost, `dijkstra_path(src, tgt)` returns: the relaxation loop and the
predecessor walk both finish once the fuel exceeds twice the number of edges plus two. -/
theorem dijkstra_path_terminates (edges : List Edge) (upd : Overlay) (src tgt : Nat)
    (hcost : ∀ i, i < edges.length → 0 ≤ edge_cost edges upd i) (fuel : Nat)
    (hfuel : 2 * edges.length + 3 ≤ fuel) :
    ∃ path, dijkstra_path fuel edges (build_adj edges) upd src tgt = some path := by
  obtain ⟨path, hp, _⟩ := dijkstra_path_total edges upd src tgt hcost fuel hfuel
  exact ⟨path, hp⟩

/-- C10 (witness): the table with the single edge 0 - 1 of length 1000 and no live
condition, with 10 units of fuel. -/
theorem dijkstra_path_terminates_witness :
    ∃ path, dijkstra_path 10 [neutralEdge 0 1 1000 7] (build_adj [neutralEdge 0 1 1000 7])
      noUpdates 0 1 = some path :=
  dijkstra_path_terminates [neutralEdge 0 1 1000 7] noUpdates 0 1
    (by intro i hi
        have : i = 0 := by simp at hi; omega
        subst this
        decide!)
    10 (by decide)

end SafePath

/-! ### The overlay after `k_short_simple` -/

namespace SafePath

theorem restoreLoop_apply (orig : Overlay) (c : Int) : ∀ (cs : List Int) (upd : Overlay),
    restoreLoop orig cs upd c = if c ∈ cs then orig c else upd c
  | [], upd => by simp [restoreLoop]
  | x :: cs, upd => by
    simp only [restoreLoop]
    rw [restoreLoop_apply orig c cs]
    by_cases h1 : c ∈ cs
    · simp [h1]
    · by_cases h2 : c = x
      · subst h2; simp [h1]
      · simp [h1, h2, Function.update_noteq h2]

theorem restore_saved (upd0 : Overlay) (st : Overlay × Overlay × List Int)
    (h : Saved upd0 st) : restoreLoop st.2.1 st.2.2 st.1 = upd0 := by
  funext c
  rw [restoreLoop_apply]
  split
  · rename_i hc; exact h.1 c hc
  · rename_i hc; exact h.2 c hc

theorem blockLoop_saved (edges : List Edge) (b : Nat) (upd0 : Overlay) :
    ∀ (l : List (Nat × Nat)) (st : Overlay × Overlay × List Int), Saved upd0 st →
      (blockIds edges b l).Nodup → (∀ c ∈ blockIds edges b l, c ∉ st.2.2) →
      Saved upd0 (blockLoop edges b l st)
  | [], st, h, _, _ => by simpa [blockLoop] using h
  | pr :: rest, (upd, orig, changed), h, hnd, hfresh => by
    unfold blockLoop
    by_cases hb : pr.1 = b
    · rw [if_pos hb]
      have hids : blockIds edges b (pr :: rest)
          = (edges.getD pr.2 default).edge_id :: blockIds edges b rest := by
        simp [blockIds, hb]
      rw [hids] at hnd hfresh
      obtain ⟨hnot, hnd'⟩ := List.nodup_cons.mp hnd
      have hnew : (edges.getD pr.2 default).edge_id ∉ changed :=
        hfresh _ (List.mem_cons_self _ _)
      simp only
      cases hu : upd (edges.getD pr.2 default).edge_id with
      | none =>
        simp only
        exact blockLoop_saved edges b upd0 rest _ h hnd'
          (fun c hc => hfresh c (List.mem_cons_of_mem _ hc))
      | some o =>
        simp only
        apply blockLoop_saved edges b upd0 rest _ _ hnd'
        · intro c hc
          simp only [List.mem_append, List.mem_singleton, not_or]
          refine ⟨hfresh c (List.mem_cons_of_mem _ hc), ?_⟩
          intro h'
          exact hnot (h' ▸ hc)
        · constructor
          · intro c hc
            simp only [List.mem_append, List.mem_singleton] at hc
            by_cases hce : c = (edges.getD pr.2 default).edge_id
            · subst hce
              simp only [Function.update_same]
              rw [← hu]
              exact h.2 _ hnew
            · simp only [Function.update_noteq hce]
              rcases hc with hc | hc
              · exact h.1 c hc
              · exact absurd hc hce
          · intro c hc
            simp only [List.mem_append, List.mem_singleton, not_or] at hc
            simp only [Function.update_noteq hc.2]
            exact h.2 c hc.1
    · rw [if_neg hb]
      have hids : blockIds edges b (pr :: rest) = blockIds edges b rest := by
        simp [blockIds, hb]
      rw [hids] at hnd hfresh
      exact blockLoop_saved edges b upd0 rest _ h hnd hfresh

theorem probe_restores (edges : List Edge) (b : Nat) (l : List (Nat × Nat)) (upd : Overlay)
    (hnd : (blockIds edges b l).Nodup) :
    restoreLoop (blockLoop edges b l (upd, fun _ => none, [])).2.1
      (blockLoop edges b l (upd, fun _ => none, [])).2.2
      (blockLoop edges b l (upd, fun _ => none, [])).1 = upd := by
  apply restore_saved
  apply blockLoop_saved edges b upd l _ _ hnd
  · intro c _; simp
  · exact ⟨fun c hc => by simp at hc, fun c _ => rfl⟩

theorem adjOf_head_match {a b : Nat} (hab : a ≠ b) (u v i : Nat) :
    ((((if u = a then [(v, i)] else []) ++ (if v = a then [(u, i)] else [])).filter
        (fun pr => decide (pr.1 = b))).map Prod.snd = [])
      ∨ ((((if u = a then [(v, i)] else []) ++ (if v = a then [(u, i)] else [])).filter
        (fun pr => decide (pr.1 = b))).map Prod.snd = [i]) := by
  by_cases h1 : u = a <;> by_cases h2 : v = a <;> by_cases h3 : v = b <;> by_cases h4 : u = b <;>
    simp_all [List.filter_cons]

theorem adjOf_match_sorted {a b : Nat} (hab : a ≠ b) : ∀ (es : List Edge) (i : Nat),
    List.Pairwise (· < ·)
      (((adjOf es i a).filter (fun pr => decide (pr.1 = b))).map Prod.snd)
  | [], _ => by simp [adjOf]
  | e :: es, i => by
    have ih := adjOf_match_sorted hab es (i + 1)
    have hge : ∀ x ∈ ((adjOf es (i + 1) a).filter (fun pr => decide (pr.1 = b))).map Prod.snd,
        i < x := by
      intro x hx
      simp only [List.mem_map, List.mem_filter] at hx
      obtain ⟨pr, ⟨hpr, _⟩, rfl⟩ := hx
      have := adjOf_index es (i + 1) a pr hpr
      omega
    simp only [adjOf]
    rw [List.filter_append, List.map_append]
    rcases adjOf_head_match hab e.u e.v i with h | h
    · rw [h]; exact ih
    · rw [h]
      exact List.pairwise_cons.mpr ⟨hge, ih⟩

theorem blockIds_nodup (edges : List Edge) (hid : (edges.map (fun e => e.edge_id)).Nodup)
    {a b : Nat} (hab : a ≠ b) : (blockIds edges b (build_adj edges a)).Nodup := by
  have hsorted := adjOf_match_sorted hab edges 0
  have hnd : (((adjOf edges 0 a).filter (fun pr => decide (pr.1 = b))).map Prod.snd).Nodup :=
    hsorted.imp (fun h => Nat.ne_of_lt h)
  have hlt : ∀ x ∈ ((adjOf edges 0 a).filter (fun pr => decide (pr.1 = b))).map Prod.snd,
      x < edges.length := by
    intro x hx
    simp only [List.mem_map, List.mem_filter] at hx
    obtain ⟨pr, ⟨hpr, _⟩, rfl⟩ := hx
    have := adjOf_index edges 0 a pr hpr
    omega
  have heq : blockIds edges b (build_adj edges a)
      = (((adjOf edges 0 a).filter (fun pr => decide (pr.1 = b))).map Prod.snd).map
          (fun i => (edges.getD i default).edge_id) := by
    simp [blockIds, build_adj_apply, Function.comp_def]
  rw [heq]
  refine List.Nodup.map_on ?_ hnd
  intro x hx y hy hxy
  have hx' := hlt x hx
  have hy' := hlt y hy
  simp only [getD_eq_of_lt edges x default hx', getD_eq_of_lt edges y default hy'] at hxy
  have hx'' : x < (edges.map (fun e => e.edge_id)).length := by simpa using hx'
  have hy'' : y < (edges.map (fun e => e.edge_id)).length := by simpa using hy'
  have : (edges.map (fun e => e.edge_id))[x] = (edges.map (fun e => e.edge_id))[y] := by
    simpa using hxy
  exact (hid.getElem_inj_iff).mp this

theorem candMin_mem : ∀ (l : List (ℚ × List Nat)) (x : ℚ × List Nat), candMin l = some x → x ∈ l
  | [], x, h => by simp [candMin] at h
  | a :: rest, x, h => by
    unfold candMin at h
    cases hr : candMin rest with
    | none =>
      rw [hr] at h
      simp at h
      simp [h]
    | some b =>
      rw [hr] at h
      simp only at h
      split at h
      · simp at h; simp [h]
      · simp at h; subst h
        exact List.mem_cons_of_mem _ (candMin_mem rest b hr)

theorem mem_candInsert {x y : ℚ × List Nat} {l : List (ℚ × List Nat)}
    (h : y ∈ candInsert x l) : y = x ∨ y ∈ l := by
  unfold candInsert at h
  split at h
  · exact Or.inr h
  · exact List.mem_cons.mp h

theorem prevChain_no_self (prev : Nat → Option Nat) :
    ∀ (l : List Nat) (x : Nat), PrevChain prev (some x) l → prev x ≠ some x
  | [], x, h => by simp [PrevChain] at h
  | y :: rest, x, h => by
    obtain ⟨hxy, hrest⟩ := h
    simp only [Option.some.injEq] at hxy
    subst hxy
    intro hself
    rw [hself] at hrest
    exact prevChain_no_self prev rest x hrest hself

theorem prevChain_nostutter (prev : Nat → Option Nat) :
    ∀ (l : List Nat) (cur : Option Nat), PrevChain prev cur l → List.Chain' (· ≠ ·) l
  | [], _, _ => List.chain'_nil
  | [_], _, _ => List.chain'_singleton _
  | x :: y :: rest, cur, h => by
    have hx : cur = some x := h.1
    have hrest : PrevChain prev (prev x) (y :: rest) := h.2
    have hy : prev x = some y := hrest.1
    refine List.Chain'.cons ?_ (prevChain_nostutter prev (y :: rest) _ hrest)
    intro hxy
    subst hxy
    rw [hx] at h
    exact prevChain_no_self prev _ x h hy

theorem dijkstra_path_nostutter (fuel : Nat) (edges : List Edge) (adj : Adj) (upd : Overlay)
    (src tgt : Nat) (path : List Nat)
    (h : dijkstra_path fuel edges adj upd src tgt = some path) :
    List.Chain' (· ≠ ·) path := by
  unfold dijkstra_path at h
  cases hs : searchLoop (fun d u st => relaxAdj edges upd d u (adj u) st) tgt fuel
      (initState src) with
  | none => rw [hs] at h; simp at h
  | some st =>
    rw [hs] at h
    simp only at h
    split at h
    · simp at h; subst h; exact List.chain'_nil
    · cases hw : walkLoop st.parent fuel (some tgt) [] with
      | none => rw [hw] at h; simp at h
      | some p =>
        rw [hw] at h
        simp at h
        obtain ⟨l, hl, hc⟩ := walkLoop_chain _ _ _ _ _ hw
        simp at hl
        subst hl
        subst h
        rw [List.chain'_reverse]
        refine List.Chain'.imp ?_ (prevChain_nostutter _ p _ hc)
        intro a b hab
        exact fun h => hab h.symm

theorem consecPairs_ne : ∀ (p : List Nat), List.Chain' (· ≠ ·) p →
    ∀ ab ∈ consecPairs p, ab.1 ≠ ab.2
  | [], _, ab, hab => by simp [consecPairs] at hab
  | [_], _, ab, hab => by simp [consecPairs] at hab
  | x :: y :: rest, h, ab, hab => by
    obtain ⟨hxy, hrest⟩ := List.chain'_cons.mp h
    simp only [consecPairs, List.tail_cons, List.zip_cons_cons, List.mem_cons] at hab
    rcases hab with rfl | hab
    · exact hxy
    · exact consecPairs_ne (y :: rest) hrest ab (by simpa [consecPairs] using hab)

theorem probeLoop_restores (fuel : Nat) (edges : List Edge)
    (hid : (edges.map (fun e => e.edge_id)).Nodup) (src tgt : Nat) :
    ∀ (pairs : List (Nat × Nat)) (st r : Overlay × List (ℚ × List Nat)),
      (∀ ab ∈ pairs, ab.1 ≠ ab.2) → (∀ c ∈ st.2, List.Chain' (· ≠ ·) c.2) →
      probeLoop fuel edges (build_adj edges) src tgt pairs st = some r →
      r.1 = st.1 ∧ ∀ c ∈ r.2, List.Chain' (· ≠ ·) c.2
  | [], st, r, _, hc, h => by
    simp only [probeLoop, Option.some.injEq] at h
    subst h
    exact ⟨rfl, hc⟩
  | ab :: rest, (upd, cands), r, hne, hc, h => by
    unfold probeLoop at h
    simp only at h
    have hab : ab.1 ≠ ab.2 := hne ab (List.mem_cons_self _ _)
    have hrestore := probe_restores edges ab.2 (build_adj edges ab.1) upd
      (blockIds_nodup edges hid hab)
    rw [hrestore] at h
    cases hd : dijkstra_path fuel edges (build_adj edges)
        (blockLoop edges ab.2 (build_adj edges ab.1) (upd, fun _ => none, [])).1 src tgt with
    | none => rw [hd] at h; simp at h
    | some np =>
      rw [hd] at h
      simp only at h
      have hnp := dijkstra_path_nostutter _ _ _ _ _ _ _ hd
      have hne' : ∀ x ∈ rest, x.1 ≠ x.2 := fun x hx => hne x (List.mem_cons_of_mem _ hx)
      split at h
      · refine probeLoop_restores fuel edges hid src tgt rest
          (upd, candInsert (distLoop edges (build_adj edges) np 0, np) cands) r hne' ?_ h
        intro c hcm
        rcases mem_candInsert hcm with rfl | hcm
        · exact hnp
        · exact hc c hcm
      · exact probeLoop_restores fuel edges hid src tgt rest _ r hne' hc h

theorem kLoop_restores (fuel : Nat) (edges : List Edge)
    (hid : (edges.map (fun e => e.edge_id)).Nodup) (src tgt : Nat) :
    ∀ (k : Nat) (result : List (List Nat)) (st : Overlay × List (ℚ × List Nat))
      (r : List (List Nat) × Overlay),
      (∀ p ∈ result, List.Chain' (· ≠ ·) p) → (∀ c ∈ st.2, List.Chain' (· ≠ ·) c.2) →
      kLoop fuel edges (build_adj edges) src tgt k result st = some r → r.2 = st.1
  | 0, result, st, r, _, _, h => by
    simp only [kLoop, Option.some.injEq] at h
    subst h
    rfl
  | k + 1, result, st, r, hres, hc, h => by
    unfold kLoop at h
    cases hl : result.getLast? with
    | none =>
      rw [hl] at h
      simp only [Option.some.injEq] at h
      subst h
      rfl
    | some base =>
      rw [hl] at h
      simp only at h
      have hbase : base ∈ result := List.mem_of_getLast?_eq_some hl
      cases hp : probeLoop fuel edges (build_adj edges) src tgt (consecPairs base) st with
      | none => rw [hp] at h; simp at h
      | some st1 =>
        rw [hp] at h
        simp only at h
        obtain ⟨h1, h2⟩ := probeLoop_restores fuel edges hid src tgt _ st st1
          (consecPairs_ne base (hres base hbase)) hc hp
        cases hm : candMin st1.2 with
        | none =>
          rw [hm] at h
          simp only [Option.some.injEq] at h
          subst h
          exact h1
        | some it =>
          rw [hm] at h
          simp only at h
          have hit := candMin_mem _ _ hm
          have := kLoop_restores fuel edges hid src tgt k _ _ r ?_ ?_ h
          · rw [this]; exact h1
          · intro p hp'
            rcases List.mem_append.mp hp' with hp' | hp'
            · exact hres p hp'
            · simp only [List.mem_singleton] at hp'
              subst hp'
              exact h2 it hit
          · intro c hc'
            exact h2 c (List.mem_of_mem_erase hc')

/-- C7: when the edge ids of the table are pairwise distinct and `k_short_simple` returns,
the overlay `updates_by_edge` it leaves is the overlay it was called with. -/
theorem k_short_simple_restores (fuel : Nat) (edges : List Edge) (upd : Overlay)
    (src tgt : Nat) (K : Int) (result : List (List Nat)) (upd' : Overlay)
    (hid : (edges.map (fun e => e.edge_id)).Nodup)
    (h : k_short_simple fuel edges (build_adj edges) upd src tgt K = some (result, upd')) :
    upd' = upd := by
  unfold k_short_simple at h
  cases hd : dijkstra_path fuel edges (build_adj edges) upd src tgt with
  | none => rw [hd] at h; simp at h
  | some best =>
    rw [hd] at h
    simp only at h
    split at h
    · simp only [Option.some.injEq, Prod.mk.injEq] at h
      exact h.2.symm
    · have hbest := dijkstra_path_nostutter _ _ _ _ _ _ _ hd
      have := kLoop_restores fuel edges hid src tgt _ _ _ _ ?_ ?_ h
      · exact this
      · intro p hp
        simp only [List.mem_singleton] at hp
        subst hp
        exact hbest
      · intro c hc
        simp at hc

/-- C7 (witness): on the triangle with a live-condition entry for the direct edge,
`k_short_simple(0, 1, 2)` returns the direct route and the detour, found while the direct
edge was blocked, and leaves the overlay as it was. -/
theorem k_short_simple_restores_witness :
    (k_short_simple 20 triangleEdges (build_adj triangleEdges) (trafficOnly 7 1) 0 1 2).map
        Prod.fst = some [[0, 1], [0, 2, 1]] ∧
      ∃ result upd', k_short_simple 20 triangleEdges (build_adj triangleEdges)
          (trafficOnly 7 1) 0 1 2 = some (result, upd') ∧ upd' = trafficOnly 7 1 := by
  refine ⟨by decide!, ?_⟩
  have hs : (k_short_simple 20 triangleEdges (build_adj triangleEdges) (trafficOnly 7 1)
      0 1 2).isSome = true := by decide!
  obtain ⟨r, h⟩ := Option.isSome_iff_exists.mp hs
  exact ⟨r.1, r.2, h,
    k_short_simple_restores 20 triangleEdges (trafficOnly 7 1) 0 1 2 r.1 r.2 (by decide) h⟩

end SafePath

/-! ### The explanation of `explain_reason` -/

namespace MainCpp

theorem heavyLoop_eq (G : Graph) : ∀ (nodes : List Nat) (st : Bool × Int),
    heavyLoop G nodes st
      = (st.1 || decide (0 < heavyFirst G nodes), st.2 + (heavyFirst G nodes : Int))
  | [], st => by simp [heavyLoop, heavyFirst, consecPairs]
  | [_], st => by simp [heavyLoop, heavyFirst, consecPairs]
  | u :: v :: rest, st => by
    have ih := heavyLoop_eq G (v :: rest)
    have hcons : heavyFirst G (u :: v :: rest)
        = (if (match (G.getD u []).find? (fun e => e.dst == v) with
                | some e => decide (e.w ≥ 6000)
                | none => false) = true then 1 else 0) + heavyFirst G (v :: rest) := by
      simp only [heavyFirst, consecPairs, List.tail_cons, List.zip_cons_cons, List.countP_cons]
      omega
    unfold heavyLoop
    cases hf : (G.getD u []).find? (fun e => e.dst == v) with
    | none =>
      rw [hf] at hcons
      simp only [ih, hcons]
      simp
    | some e =>
      rw [hf] at hcons
      simp only
      by_cases hw : e.w ≥ 6000
      · rw [if_pos hw, ih, hcons]
        simp only [hw, decide_True, if_true]
        ext
        · simp
        · simp only [Nat.cast_add, Nat.cast_one]; ring
      · rw [if_neg hw, ih, hcons]
        simp [hw]

theorem heavy_flag_iff (G : Graph) (nodes : List Nat) :
    (heavyLoop G nodes (false, 0)).1 = true ↔ (heavyLoop G nodes (false, 0)).2 > 0 := by
  rw [heavyLoop_eq]
  simp

theorem heavyFirst_eq_heavyPairs (G : Graph) (hG : SimpleGraph G) (nodes : List Nat) :
    heavyFirst G nodes = heavyPairs G nodes := by
  unfold heavyFirst heavyPairs
  congr 1
  funext uv
  cases hf : (G.getD uv.1 []).find? (fun e => e.dst == uv.2) with
  | none =>
    simp only
    symm
    rw [Bool.eq_false_iff]
    intro h
    rw [List.any_eq_true] at h
    obtain ⟨e, he, hp⟩ := h
    simp only [Bool.and_eq_true, beq_iff_eq] at hp
    have := List.find?_eq_none.mp hf e he
    simp [hp.1] at this
  | some e =>
    simp only
    have hmem : e ∈ G.getD uv.1 [] := List.mem_of_find?_eq_some hf
    have hdst : e.dst = uv.2 := by
      have := List.find?_some hf
      simpa using this
    by_cases hw : e.w ≥ 6000
    · simp only [hw, decide_True]
      symm
      rw [List.any_eq_true]
      exact ⟨e, hmem, by simp [hdst, hw]⟩
    · simp only [hw, decide_False]
      symm
      rw [Bool.eq_false_iff]
      intro h
      rw [List.any_eq_true] at h
      obtain ⟨e', he', hp⟩ := h
      simp only [Bool.and_eq_true, beq_iff_eq, decide_eq_true_eq] at hp
      have hsame : e' = e := by
        by_cases hu : uv.1 < G.length
        · rw [getD_eq_of_lt G uv.1 [] hu] at hmem he'
          exact hG _ (List.getElem_mem _) e' he' e hmem (by rw [hp.1, hdst])
        · rw [List.getD_eq_getElem?_getD, List.getElem?_eq_none (not_lt.mp hu)] at hmem
          simp at hmem
      rw [hsame] at hp
      exact hw hp.2


theorem go_append_left (sep p : String) : ∀ (l : List String) (acc : String),
    p ++ String.intercalate.go acc sep l = String.intercalate.go (p ++ acc) sep l
  | [], acc => by simp [String.intercalate.go]
  | a :: l, acc => by
    simp only [String.intercalate.go]
    rw [go_append_left sep p l]
    simp only [String.append_assoc]

theorem go_data_prefix (sep : String) : ∀ (l : List String) (acc : String),
    ∃ rest, (String.intercalate.go acc sep l).data = acc.data ++ rest
  | [], acc => ⟨[], by simp [String.intercalate.go]⟩
  | a :: l, acc => by
    simp only [String.intercalate.go]
    obtain ⟨rest, hr⟩ := go_data_prefix sep l (acc ++ sep ++ a)
    refine ⟨sep.data ++ a.data ++ rest, ?_⟩
    rw [hr]
    simp [String.data_append, List.append_assoc]

theorem joinLoop_succ : ∀ (rs : List String) (i : Nat) (acc : String),
    joinLoop rs (i + 1) acc = String.intercalate.go acc ". " rs
  | [], _, _ => by simp [joinLoop, String.intercalate.go]
  | r :: rs, i, acc => by
    simp only [joinLoop, String.intercalate.go]
    rw [if_pos (Nat.succ_ne_zero i)]
    exact joinLoop_succ rs (i + 1) _

theorem joinLoop_eq_intercalate (rs : List String) :
    joinLoop rs 0 "" = ". ".intercalate rs := by
  cases rs with
  | nil => rfl
  | cons r rs =>
    simp only [joinLoop, String.intercalate]
    rw [if_neg (by simp), String.empty_append]
    exact joinLoop_succ rs 0 r

theorem detourLoop_succ (NODES : List NodeInfo) : ∀ (l : List Nat) (i : Nat) (acc : String),
    detourLoop NODES l (i + 1) acc
      = String.intercalate.go acc ", "
          ((l.take (6 - (i + 1))).map (fun x => (NODES.getD x default).name))
  | [], _, _ => by simp [detourLoop, String.intercalate.go]
  | x :: rest, i, acc => by
    simp only [detourLoop]
    by_cases hi : i + 1 < 6
    · rw [if_pos hi, if_pos (Nat.succ_ne_zero i), detourLoop_succ NODES rest (i + 1)]
      have h6 : 6 - (i + 1) = (6 - (i + 1 + 1)) + 1 := by omega
      rw [h6, List.take_succ_cons, List.map_cons]
      simp only [String.intercalate.go]
    · rw [if_neg hi]
      have h6 : 6 - (i + 1) = 0 := by omega
      rw [h6]
      simp [String.intercalate.go]

theorem detourText_eq_ref (NODES : List NodeInfo) (det : List Nat) :
    detourText NODES det = refDetourText NODES det := by
  unfold detourText refDetourText
  have hloop : detourLoop NODES det 0 "Detours via "
      = "Detours via " ++ ", ".intercalate
          ((det.take 6).map (fun x => (NODES.getD x default).name)) := by
    cases det with
    | nil => simp [detourLoop, String.intercalate]
    | cons x rest =>
      simp only [detourLoop, String.intercalate]
      rw [if_pos (by decide), if_neg (by simp), detourLoop_succ NODES rest 0]
      simp only [List.take_succ_cons, List.map_cons]
      rw [go_append_left]
  simp only [hloop]
  split
  · rfl
  · rw [String.append_empty]


theorem detours_eq_filter (best cand : PathInfo) :
    detours best cand = cand.nodes.filter (fun x => decide (x ∉ best.nodes)) := by
  unfold detours
  congr 1
  funext x
  by_cases h : x ∈ best.nodes <;> simp [h]

theorem detours_ne_nil_iff (best cand : PathInfo) :
    detours best cand ≠ [] ↔ ∃ x ∈ cand.nodes, x ∉ best.nodes := by
  rw [detours_eq_filter]
  constructor
  · intro h
    obtain ⟨x, hx⟩ := List.exists_mem_of_ne_nil _ h
    rw [List.mem_filter] at hx
    exact ⟨x, hx.1, by simpa using hx.2⟩
  · rintro ⟨x, hx1, hx2⟩ h
    have : x ∈ cand.nodes.filter (fun x => decide (x ∉ best.nodes)) :=
      List.mem_filter.mpr ⟨hx1, by simpa using hx2⟩
    rw [h] at this
    simp at this

theorem collectReasons_eq_ref (fmt2 : ℚ → String) (NODES : List NodeInfo) (G : Graph)
    (best cand : PathInfo) :
    collectReasons fmt2 NODES G best cand = refReasons fmt2 NODES G best cand := by
  unfold collectReasons refReasons heavyBlock detourBlock hopBlock distanceBlock
  simp only [← detours_ne_nil_iff best cand, heavyLoop_eq, Bool.false_or, decide_eq_true_eq,
    zero_add]
  by_cases c1 : cand.dist - best.dist > 1 <;>
    by_cases c2 : cand.nodes.length > best.nodes.length <;>
    by_cases c3 : detours best cand ≠ [] <;>
    by_cases c4 : 0 < heavyFirst G cand.nodes <;>
    simp [c1, c2, c3, c4]


theorem reasonLike_append (c : Char) (cs : List Char) (t : String) (hc : c ≠ 'V') :
    ReasonLike (String.mk (c :: cs) ++ t) :=
  ⟨c, cs ++ t.data, by rw [String.data_append]; rfl, hc⟩

theorem reasonLike_distanceText (fmt2 : ℚ → String) (x : ℚ) : ReasonLike (distanceText fmt2 x) := by
  unfold distanceText
  rw [String.append_assoc]
  exact reasonLike_append 'L' _ _ (by decide)

theorem reasonLike_hopText (a b : Int) : ReasonLike (hopText a b) := by
  unfold hopText
  rw [String.append_assoc, String.append_assoc, String.append_assoc]
  exact reasonLike_append 'M' _ _ (by decide)

theorem reasonLike_detourText (NODES : List NodeInfo) (det : List Nat) :
    ReasonLike (detourText NODES det) := by
  rw [detourText_eq_ref]
  unfold refDetourText
  rw [String.append_assoc]
  exact reasonLike_append 'D' _ _ (by decide)

theorem reasonLike_heavyText (n : Int) : ReasonLike (heavyText n) := by
  unfold heavyText
  rw [String.append_assoc]
  exact reasonLike_append 'C' _ _ (by decide)

theorem reasonLike_refReasons (fmt2 : ℚ → String) (NODES : List NodeInfo) (G : Graph)
    (best cand : PathInfo) : ∀ r ∈ refReasons fmt2 NODES G best cand, ReasonLike r := by
  intro r hr
  unfold refReasons at hr
  simp only [List.mem_append] at hr
  rcases hr with ((hr | hr) | hr) | hr
  · split at hr
    · simp only [List.mem_singleton] at hr; subst hr; exact reasonLike_distanceText _ _
    · simp at hr
  · split at hr
    · simp only [List.mem_singleton] at hr; subst hr; exact reasonLike_hopText _ _
    · simp at hr
  · split at hr
    · simp only [List.mem_singleton] at hr; subst hr; exact reasonLike_detourText _ _
    · simp at hr
  · split at hr
    · simp only [List.mem_singleton] at hr; subst hr; exact reasonLike_heavyText _
    · simp at hr

theorem reasonLike_intercalate (sep r : String) (rs : List String) (h : ReasonLike r) :
    ReasonLike (sep.intercalate (r :: rs)) := by
  obtain ⟨c, rest, hd, hc⟩ := h
  obtain ⟨rest', hr⟩ := go_data_prefix sep rs r
  exact ⟨c, rest ++ rest', by simp only [String.intercalate]; rw [hr, hd]; rfl, hc⟩

theorem reasonLike_ne_empty {r : String} (h : ReasonLike r) : r ≠ "" := by
  obtain ⟨c, rest, hd, _⟩ := h
  intro heq
  rw [heq] at hd
  simp at hd

/-- C17: on a graph with at most one entry per ordered pair of nodes, the heavy-segment
reason is present exactly when some consecutive pair of `cand.nodes` is joined by an edge of
weight at least 6000, and the number it reports is the number of such pairs. -/
theorem heavy_reason_counts_pairs (G : Graph) (hG : SimpleGraph G) (cand : PathInfo)
    (reasons : List String) :
    heavyBlock G cand reasons
      = if heavyPairs G cand.nodes > 0 then
          reasons ++ ["Contains " ++ toString (heavyPairs G cand.nodes : Int)
            ++ " long segment(s) >= 6 km"]
        else reasons := by
  unfold heavyBlock
  simp only [heavyLoop_eq, heavyFirst_eq_heavyPairs G hG, Bool.false_or, decide_eq_true_eq,
    zero_add, heavyText]

/-- C17 (witness): a candidate with exactly one 7000 m edge gets the single heavy-segment
reason reporting 1. -/
theorem heavy_reason_counts_pairs_witness :
    heavyBlock longEdgeGraph { nodes := [0, 3, 2], dist := 8000 } []
        = (if heavyPairs longEdgeGraph [0, 3, 2] > 0 then
            [] ++ ["Contains " ++ toString (heavyPairs longEdgeGraph [0, 3, 2] : Int)
              ++ " long segment(s) >= 6 km"]
          else []) ∧
      heavyBlock longEdgeGraph { nodes := [0, 3, 2], dist := 8000 } []
        = ["Contains 1 long segment(s) >= 6 km"] :=
  ⟨heavy_reason_counts_pairs longEdgeGraph (by unfold SimpleGraph; decide!)
    { nodes := [0, 3, 2], dist := 8000 } [], by decide!⟩

/-- C18: the detour reason is present exactly when some node of `cand.nodes` does not occur
in `best.nodes`; it names those nodes in the order of the candidate path, the first six
only, separated by `", "`, and ends with `", ..."` exactly when there are more than six. -/
theorem detour_reason_lists_nodes (NODES : List NodeInfo) (best cand : PathInfo)
    (reasons : List String) :
    detourBlock NODES best cand reasons
      = if cand.nodes.filter (fun x => decide (x ∉ best.nodes)) = [] then reasons
        else reasons ++
          ["Detours via " ++ ", ".intercalate
              (((cand.nodes.filter (fun x => decide (x ∉ best.nodes))).take 6).map
                (fun x => (NODES.getD x default).name))
            ++ (if (cand.nodes.filter (fun x => decide (x ∉ best.nodes))).length > 6
                then ", ..." else "")] := by
  unfold detourBlock
  simp only []
  rw [detours_eq_filter, detourText_eq_ref]
  unfold refDetourText
  by_cases h : cand.nodes.filter (fun x => decide (x ∉ best.nodes)) = []
  · rw [if_neg (not_not.mpr h), if_pos h]
  · rw [if_pos h, if_neg h]

/-- C19: `explain_reason` never returns the empty string. -/
theorem explain_reason_nonempty (fmt2 : ℚ → String) (NODES : List NodeInfo) (G : Graph)
    (best cand : PathInfo) : explain_reason fmt2 NODES G best cand ≠ "" := by
  unfold explain_reason
  simp only [collectReasons_eq_ref, joinLoop_eq_intercalate]
  have hlike := reasonLike_refReasons fmt2 NODES G best cand
  cases hr : refReasons fmt2 NODES G best cand with
  | nil => simp only [if_true]; decide
  | cons r rs =>
    rw [hr] at hlike
    rw [if_neg (by simp)]
    exact reasonLike_ne_empty
      (reasonLike_intercalate ". " r rs (hlike r (List.mem_cons_self _ _)))

end MainCpp

/-! ### The routes returned by `yen_lite_k_shortest` -/

namespace MainCpp

theorem buildLoop_chain (parent : Nat → Option Nat) :
    ∀ (fuel cur : Nat) (path p : List Nat), buildLoop parent fuel cur path = some p →
      ∃ l, p = path ++ l ∧ PrevChain parent (some cur) l
  | 0, _, _, _, h => by simp [buildLoop] at h
  | fuel + 1, cur, path, p, h => by
    unfold buildLoop at h
    cases hp : parent cur with
    | none =>
      rw [hp] at h
      simp only [Option.some.injEq] at h
      exact ⟨[cur], h.symm, ⟨rfl, by rw [hp]; rfl⟩⟩
    | some q =>
      rw [hp] at h
      simp only at h
      obtain ⟨l, hl, hc⟩ := buildLoop_chain parent fuel q _ p h
      refine ⟨cur :: l, by rw [hl]; simp, ⟨rfl, ?_⟩⟩
      rw [hp]
      exact hc

theorem buildLoop_of_anc {parent : Nat → Option Nat} {x k : Nat} (h : Anc parent x k) :
    ∀ (fuel : Nat) (path : List Nat), k + 1 ≤ fuel →
      ∃ p, buildLoop parent fuel x path = some p := by
  induction h with
  | @root v hp =>
    intro fuel path hf
    obtain ⟨f, rfl⟩ : ∃ f, fuel = f + 1 := ⟨fuel - 1, by omega⟩
    simp [buildLoop, hp]
  | @step v u k hp _ ih =>
    intro fuel path hf
    obtain ⟨f, rfl⟩ : ∃ f, fuel = f + 1 := ⟨fuel - 1, by omega⟩
    simp only [buildLoop, hp]
    exact ih f _ (by omega)

theorem dijkstra_touched {fuel : Nat} {G : Graph} {s t : Nat} {F : List Nat} {d : ℚ}
    {parent : Nat → Option Nat} (h : dijkstra fuel G s t F = some (d, parent)) :
    ∃ st, Touched (usable G F) s st ∧ st.dist t = d ∧ st.parent = parent := by
  unfold dijkstra at h
  rw [relaxEdges_fun_eq] at h
  cases hs : searchLoop (fun d u st => relaxOut d u (usable G F u) st) t fuel (initState s) with
  | none => rw [hs] at h; simp at h
  | some st =>
    rw [hs] at h
    simp only [Option.some.injEq, Prod.mk.injEq] at h
    exact ⟨st, touched_searchLoop t fuel _ st (touched_init _ s) hs, h.1, h.2⟩

theorem mem_usable_edge {G : Graph} {F : List Nat} {u v : Nat} {c : ℚ}
    (h : (v, c) ∈ usable G F u) : ∃ e ∈ G.getD u [], e.dst = v := by
  unfold usable at h
  simp only [List.mem_map, List.mem_filter, Prod.mk.injEq] at h
  obtain ⟨e, ⟨he, _⟩, hd, _⟩ := h
  exact ⟨e, he, hd⟩

theorem build_traversable {fuel fuel' : Nat} {G : Graph} {s t : Nat} {F : List Nat} {d : ℚ}
    {parent : Nat → Option Nat} {p : List Nat}
    (h : dijkstra fuel G s t F = some (d, parent)) (hd : d < NOPATH)
    (hb : build_path_from_parent fuel' t parent = some p) : Traversable G s t p := by
  obtain ⟨st, T, hdist, hpar⟩ := dijkstra_touched h
  unfold build_path_from_parent at hb
  cases hl : buildLoop parent fuel' t [] with
  | none => rw [hl] at hb; simp at hb
  | some q =>
    rw [hl] at hb
    simp only [Option.map_some', Option.some.injEq] at hb
    obtain ⟨l, hql, hc⟩ := buildLoop_chain _ _ _ _ _ hl
    simp only [List.nil_append] at hql
    subst hql
    rw [← hpar] at hc
    have hlt : st.dist t < INF := by rw [hdist]; exact lt_trans hd nopath_lt_inf
    obtain ⟨h1, h2, h3⟩ := touched_chain T q t hc hlt
    subst hb
    refine ⟨?_, by rw [List.head?_reverse]; exact h2,
      by rw [List.getLast?_reverse]; exact h1, ?_⟩
    · intro hnil
      rw [List.reverse_eq_nil_iff] at hnil
      rw [hnil] at h1
      simp at h1
    · rw [List.chain'_reverse]
      refine List.Chain'.imp ?_ h3
      intro a b ⟨c, hc⟩
      exact mem_usable_edge hc

theorem probeLoop_traversable (fuel : Nat) (G : Graph) (s t : Nat) (results : List PathInfo) :
    ∀ (pairs : List (Nat × Nat)) (cands cands' : List (ℚ × List Nat)),
      (∀ c ∈ cands, Traversable G s t c.2) →
      probeLoop fuel G s t results pairs cands = some cands' →
      ∀ c ∈ cands', Traversable G s t c.2
  | [], cands, cands', hc, h => by
    simp only [probeLoop, Option.some.injEq] at h
    subst h
    exact hc
  | ab :: rest, cands, cands', hc, h => by
    unfold probeLoop at h
    cases hd : dijkstra fuel G s t (forbidAll G ab.1 ab.2) with
    | none => rw [hd] at h; simp at h
    | some r =>
      obtain ⟨d2, parent2⟩ := r
      rw [hd] at h
      simp only at h
      split at h
      · rename_i hlt
        cases hb : build_path_from_parent fuel t parent2 with
        | none => rw [hb] at h; simp at h
        | some p2 =>
          rw [hb] at h
          simp only at h
          have hp2 := build_traversable hd hlt hb
          split at h
          · exact probeLoop_traversable fuel G s t results rest _ cands' hc h
          · refine probeLoop_traversable fuel G s t results rest _ cands' ?_ h
            intro c hcm
            unfold candInsert at hcm
            split at hcm
            · exact hc c hcm
            · rcases List.mem_cons.mp hcm with rfl | hcm
              · exact hp2
              · exact hc c hcm
      · exact probeLoop_traversable fuel G s t results rest _ cands' hc h

theorem yenLoop_traversable (fuel : Nat) (G : Graph) (s t : Nat) :
    ∀ (k : Nat) (results r : List PathInfo) (cands : List (ℚ × List Nat)),
      (∀ x ∈ results, Traversable G s t x.nodes) → (∀ c ∈ cands, Traversable G s t c.2) →
      yenLoop fuel G s t k results cands = some r →
      ∀ x ∈ r, Traversable G s t x.nodes
  | 0, results, r, cands, hr, _, h => by
    simp only [yenLoop, Option.some.injEq] at h
    subst h
    exact hr
  | k + 1, results, r, cands, hr, hc, h => by
    unfold yenLoop at h
    cases hl : results.getLast? with
    | none =>
      rw [hl] at h
      simp only [Option.some.injEq] at h
      subst h
      exact hr
    | some last =>
      rw [hl] at h
      simp only at h
      cases hp : probeLoop fuel G s t results (consecPairs last.nodes) cands with
      | none => rw [hp] at h; simp at h
      | some cands1 =>
        rw [hp] at h
        simp only at h
        have hc1 := probeLoop_traversable fuel G s t results _ cands cands1 hc hp
        cases hm : candMin cands1 with
        | none =>
          rw [hm] at h
          simp only [Option.some.injEq] at h
          subst h
          exact hr
        | some it =>
          rw [hm] at h
          simp only at h
          refine yenLoop_traversable fuel G s t k _ r _ ?_ ?_ h
          · intro x hx
            rcases List.mem_append.mp hx with hx | hx
            · exact hr x hx
            · simp only [List.mem_singleton] at hx
              subst hx
              exact hc1 it (SafePath.candMin_mem _ _ hm)
          · intro c hcm
            exact hc1 c (List.mem_of_mem_erase hcm)

theorem yen_lite_traversable {fuel : Nat} {G : Graph} {s t : Nat} {K : Int}
    {results : List PathInfo} (h : yen_lite_k_shortest fuel G s t K = some results) :
    ∀ x ∈ results, Traversable G s t x.nodes := by
  unfold yen_lite_k_shortest at h
  cases hd : dijkstra fuel G s t [] with
  | none => rw [hd] at h; simp at h
  | some r =>
    obtain ⟨bestd, parent⟩ := r
    rw [hd] at h
    simp only at h
    split at h
    · simp only [Option.some.injEq] at h
      subst h
      intro x hx
      simp at hx
    · rename_i hge
      cases hb : build_path_from_parent fuel t parent with
      | none => rw [hb] at h; simp at h
      | some bestpath =>
        rw [hb] at h
        simp only at h
        have hbest := build_traversable hd (not_le.mp hge) hb
        refine yenLoop_traversable fuel G s t _ _ results _ ?_ ?_ h
        · intro x hx
          simp only [List.mem_singleton] at hx
          subst hx
          exact hbest
        · intro c hc
          simp at hc

end MainCpp

namespace MainCpp

theorem dijkstra_build_total (G : Graph) (F : List Nat) (s t : Nat) (hnn : NonNeg G)
    (fuel : Nat) (hfuel : (G.map List.length).sum + 1 < fuel) :
    ∃ d parent p, dijkstra fuel G s t F = some (d, parent) ∧
      build_path_from_parent fuel t parent = some p := by
  obtain ⟨st, S, st0, h1, h2, _, h4, _, h6⟩ := dijkstra_settled G F s t hnn fuel hfuel
  obtain ⟨k, hk0, hk⟩ := settled_anc_all h2 t
  rw [h4] at hk
  obtain ⟨p, hp⟩ := buildLoop_of_anc hk fuel [] (by omega)
  refine ⟨st.dist t, st.parent, p.reverse, h1, ?_⟩
  unfold build_path_from_parent
  rw [hp]
  rfl

theorem probeLoop_total (G : Graph) (s t : Nat) (hnn : NonNeg G) (fuel : Nat)
    (hfuel : (G.map List.length).sum + 1 < fuel) (results : List PathInfo) :
    ∀ (pairs : List (Nat × Nat)) (cands : List (ℚ × List Nat)),
      ∃ cands', probeLoop fuel G s t results pairs cands = some cands'
  | [], cands => ⟨cands, rfl⟩
  | ab :: rest, cands => by
    obtain ⟨d, parent, p, hd, hb⟩ :=
      dijkstra_build_total G (forbidAll G ab.1 ab.2) s t hnn fuel hfuel
    unfold probeLoop
    rw [hd]
    simp only [hb]
    split
    · split
      · exact probeLoop_total G s t hnn fuel hfuel results rest _
      · exact probeLoop_total G s t hnn fuel hfuel results rest _
    · exact probeLoop_total G s t hnn fuel hfuel results rest _

theorem yenLoop_total (G : Graph) (s t : Nat) (hnn : NonNeg G) (fuel : Nat)
    (hfuel : (G.map List.length).sum + 1 < fuel) :
    ∀ (k : Nat) (results : List PathInfo) (cands : List (ℚ × List Nat)),
      ∃ r, yenLoop fuel G s t k results cands = some r ∧ results.length ≤ r.length ∧
        r.length ≤ results.length + k
  | 0, results, _ => ⟨results, rfl, le_refl _, by omega⟩
  | k + 1, results, cands => by
    unfold yenLoop
    cases hl : results.getLast? with
    | none => exact ⟨results, rfl, le_refl _, by omega⟩
    | some last =>
      simp only
      obtain ⟨cands1, hp⟩ :=
        probeLoop_total G s t hnn fuel hfuel results (consecPairs last.nodes) cands
      rw [hp]
      simp only
      cases hm : candMin cands1 with
      | none => exact ⟨results, rfl, le_refl _, by omega⟩
      | some it =>
        simp only
        obtain ⟨r, hr, h1, h2⟩ := yenLoop_total G s t hnn fuel hfuel k
          (results ++ [compute_path_info G it.2]) (cands1.erase it)
        simp only [List.length_append, List.length_singleton] at h1 h2
        exact ⟨r, hr, by omega, by omega⟩

theorem yen_lite_total (G : Graph) (s t : Nat) (K : Int) (hnn : NonNeg G) (fuel : Nat)
    (hfuel : (G.map List.length).sum + 1 < fuel) :
    ∃ results, yen_lite_k_shortest fuel G s t K = some results ∧
      results.length ≤ 1 + (K - 1).toNat ∧
      ((∃ es, IsPath G [] s es t ∧ pathWeight es + es.length * EPS < NOPATH) →
        1 ≤ results.length) := by
  obtain ⟨st, S, st0, h1, h2, _, h4, h5, h6⟩ := dijkstra_settled G [] s t hnn fuel hfuel
  obtain ⟨k, hk0, hk⟩ := settled_anc_all h2 t
  rw [h4] at hk
  obtain ⟨p, hp⟩ := buildLoop_of_anc hk fuel [] (by omega)
  have hb : build_path_from_parent fuel t st.parent = some p.reverse := by
    unfold build_path_from_parent
    rw [hp]
    rfl
  unfold yen_lite_k_shortest
  rw [h1]
  simp only
  by_cases hge : st.dist t ≥ NOPATH
  · rw [if_pos hge]
    refine ⟨[], rfl, by simp, ?_⟩
    rintro ⟨es, hes, hw⟩
    have := h5 _ (isPath_isWalk es s t hes)
    rw [pathWeight_eq_walkCost, List.length_map] at this
    exact absurd (lt_of_le_of_lt this hw) (not_lt.mpr hge)
  · rw [if_neg hge, hb]
    simp only
    obtain ⟨r, hr, hlen1, hlen2⟩ := yenLoop_total G s t hnn fuel hfuel (K - 1).toNat
      [compute_path_info G p.reverse] []
    simp only [List.length_singleton] at hlen1 hlen2
    exact ⟨r, hr, hlen2, fun _ => hlen1⟩

/-- C11 (counterexample): in `farGraph` node 1 is reached from node 0 by an edge of weight
`1e17`, and `yen_lite_k_shortest(0, 1, 1)` returns the empty list. -/
theorem yen_lite_empty_despite_path :
    NonNeg farGraph ∧ IsPath farGraph [] 0 [{ dst := 1, w := NOPATH, id := 0 }] 1 ∧
      yen_lite_k_shortest 10 farGraph 0 1 1 = some [] := by
  refine ⟨by unfold NonNeg; decide!, ?_, by decide!⟩
  simp [IsPath, farGraph]

/-- C12: on a graph with non-negative weights `yen_lite_k_shortest(s, t, K)` returns, and
every route of the list is a traversable path: its node sequence is not empty, starts at
`s`, ends at `t`, and each consecutive pair `(u, v)` is joined by an entry of `G[u]`. -/
theorem yen_lite_routes_traversable (G : Graph) (s t : Nat) (K : Int) (hnn : NonNeg G)
    (fuel : Nat) (hfuel : (G.map List.length).sum + 1 < fuel) :
    ∃ results, yen_lite_k_shortest fuel G s t K = some results ∧
      ∀ r ∈ results, r.nodes ≠ [] ∧ r.nodes.head? = some s ∧ r.nodes.getLast? = some t ∧
        List.Chain' (fun u v => ∃ e ∈ G.getD u [], e.dst = v) r.nodes := by
  obtain ⟨results, hr, _, _⟩ := yen_lite_total G s t K hnn fuel hfuel
  exact ⟨results, hr, yen_lite_traversable hr⟩

/-- C12 (witness): the diamond from A to D with K = 2 and 20 units of fuel. -/
theorem yen_lite_routes_traversable_witness :
    ∃ results, yen_lite_k_shortest 20 diamondGraph 0 3 2 = some results ∧
      ∀ r ∈ results, r.nodes ≠ [] ∧ r.nodes.head? = some 0 ∧ r.nodes.getLast? = some 3 ∧
        List.Chain' (fun u v => ∃ e ∈ diamondGraph.getD u [], e.dst = v) r.nodes :=
  yen_lite_routes_traversable diamondGraph 0 3 2 (by unfold NonNeg; decide!) 20 (by decide)

end MainCpp

/-! ### More fuel does not change a result of main.cpp -/

namespace MainCpp

theorem dijkstra_mono {fuel : Nat} {G : Graph} {s t : Nat} {F : List Nat}
    {r : ℚ × (Nat → Option Nat)} (h : dijkstra fuel G s t F = some r) (k : Nat) :
    dijkstra (fuel + k) G s t F = some r := by
  unfold dijkstra at h ⊢
  cases hs : searchLoop (fun d u st => relaxEdges F d u (G.getD u []) st) t fuel
      (initState s) with
  | none => rw [hs] at h; simp at h
  | some st =>
    rw [hs] at h
    rw [searchLoop_mono _ t fuel _ st hs k]
    exact h

theorem buildLoop_mono (parent : Nat → Option Nat) :
    ∀ (fuel cur : Nat) (path p : List Nat), buildLoop parent fuel cur path = some p →
      ∀ k, buildLoop parent (fuel + k) cur path = some p
  | 0, _, _, _, h, _ => by simp [buildLoop] at h
  | fuel + 1, cur, path, p, h, k => by
    have hk : fuel + 1 + k = (fuel + k) + 1 := by omega
    rw [hk]
    unfold buildLoop at h ⊢
    cases hp : parent cur with
    | none => rw [hp] at h; exact h
    | some q =>
      rw [hp] at h
      exact buildLoop_mono parent fuel q _ p h k

theorem build_path_mono {fuel t : Nat} {parent : Nat → Option Nat} {p : List Nat}
    (h : build_path_from_parent fuel t parent = some p) (k : Nat) :
    build_path_from_parent (fuel + k) t parent = some p := by
  unfold build_path_from_parent at h ⊢
  cases hl : buildLoop parent fuel t [] with
  | none => rw [hl] at h; simp at h
  | some q =>
    rw [hl] at h
    rw [buildLoop_mono parent fuel t [] q hl k]
    exact h

theorem probeLoop_mono (fuel : Nat) (G : Graph) (s t : Nat) (results : List PathInfo)
    (k : Nat) :
    ∀ (pairs : List (Nat × Nat)) (cands cands' : List (ℚ × List Nat)),
      probeLoop fuel G s t results pairs cands = some cands' →
      probeLoop (fuel + k) G s t results pairs cands = some cands'
  | [], _, _, h => by simpa [probeLoop] using h
  | ab :: rest, cands, cands', h => by
    unfold probeLoop at h ⊢
    cases hd : dijkstra fuel G s t (forbidAll G ab.1 ab.2) with
    | none => rw [hd] at h; simp at h
    | some r =>
      obtain ⟨d2, parent2⟩ := r
      rw [hd] at h
      rw [dijkstra_mono hd k]
      simp only at h ⊢
      split
      · rename_i hlt
        rw [if_pos hlt] at h
        cases hb : build_path_from_parent fuel t parent2 with
        | none => rw [hb] at h; simp at h
        | some p2 =>
          rw [hb] at h
          rw [build_path_mono hb k]
          simp only at h ⊢
          split
          · rename_i hdup
            rw [if_pos hdup] at h
            exact probeLoop_mono fuel G s t results k rest _ cands' h
          · rename_i hdup
            rw [if_neg hdup] at h
            exact probeLoop_mono fuel G s t results k rest _ cands' h
      · rename_i hlt
        rw [if_neg hlt] at h
        exact probeLoop_mono fuel G s t results k rest _ cands' h

theorem yenLoop_mono (fuel : Nat) (G : Graph) (s t : Nat) (k : Nat) :
    ∀ (n : Nat) (results r : List PathInfo) (cands : List (ℚ × List Nat)),
      yenLoop fuel G s t n results cands = some r →
      yenLoop (fuel + k) G s t n results cands = some r
  | 0, _, _, _, h => by simpa [yenLoop] using h
  | n + 1, results, r, cands, h => by
    unfold yenLoop at h ⊢
    cases hl : results.getLast? with
    | none => rw [hl] at h; exact h
    | some last =>
      rw [hl] at h
      simp only at h ⊢
      cases hp : probeLoop fuel G s t results (consecPairs last.nodes) cands with
      | none => rw [hp] at h; simp at h
      | some cands1 =>
        rw [hp] at h
        rw [probeLoop_mono fuel G s t results k _ _ _ hp]
        simp only at h ⊢
        cases hm : candMin cands1 with
        | none => rw [hm] at h; exact h
        | some it =>
          rw [hm] at h
          exact yenLoop_mono fuel G s t k n _ r _ h

theorem yen_lite_mono {fuel : Nat} {G : Graph} {s t : Nat} {K : Int} {r : List PathInfo}
    (h : yen_lite_k_shortest fuel G s t K = some r) (k : Nat) :
    yen_lite_k_shortest (fuel + k) G s t K = some r := by
  unfold yen_lite_k_shortest at h ⊢
  cases hd : dijkstra fuel G s t [] with
  | none => rw [hd] at h; simp at h
  | some x =>
    obtain ⟨bestd, parent⟩ := x
    rw [hd] at h
    rw [dijkstra_mono hd k]
    simp only at h ⊢
    split
    · rename_i hge
      rw [if_pos hge] at h
      exact h
    · rename_i hge
      rw [if_neg hge] at h
      cases hb : build_path_from_parent fuel t parent with
      | none => rw [hb] at h; simp at h
      | some bestpath =>
        rw [hb] at h
        rw [build_path_mono hb k]
        exact yenLoop_mono fuel G s t k _ _ r _ h

/-- C20: on the diamond A -> B -> D, A -> C -> D with four edges of weight 1000, whichever of
A -> B and A -> C is listed first, `yen_lite_k_shortest(A, D, 2)` returns exactly two
routes: the branch through B with dist 2000, then the branch through C with dist 2000; the
result is the same for every amount of fuel from 20 on. -/
theorem diamond_two_routes (fuel : Nat) :
    yen_lite_k_shortest (20 + fuel) diamondGraph 0 3 2
        = some [{ nodes := [0, 1, 3], dist := 2000 }, { nodes := [0, 2, 3], dist := 2000 }] ∧
      yen_lite_k_shortest (20 + fuel) diamondGraphSwapped 0 3 2
        = some [{ nodes := [0, 1, 3], dist := 2000 }, { nodes := [0, 2, 3], dist := 2000 }] :=
  ⟨yen_lite_mono (by decide!) fuel, yen_lite_mono (by decide!) fuel⟩

end MainCpp

/-! ### Ranking, duplicates and direction in `safepath_core.cpp` -/

namespace SafePath

/-- C14 (failing input): on the triangle with a live-condition entry for every edge,
`k_short_simple(0, 1, 3)` returns the direct route, the detour, and the direct route again:
the probe from the detour finds `[0, 1]`, which is inserted although it is in the result. -/
theorem k_short_simple_duplicate :
    (k_short_simple 30 triangleEdges (build_adj triangleEdges) triangleUpdates 0 1 3).map
      Prod.fst = some [[0, 1], [0, 2, 1], [0, 1]] := by
  decide!

end SafePath

/-! ### The two-node scenario of `safepath_core.cpp` -/

namespace SafePath

theorem single_edge_forward (e : Edge) (upd : Overlay) (huv : e.u ≠ e.v)
    (hc : edge_cost [e] upd 0 < IMPASSABLE) (fuel : Nat) (hfuel : 3 ≤ fuel) :
    dijkstra_path fuel [e] (build_adj [e]) upd e.u e.v = some [e.u, e.v] := by
  obtain ⟨f, rfl⟩ : ∃ f, fuel = f + 3 := ⟨fuel - 3, by omega⟩
  have hadj : build_adj [e] e.u = [(e.v, 0)] := by
    rw [build_adj_apply]
    simp [adjOf, Ne.symm huv]
  have hvu : e.v ≠ e.u := Ne.symm huv
  generalize hcdef : edge_cost [e] upd 0 = c at hc
  have hc1 : ¬ c ≥ IMPASSABLE := not_le.mpr hc
  have hlt : 0 + c + EPS < INF := by
    unfold IMPASSABLE at hc
    unfold EPS INF
    linarith
  have hnp : ¬ (0 + c ≥ NOPATH) := by
    unfold IMPASSABLE at hc
    unfold NOPATH
    linarith
  unfold dijkstra_path
  simp only [searchLoop, initState, pqTop, List.erase_cons_head, Function.update_same,
    gt_iff_lt, lt_self_iff_false, if_false, huv, hadj, relaxAdj, hcdef, hc1, relaxStep,
    Function.update_noteq hvu, hlt, if_true]
  simp only [hnp, if_false, walkLoop, Function.update_same, Function.update_noteq huv,
    List.nil_append, List.cons_append, Option.map_some', List.reverse_cons, List.reverse_nil]

/-- C21: on the table whose only edge is `A -> B` (`A != B`) with `distance_m = 1000`,
`freeflow_time_s = 0`, `road_quality = 10`, `safety_index = 10`, and with the empty overlay,
`edge_cost` of that edge is exactly 1000 and `dijkstra_path(A, B)` returns the path `[A, B]`
(three iterations of fuel suffice). -/
theorem two_node_scenario (A B : Nat) (eid : Int) (hAB : A ≠ B) (fuel : Nat) (hfuel : 3 ≤ fuel) :
    edge_cost [neutralEdge A B 1000 eid] noUpdates 0 = 1000 ∧
      dijkstra_path fuel [neutralEdge A B 1000 eid] (build_adj [neutralEdge A B 1000 eid])
        noUpdates A B = some [A, B] := by
  have hcost : edge_cost [neutralEdge A B 1000 eid] noUpdates 0 = 1000 := by
    simp [edge_cost, edge_cost_of, neutralEdge, noUpdates, W_TIME, W_TRAFFIC, W_WEATHER,
      W_ROAD_QUAL, W_SAFETY]
  refine ⟨hcost, ?_⟩
  exact single_edge_forward (neutralEdge A B 1000 eid) noUpdates hAB
    (by rw [hcost]; unfold IMPASSABLE; norm_num) fuel hfuel

/-- C21 (witness): A = 0, B = 1, edge id 7 and 10 units of fuel. -/
theorem two_node_scenario_witness :
    edge_cost [neutralEdge 0 1 1000 7] noUpdates 0 = 1000 ∧
      dijkstra_path 10 [neutralEdge 0 1 1000 7] (build_adj [neutralEdge 0 1 1000 7])
        noUpdates 0 1 = some [0, 1] :=
  two_node_scenario 0 1 7 (by decide) 10 (by decide)

end SafePath

/-! ### The solver of `graph_logic.c` on an unreachable destination -/

namespace GraphLogic

theorem mem_out {graph : Matrix} {u v : Nat} {c : ℚ} :
    (v, c) ∈ out graph u ↔ u < NODES ∧ v < NODES ∧ graph u v ≠ -1 ∧ c = graph u v := by
  unfold out
  by_cases hu : u < NODES
  · rw [if_pos hu]
    simp only [List.mem_map, List.mem_filter, List.mem_range, decide_eq_true_eq, Prod.mk.injEq]
    constructor
    · rintro ⟨a, ⟨ha, hp⟩, rfl, rfl⟩
      exact ⟨hu, ha, hp, rfl⟩
    · rintro ⟨_, hv, hp, rfl⟩
      exact ⟨v, ⟨hv, hp⟩, rfl, rfl⟩
  · rw [if_neg hu]
    simp [hu]

theorem reachable_step {graph : Matrix} {src u v : Nat} (h : Reachable graph src u)
    (hu : u < NODES) (hv : v < NODES) (hp : graph u v ≠ -1) : Reachable graph src v := by
  obtain ⟨p, hp0⟩ := h
  exact ⟨p ++ [(v, graph u v)],
    isWalk_append p src u (v, graph u v) hp0 (mem_out.mpr ⟨hu, hv, hp, rfl⟩)⟩

/-- The selection loop: `min` never grows, it is at most the distance of every node of the
list that is not visited, and the node selected, if the loop selects one, is a node of the
list that is not visited, whose distance is `min` and is below the initial `min`. -/
theorem selectLoop_spec (visited : Nat → Bool) (dist : Nat → ℚ) :
    ∀ (js : List Nat) (mu : ℚ × Option Nat),
      (selectLoop visited dist js mu).1 ≤ mu.1 ∧
      (∀ j ∈ js, visited j = false → (selectLoop visited dist js mu).1 ≤ dist j) ∧
      ((selectLoop visited dist js mu) = mu ∨
        ∃ u ∈ js, (selectLoop visited dist js mu).2 = some u ∧ visited u = false ∧
          dist u = (selectLoop visited dist js mu).1 ∧ dist u < mu.1)
  | [], mu => by simp [selectLoop]
  | j :: js, mu => by
    unfold selectLoop
    by_cases hc : visited j = false ∧ dist j < mu.1
    · rw [if_pos hc]
      obtain ⟨h1, h2, h3⟩ := selectLoop_spec visited dist js (dist j, some j)
      simp only at h1
      refine ⟨le_trans h1 (le_of_lt hc.2), ?_, ?_⟩
      · intro x hx hv
        rcases List.mem_cons.mp hx with rfl | hx
        · exact h1
        · exact h2 x hx hv
      · right
        rcases h3 with h3 | ⟨u, hu, hr, hv, hd, hlt⟩
        · refine ⟨j, List.mem_cons_self _ _, by rw [h3], hc.1, by rw [h3], hc.2⟩
        · exact ⟨u, List.mem_cons_of_mem _ hu, hr, hv, hd, lt_trans hlt hc.2⟩
    · rw [if_neg hc]
      obtain ⟨h1, h2, h3⟩ := selectLoop_spec visited dist js mu
      refine ⟨h1, ?_, ?_⟩
      · intro x hx hv
        rcases List.mem_cons.mp hx with rfl | hx
        · have hge : mu.1 ≤ dist x := by
            by_contra hlt
            exact hc ⟨hv, not_le.mp hlt⟩
          exact le_trans h1 hge
        · exact h2 x hx hv
      · rcases h3 with h3 | ⟨u, hu, hr, hv, hd, hlt⟩
        · left; exact h3
        · right; exact ⟨u, List.mem_cons_of_mem _ hu, hr, hv, hd, hlt⟩

/-- The node selected at the start of an iteration of `dijkstra` is an unvisited node below
`NODES` whose distance is below `DBL_MAX` and is least among the unvisited nodes. -/
theorem select_some {visited : Nat → Bool} {dist : Nat → ℚ} {u : Nat}
    (h : (selectLoop visited dist (List.range NODES) (DBL_MAX, none)).2 = some u) :
    u < NODES ∧ visited u = false ∧ dist u < DBL_MAX ∧
      ∀ j, j < NODES → visited j = false → dist u ≤ dist j := by
  obtain ⟨_, h2, h3⟩ := selectLoop_spec visited dist (List.range NODES) (DBL_MAX, none)
  rcases h3 with h3 | ⟨x, hx, hr, hv, hd, hlt⟩
  · rw [h3] at h
    simp at h
  · rw [hr] at h
    simp only [Option.some.injEq] at h
    subst h
    refine ⟨List.mem_range.mp hx, hv, hlt, ?_⟩
    intro j hj hvj
    rw [hd]
    exact h2 j (List.mem_range.mpr hj) hvj

/-- When no node is selected, every unvisited node below `NODES` has the distance
`DBL_MAX` or more. -/
theorem select_none {visited : Nat → Bool} {dist : Nat → ℚ}
    (h : (selectLoop visited dist (List.range NODES) (DBL_MAX, none)).2 = none) :
    ∀ j, j < NODES → visited j = false → DBL_MAX ≤ dist j := by
  obtain ⟨_, h2, h3⟩ := selectLoop_spec visited dist (List.range NODES) (DBL_MAX, none)
  rcases h3 with h3 | ⟨x, _, hr, _⟩
  · intro j hj hvj
    have := h2 j (List.mem_range.mpr hj) hvj
    rw [h3] at this
    exact this
  · rw [hr] at h
    simp at h

theorem reached_relaxLoop {graph : Matrix} {src u : Nat} (hu : u < NODES)
    (hr : Reachable graph src u) :
    ∀ (vs : List Nat) (st : State), (∀ v ∈ vs, v < NODES) → Reached graph src st →
      Reached graph src (relaxLoop graph u vs st)
  | [], st, _, H => by simpa [relaxLoop] using H
  | v :: vs, st, hvs, H => by
    have hv : v < NODES := hvs v (List.mem_cons_self _ _)
    have hvs1 : ∀ x ∈ vs, x < NODES := fun x hx => hvs x (List.mem_cons_of_mem _ hx)
    unfold relaxLoop
    by_cases hc : graph u v ≠ -1 ∧ st.dist u + graph u v < st.dist v
    · rw [if_pos hc]
      have hrv : Reachable graph src v := reachable_step hr hu hv hc.1
      apply reached_relaxLoop hu hr vs _ hvs1
      refine ⟨?_, ?_, ?_⟩
      · intro x
        dsimp only
        by_cases hx : x = v
        · subst hx
          rw [Function.update_same]
          exact le_trans (le_of_lt hc.2) (H.dist_le x)
        · rw [Function.update_noteq hx]
          exact H.dist_le x
      · intro x
        dsimp only
        by_cases hx : x = v
        · subst hx
          intro _
          exact hrv
        · rw [Function.update_noteq hx]
          exact H.reach x
      · intro x y
        dsimp only
        by_cases hx : x = v
        · subst hx
          intro _
          exact hrv
        · rw [Function.update_noteq hx]
          exact H.par x y
    · rw [if_neg hc]
      exact reached_relaxLoop hu hr vs st hvs1 H

theorem reached_mainLoop {graph : Matrix} {src : Nat} :
    ∀ (i : Nat) (st : State), Reached graph src st → Reached graph src (mainLoop graph i st)
  | 0, st, H => by simpa [mainLoop] using H
  | i + 1, st, H => by
    unfold mainLoop
    cases hs : (selectLoop st.visited st.dist (List.range NODES) (DBL_MAX, none)).2 with
    | none => exact H
    | some u =>
      simp only
      obtain ⟨hu, _, hlt, _⟩ := select_some hs
      apply reached_mainLoop i
      apply reached_relaxLoop hu (H.reach u hlt) _ _ (fun v hv => List.mem_range.mp hv)
      exact ⟨H.dist_le, H.reach, H.par⟩

theorem dbl_max_pos : (0 : ℚ) < DBL_MAX := by
  unfold DBL_MAX
  norm_num

theorem reached_init (graph : Matrix) (src : Nat) :
    Reached graph src
      { visited := fun _ => false, dist := Function.update (fun _ => DBL_MAX) src 0,
        prev := noPrev } := by
  refine ⟨?_, ?_, ?_⟩
  · intro v
    dsimp only
    by_cases hv : v = src
    · subst hv
      rw [Function.update_same]
      exact le_of_lt dbl_max_pos
    · rw [Function.update_noteq hv]
  · intro v
    dsimp only
    by_cases hv : v = src
    · subst hv
      intro _
      exact ⟨[], rfl⟩
    · rw [Function.update_noteq hv]
      intro h
      exact absurd h (lt_irrefl _)
  · intro v u h
    simp [noPrev] at h

/-- After `dijkstra` on an array `prev` filled with `-1`, a node with a predecessor is
reachable from `src`. -/
theorem dijkstra_prev_reachable (graph : Matrix) (src dest v u : Nat)
    (h : dijkstra graph src dest noPrev v = some u) : Reachable graph src v :=
  (reached_mainLoop NODES _ (reached_init graph src)).par v u h

/-- C22: for every score matrix and every destination that is not reachable from the source
through present entries (in particular `src != dest`), the solver of `main` (`dijkstra` on
an array `prev` filled with `-1`, then `get_path`) produces the one-node path `[dest]`: it
does not signal "no path". -/
theorem solve_unreachable_degenerate (graph : Matrix) (src dest : Nat)
    (hno : ¬ Reachable graph src dest) (fuel : Nat) (hfuel : 1 ≤ fuel) :
    src ≠ dest ∧ dijkstra graph src dest noPrev dest = none ∧
      solve fuel graph src dest = some [dest] := by
  have hne : src ≠ dest := by
    intro h
    exact hno ⟨[], h⟩
  have hprev : dijkstra graph src dest noPrev dest = none := by
    cases hp : dijkstra graph src dest noPrev dest with
    | none => rfl
    | some u => exact absurd (dijkstra_prev_reachable graph src dest dest u hp) hno
  refine ⟨hne, hprev, ?_⟩
  obtain ⟨f, rfl⟩ : ∃ f, fuel = f + 1 := ⟨fuel - 1, by omega⟩
  unfold solve get_path
  rw [hprev]
  rfl

/-- C22 (failing input): the matrix built by `main`, from node 6 (F) to node 0 (Hospital):
no entry leaves node 6, and the path written is `[0]`. -/
theorem solve_unreachable_degenerate_witness :
    (6 : Nat) ≠ 0 ∧ dijkstra demoMatrix 6 0 noPrev 0 = none ∧
      solve 8 demoMatrix 6 0 = some [0] :=
  solve_unreachable_degenerate demoMatrix 6 0
    (by
      rintro ⟨p, hp⟩
      cases p with
      | nil => simp [IsWalk] at hp
      | cons e es =>
        obtain ⟨he, _⟩ := hp
        have hout : out demoMatrix 6 = [] := by decide!
        rw [hout] at he
        simp at he)
    8 (by decide)

end GraphLogic

/-! ### The solver of `graph_logic.c` on a matrix with non-negative entries -/

namespace GraphLogic

theorem mem_visitedSet {st : State} {x : Nat} :
    x ∈ visitedSet st ↔ x < NODES ∧ st.visited x = true := by
  unfold visitedSet
  simp

/-- A relaxation that lowers `dist[v]` from a visited node `u` that is farthest among the
visited nodes keeps the invariant and leaves the visited nodes untouched. -/
theorem visited_relaxStep {graph : Matrix} {src n u v : Nat} {st : State}
    (hnn : NonNeg graph) (H : Visited graph src n st) (hu : u ∈ visitedSet st)
    (hmax : ∀ x ∈ visitedSet st, st.dist x ≤ st.dist u) (hv : v < NODES)
    (hp : graph u v ≠ -1) (hlt : st.dist u + graph u v < st.dist v) :
    Visited graph src n
        { st with dist := Function.update st.dist v (st.dist u + graph u v)
                  prev := Function.update st.prev v (some u) } ∧
      v ∉ visitedSet st := by
  have huN : u < NODES := (mem_visitedSet.mp hu).1
  have hg : 0 ≤ graph u v := hnn u v huN hv hp
  have hvS : v ∉ visitedSet st := by
    intro hvS
    have := hmax v hvS
    linarith
  have huv : u ≠ v := fun h => hvS (h ▸ hu)
  have hvis : st.visited v = false := by
    cases hb : st.visited v with
    | false => rfl
    | true => exact absurd (mem_visitedSet.mpr ⟨hv, hb⟩) hvS
  refine ⟨⟨?_, ?_, ?_, ?_, ?_, ?_, ?_, ?_, ?_, ?_⟩, hvS⟩
  · intro x
    dsimp only
    by_cases hx : x = v
    · subst hx
      rw [Function.update_same]
      have := H.dist_nonneg u
      linarith
    · rw [Function.update_noteq hx]
      exact H.dist_nonneg x
  · intro x
    dsimp only
    by_cases hx : x = v
    · subst hx
      rw [Function.update_same]
      exact le_trans (le_of_lt hlt) (H.dist_le x)
    · rw [Function.update_noteq hx]
      exact H.dist_le x
  · dsimp only
    have hsv : src ≠ v := by
      intro h
      subst h
      have h0 := H.src_dist
      have := H.dist_nonneg u
      linarith
    rw [Function.update_noteq hsv]
    exact H.src_dist
  · dsimp only
    have hsv : src ≠ v := by
      intro h
      subst h
      have h0 := H.src_dist
      have := H.dist_nonneg u
      linarith
    rw [Function.update_noteq hsv]
    exact H.src_prev
  · intro x
    dsimp only
    by_cases hx : x = v
    · subst hx
      intro _
      right
      rw [Function.update_same]
      simp
    · rw [Function.update_noteq hx, Function.update_noteq hx]
      exact H.root x
  · intro x y
    dsimp only
    show _ → y ∈ visitedSet st ∧ _
    by_cases hx : x = v
    · subst hx
      rw [Function.update_same]
      intro h
      simp only [Option.some.injEq] at h
      subst h
      refine ⟨hu, mem_out.mpr ⟨huN, hv, hp, rfl⟩, ?_⟩
      rw [Function.update_noteq huv, Function.update_same]
    · rw [Function.update_noteq hx, Function.update_noteq hx]
      intro h
      obtain ⟨h1, h2, h3⟩ := H.par x y h
      have hyv : y ≠ v := fun h => hvS (h ▸ h1)
      rw [Function.update_noteq hyv]
      exact ⟨h1, h2, h3⟩
  · intro x hx
    obtain ⟨k, hk, ha⟩ := H.anc x hx
    exact ⟨k, hk, anc_update (some u) (fun w y h => (H.par w y h).1) hvS x k hx ha⟩
  · intro x hx y hy hvy
    dsimp only
    have hxv : x ≠ v := fun h => hvS (h ▸ hx)
    rw [Function.update_noteq hxv]
    by_cases hyv : y = v
    · subst hyv
      rw [Function.update_same]
      have := hmax x hx
      linarith
    · rw [Function.update_noteq hyv]
      exact H.order x hx y hy hvy
  · intro x hx
    dsimp only
    have hxv : x ≠ v := fun h => hvS (h ▸ hx)
    rw [Function.update_noteq hxv]
    exact H.vis_fin x hx
  · exact H.count

/-- The loop over `v` from a visited node `u` that is farthest among the visited nodes: the
invariant is kept, the set of visited nodes and their distances do not change, no distance
grows, and the entries `graph[u][v]` of the nodes `v` of the list are relaxed. -/
theorem visited_relaxLoop {graph : Matrix} {src n u : Nat} (hnn : NonNeg graph) :
    ∀ (vs : List Nat) (st : State), (∀ v ∈ vs, v < NODES) → Visited graph src n st →
      u ∈ visitedSet st → (∀ x ∈ visitedSet st, st.dist x ≤ st.dist u) →
      Visited graph src n (relaxLoop graph u vs st) ∧
        (relaxLoop graph u vs st).visited = st.visited ∧
        (∀ x ∈ visitedSet st, (relaxLoop graph u vs st).dist x = st.dist x) ∧
        (∀ x, (relaxLoop graph u vs st).dist x ≤ st.dist x) ∧
        (∀ v ∈ vs, graph u v ≠ -1 →
          (relaxLoop graph u vs st).dist v ≤ (relaxLoop graph u vs st).dist u + graph u v)
  | [], st, _, H, _, _ => by
    have e : relaxLoop graph u [] st = st := by simp [relaxLoop]
    rw [e]
    exact ⟨H, rfl, fun _ _ => rfl, fun _ => le_refl _, fun v hv => by simp at hv⟩
  | v :: vs, st, hvs, H, hu, hmax => by
    have hv : v < NODES := hvs v (List.mem_cons_self _ _)
    have hvs1 : ∀ x ∈ vs, x < NODES := fun x hx => hvs x (List.mem_cons_of_mem _ hx)
    unfold relaxLoop
    by_cases hc : graph u v ≠ -1 ∧ st.dist u + graph u v < st.dist v
    · rw [if_pos hc]
      obtain ⟨H1, hvS⟩ := visited_relaxStep hnn H hu hmax hv hc.1 hc.2
      have huv : u ≠ v := fun h => hvS (h ▸ hu)
      have hmax1 : ∀ x ∈ visitedSet st,
          Function.update st.dist v (st.dist u + graph u v) x
            ≤ Function.update st.dist v (st.dist u + graph u v) u := by
        intro x hx
        have hxv : x ≠ v := fun h => hvS (h ▸ hx)
        rw [Function.update_noteq hxv, Function.update_noteq huv]
        exact hmax x hx
      obtain ⟨h1, h2, h3, h4, h5⟩ := visited_relaxLoop hnn vs
        { st with dist := Function.update st.dist v (st.dist u + graph u v)
                  prev := Function.update st.prev v (some u) } hvs1 H1 hu hmax1
      refine ⟨h1, h2, ?_, ?_, ?_⟩
      · intro x hx
        have hxv : x ≠ v := fun h => hvS (h ▸ hx)
        rw [h3 x hx]
        exact Function.update_noteq hxv _ _
      · intro x
        refine le_trans (h4 x) ?_
        dsimp only
        by_cases hx : x = v
        · subst hx
          rw [Function.update_same]
          exact le_of_lt hc.2
        · rw [Function.update_noteq hx]
      · intro x hx hpx
        rcases List.mem_cons.mp hx with rfl | hx
        · have e1 := h3 u hu
          have e2 := h4 x
          dsimp only at e1 e2
          rw [Function.update_noteq huv] at e1
          rw [Function.update_same] at e2
          rw [e1]
          exact e2
        · exact h5 x hx hpx
    · rw [if_neg hc]
      obtain ⟨h1, h2, h3, h4, h5⟩ := visited_relaxLoop hnn vs st hvs1 H hu hmax
      refine ⟨h1, h2, h3, h4, ?_⟩
      intro x hx hpx
      rcases List.mem_cons.mp hx with rfl | hx
      · have hge : st.dist x ≤ st.dist u + graph u x := by
          by_contra hlt
          exact hc ⟨hpx, not_le.mp hlt⟩
        rw [h3 u hu]
        exact le_trans (h4 x) hge
      · exact h5 x hx hpx


theorem visitedSet_mark (st : State) (u : Nat) (hu : u < NODES) :
    visitedSet { st with visited := Function.update st.visited u true }
      = insert u (visitedSet st) := by
  ext x
  rw [Finset.mem_insert, mem_visitedSet, mem_visitedSet]
  dsimp only
  by_cases hx : x = u
  · subst hx
    simp [hu]
  · rw [Function.update_noteq hx]
    simp [hx]

/-- Marking the selected node as visited: the invariant holds with one more iteration, and
the selected node is farthest among the visited nodes. -/
theorem visited_mark {graph : Matrix} {src n u : Nat} {st : State}
    (H : Visited graph src n st) (hu : u < NODES) (hvu : st.visited u = false)
    (hfin : st.dist u < DBL_MAX)
    (hmin : ∀ j, j < NODES → st.visited j = false → st.dist u ≤ st.dist j) :
    Visited graph src (n + 1) { st with visited := Function.update st.visited u true } ∧
      (∀ x ∈ visitedSet { st with visited := Function.update st.visited u true },
        st.dist x ≤ st.dist u) := by
  have hset := visitedSet_mark st u hu
  have huS : u ∉ visitedSet st := by
    intro h
    have := (mem_visitedSet.mp h).2
    rw [hvu] at this
    exact absurd this (by decide)
  refine ⟨⟨H.dist_nonneg, H.dist_le, H.src_dist, H.src_prev, H.root, ?_, ?_, ?_, ?_, ?_⟩, ?_⟩
  · intro x y h
    obtain ⟨h1, h2, h3⟩ := H.par x y h
    refine ⟨?_, h2, h3⟩
    rw [hset]
    exact Finset.mem_insert_of_mem h1
  · intro x hx
    rw [hset, Finset.mem_insert] at hx
    rcases hx with rfl | hx
    · cases hp : st.prev x with
      | none => exact ⟨0, Nat.succ_pos _, Anc.root hp⟩
      | some y =>
        obtain ⟨k, hk, ha⟩ := H.anc y (H.par x y hp).1
        exact ⟨k + 1, by omega, Anc.step hp ha⟩
    · obtain ⟨k, hk, ha⟩ := H.anc x hx
      exact ⟨k, by omega, ha⟩
  · intro x hx y hy hvy
    dsimp only at hvy
    have hyu : y ≠ u := by
      intro h
      subst h
      rw [Function.update_same] at hvy
      exact absurd hvy (by decide)
    rw [Function.update_noteq hyu] at hvy
    rw [hset, Finset.mem_insert] at hx
    rcases hx with rfl | hx
    · exact hmin y hy hvy
    · exact H.order x hx y hy hvy
  · intro x hx
    rw [hset, Finset.mem_insert] at hx
    rcases hx with rfl | hx
    · exact hfin
    · exact H.vis_fin x hx
  · rw [hset, Finset.card_insert_of_not_mem huS, H.count]
  · intro x hx
    rw [hset, Finset.mem_insert] at hx
    rcases hx with rfl | hx
    · exact le_refl _
    · exact H.order x hx u hu hvu

/-- The outer loop of `dijkstra` on a matrix with non-negative entries: when it ends the
invariant holds, every present entry leaving a visited node is relaxed, and every
unvisited node has the distance `DBL_MAX`. -/
theorem visited_mainLoop {graph : Matrix} {src : Nat} (hnn : NonNeg graph) :
    ∀ (i n : Nat) (st : State), n + i = NODES → Visited graph src n st → Closed graph st →
      ∃ m, m ≤ NODES ∧ Visited graph src m (mainLoop graph i st) ∧
        Closed graph (mainLoop graph i st) ∧
        ∀ v, v < NODES → (mainLoop graph i st).visited v = false →
          DBL_MAX ≤ (mainLoop graph i st).dist v
  | 0, n, st, hn, H, hC => by
    have e : mainLoop graph 0 st = st := by simp [mainLoop]
    rw [e]
    refine ⟨n, by omega, H, hC, ?_⟩
    intro v hv hvis
    exfalso
    have hsub : visitedSet st ⊆ Finset.range NODES := by
      unfold visitedSet
      exact Finset.filter_subset _ _
    have hcard : (Finset.range NODES).card ≤ (visitedSet st).card := by
      rw [H.count, Finset.card_range]
      omega
    have heq := Finset.eq_of_subset_of_card_le hsub hcard
    have hmem : v ∈ visitedSet st := by
      rw [heq]
      exact Finset.mem_range.mpr hv
    have := (mem_visitedSet.mp hmem).2
    rw [hvis] at this
    exact absurd this (by decide)
  | i + 1, n, st, hn, H, hC => by
    unfold mainLoop
    cases hs : (selectLoop st.visited st.dist (List.range NODES) (DBL_MAX, none)).2 with
    | none =>
      simp only
      refine ⟨n, by omega, H, hC, ?_⟩
      exact select_none hs
    | some u =>
      simp only
      obtain ⟨hu, hvu, hfin, hmin⟩ := select_some hs
      obtain ⟨H1, hmax1⟩ := visited_mark H hu hvu hfin hmin
      have hset := visitedSet_mark st u hu
      have huS1 : u ∈ visitedSet { st with visited := Function.update st.visited u true } := by
        rw [hset]
        exact Finset.mem_insert_self _ _
      obtain ⟨h1, h2, h3, h4, h5⟩ := visited_relaxLoop hnn (List.range NODES)
        { st with visited := Function.update st.visited u true }
        (fun v hv => List.mem_range.mp hv) H1 huS1 hmax1
      apply visited_mainLoop hnn i (n + 1) _ (by omega) h1
      intro x hx y hy hpy
      have hvs : visitedSet (relaxLoop graph u (List.range NODES)
          { st with visited := Function.update st.visited u true })
          = visitedSet { st with visited := Function.update st.visited u true } := by
        unfold visitedSet
        rw [h2]
      rw [hvs] at hx
      rw [h3 x hx]
      have hx1 := hx
      rw [hset, Finset.mem_insert] at hx1
      rcases hx1 with rfl | hx1
      · have := h5 y (List.mem_range.mpr hy) hpy
        rw [h3 x hx] at this
        exact this
      · exact le_trans (h4 y) (hC x hx1 y hy hpy)

theorem visited_init (graph : Matrix) (src : Nat) :
    Visited graph src 0
      { visited := fun _ => false, dist := Function.update (fun _ => DBL_MAX) src 0,
        prev := noPrev } ∧
    Closed graph
      { visited := fun _ => false, dist := Function.update (fun _ => DBL_MAX) src 0,
        prev := noPrev } := by
  have hempty : visitedSet
      { visited := fun _ => false, dist := Function.update (fun _ => DBL_MAX) src 0,
        prev := noPrev } = ∅ := by
    unfold visitedSet
    simp
  refine ⟨⟨?_, ?_, ?_, rfl, ?_, ?_, ?_, ?_, ?_, ?_⟩, ?_⟩
  · intro v
    dsimp only
    by_cases hv : v = src
    · subst hv
      rw [Function.update_same]
    · rw [Function.update_noteq hv]
      exact le_of_lt dbl_max_pos
  · intro v
    dsimp only
    by_cases hv : v = src
    · subst hv
      rw [Function.update_same]
      exact le_of_lt dbl_max_pos
    · rw [Function.update_noteq hv]
  · dsimp only
    rw [Function.update_same]
  · intro v
    dsimp only
    by_cases hv : v = src
    · intro _
      exact Or.inl hv
    · rw [Function.update_noteq hv]
      intro h
      exact absurd h (lt_irrefl _)
  · intro v u h
    simp [noPrev] at h
  · intro x hx
    rw [hempty] at hx
    simp at hx
  · intro x hx
    rw [hempty] at hx
    simp at hx
  · intro x hx
    rw [hempty] at hx
    simp at hx
  · rw [hempty]
    rfl
  · intro x hx
    rw [hempty] at hx
    simp at hx

theorem walkCost_nonneg {graph : Matrix} (hnn : NonNeg graph) :
    ∀ (p : List (Nat × ℚ)) (x y : Nat), IsWalk (out graph) x p y → 0 ≤ walkCost p
  | [], _, _, _ => by simp [walkCost]
  | e :: es, x, y, h => by
    obtain ⟨he, hes⟩ := h
    obtain ⟨v, c⟩ := e
    obtain ⟨hx, hv, hp, hc⟩ := mem_out.mp he
    have h1 := walkCost_nonneg hnn es v y hes
    have h2 := hnn x v hx hv hp
    unfold walkCost at h1 ⊢
    simp only [List.map_cons, List.sum_cons]
    rw [hc]
    linarith

/-- At the end of `dijkstra`, a walk of total score below `DBL_MAX` that starts at a visited
node ends at a visited node, whose distance is at most the distance of the start plus the
score of the walk. -/
theorem closed_walk {graph : Matrix} {src m : Nat} {st : State} (hnn : NonNeg graph)
    (H : Visited graph src m st) (hC : Closed graph st)
    (hfront : ∀ v, v < NODES → st.visited v = false → DBL_MAX ≤ st.dist v) :
    ∀ (p : List (Nat × ℚ)) (x y : Nat), IsWalk (out graph) x p y → x ∈ visitedSet st →
      st.dist x + walkCost p < DBL_MAX →
      y ∈ visitedSet st ∧ st.dist y ≤ st.dist x + walkCost p
  | [], x, y, h, hx, _ => by
    simp only [IsWalk] at h
    subst h
    simp [walkCost, hx]
  | e :: es, x, y, h, hx, hlt => by
    obtain ⟨he, hes⟩ := h
    obtain ⟨v, c⟩ := e
    obtain ⟨hxN, hv, hp, hc⟩ := mem_out.mp he
    subst hc
    have hnes := walkCost_nonneg hnn es v y hes
    have hcost : walkCost ((v, graph x v) :: es) = graph x v + walkCost es := by
      simp [walkCost]
    rw [hcost] at hlt ⊢
    have hdv := hC x hx v hv hp
    have hvS : v ∈ visitedSet st := by
      rw [mem_visitedSet]
      refine ⟨hv, ?_⟩
      cases hb : st.visited v with
      | true => rfl
      | false =>
        have := hfront v hv hb
        linarith
    obtain ⟨h1, h2⟩ := closed_walk hnn H hC hfront es v y hes hvS (by linarith)
    exact ⟨h1, by linarith⟩

theorem pathScore_snoc (graph : Matrix) :
    ∀ (l : List Nat) (u v : Nat), l.getLast? = some u →
      pathScore graph (l ++ [v]) = pathScore graph l + graph u v
  | [], u, v, h => by simp at h
  | [a], u, v, h => by
    simp only [List.getLast?_singleton, Option.some.injEq] at h
    subst h
    simp [pathScore]
  | a :: b :: rest, u, v, h => by
    have h1 : (b :: rest).getLast? = some u := by
      rw [List.getLast?_cons_cons] at h
      exact h
    have ih := pathScore_snoc graph (b :: rest) u v h1
    simp only [List.cons_append] at ih ⊢
    simp only [pathScore]
    rw [ih]
    ring

/-- The path written by `get_path` for a node whose predecessor chain ends after `k` steps:
it has `k + 1` nodes, starts at `src`, ends at the node, follows present entries, and its
total score is the distance of the node. -/
theorem get_path_of_anc {graph : Matrix} {src m : Nat} {st : State}
    (H : Visited graph src m st) {x k : Nat} (h : Anc st.prev x k) :
    st.dist x < DBL_MAX → ∀ (fuel : Nat) (path : List Nat), k + 1 ≤ fuel →
      ∃ l, get_path st.prev fuel x path = some (path ++ l) ∧ l.length = k + 1 ∧
        l.head? = some src ∧ l.getLast? = some x ∧
        List.Chain' (fun a b => a < NODES ∧ b < NODES ∧ graph a b ≠ -1) l ∧
        pathScore graph l = st.dist x := by
  induction h with
  | @root v hp =>
    intro hlt fuel path hf
    obtain ⟨f, rfl⟩ : ∃ f, fuel = f + 1 := ⟨fuel - 1, by omega⟩
    have hv : v = src := by
      rcases H.root v hlt with h | h
      · exact h
      · exact absurd hp h
    subst hv
    refine ⟨[v], ?_, rfl, rfl, rfl, List.chain'_singleton _, ?_⟩
    · unfold get_path
      rw [hp]
    · rw [H.src_dist]
      rfl
  | @step v u k hp _ ih =>
    intro hlt fuel path hf
    obtain ⟨f, rfl⟩ : ∃ f, fuel = f + 1 := ⟨fuel - 1, by omega⟩
    obtain ⟨huS, hout, hd⟩ := H.par v u hp
    obtain ⟨huN, hvN, hpres, _⟩ := mem_out.mp hout
    obtain ⟨l, hl, hlen, hhead, hlast, hchain, hscore⟩ :=
      ih (H.vis_fin u huS) f path (by omega)
    have hne : l ≠ [] := by
      intro h
      rw [h] at hlen
      simp at hlen
    refine ⟨l ++ [v], ?_, ?_, ?_, ?_, ?_, ?_⟩
    · unfold get_path
      rw [hp]
      simp only
      rw [hl]
      simp
    · simp [hlen]
    · rw [List.head?_append_of_ne_nil _ hne]
      exact hhead
    · simp
    · refine List.Chain'.append hchain (List.chain'_singleton _) ?_
      intro a ha b hb
      rw [hlast] at ha
      simp only [Option.mem_def, Option.some.injEq, List.head?_cons] at ha hb
      subst ha
      subst hb
      exact ⟨huN, hvN, hpres⟩
    · rw [pathScore_snoc graph l u v hlast, hscore, hd]


/-- C23 (counterexample): in `farMatrix` the only present entry is `graph[0][1] = DBL_MAX`,
which is non-negative, and node 1 is reachable from node 0; the test
`dist[0] + graph[0][1] < dist[1]` fails against the initial `dist[1] = DBL_MAX`, node 1
keeps the predecessor `-1`, and `get_path` yields `[1]`, which does not start at node 0. -/
theorem solve_misses_far_node :
    NonNeg farMatrix ∧ IsWalk (out farMatrix) 0 [(1, DBL_MAX)] 1 ∧
      solve 8 farMatrix 0 1 = some [1] := by
  refine ⟨?_, ⟨by decide!, rfl⟩, by decide!⟩
  intro u v _ _ h
  unfold farMatrix emptyMatrix at h ⊢
  by_cases hu : u = 0
  · subst hu
    by_cases hv : v = 1
    · subst hv
      simp only [Function.update_same]
      exact le_of_lt dbl_max_pos
    · simp [Function.update_noteq hv] at h
  · simp [Function.update_noteq hu] at h

/-- In exact arithmetic: for every matrix whose present entries are non-negative and every
pair `(src, dest)` such that `dest` is reached from `src` by a walk of total score below
`DBL_MAX`, the solver returns a path of at most `NODES` nodes that starts at `src`, ends at
`dest`, follows present entries of the matrix, and whose total score is at most the total
score of every walk from `src` to `dest`. -/
theorem solve_minimum_exact (graph : Matrix) (src dest : Nat) (hnn : NonNeg graph)
    (hsrc : src < NODES) (p0 : List (Nat × ℚ)) (hp0 : IsWalk (out graph) src p0 dest)
    (hc0 : walkCost p0 < DBL_MAX) (fuel : Nat) (hfuel : NODES ≤ fuel) :
    ∃ path, solve fuel graph src dest = some path ∧ path.length ≤ NODES ∧
      path.head? = some src ∧ path.getLast? = some dest ∧
      List.Chain' (fun u v => u < NODES ∧ v < NODES ∧ graph u v ≠ -1) path ∧
      ∀ p, IsWalk (out graph) src p dest → pathScore graph path ≤ walkCost p := by
  obtain ⟨H0, hC0⟩ := visited_init graph src
  obtain ⟨m, hm, H, hC, hfront⟩ := visited_mainLoop hnn NODES 0 _ (by omega) H0 hC0
  generalize hst : mainLoop graph NODES
    { visited := fun _ => false, dist := Function.update (fun _ => DBL_MAX) src 0,
      prev := noPrev } = st at H hC hfront
  have hprev : dijkstra graph src dest noPrev = st.prev := by
    unfold dijkstra
    rw [hst]
  have hsS : src ∈ visitedSet st := by
    rw [mem_visitedSet]
    refine ⟨hsrc, ?_⟩
    cases hb : st.visited src with
    | true => rfl
    | false =>
      have := hfront src hsrc hb
      rw [H.src_dist] at this
      exact absurd this (not_le.mpr dbl_max_pos)
  have hopt : ∀ p, IsWalk (out graph) src p dest → walkCost p < DBL_MAX →
      dest ∈ visitedSet st ∧ st.dist dest ≤ walkCost p := by
    intro p hp hc
    have := closed_walk hnn H hC hfront p src dest hp hsS (by rw [H.src_dist]; linarith)
    rw [H.src_dist, zero_add] at this
    exact this
  obtain ⟨hdS, hd0⟩ := hopt p0 hp0 hc0
  obtain ⟨k, hk, ha⟩ := H.anc dest hdS
  obtain ⟨l, hl, hlen, hhead, hlast, hchain, hscore⟩ :=
    get_path_of_anc H ha (H.vis_fin dest hdS) fuel [] (by omega)
  refine ⟨l, ?_, by omega, hhead, hlast, hchain, ?_⟩
  · unfold solve
    rw [hprev, hl]
    rfl
  · intro p hp
    rw [hscore]
    by_cases hc : walkCost p < DBL_MAX
    · exact (hopt p hp hc).2
    · exact le_trans (le_of_lt (H.vis_fin dest hdS)) (not_lt.mp hc)

end GraphLogic

/-! ### The value of `dijkstra` (main.cpp) along the predecessor chain -/

theorem anc_unique {parent : Nat → Option Nat} {x k : Nat} (h : Anc parent x k) :
    ∀ j, Anc parent x j → j = k := by
  induction h with
  | @root v hp =>
    intro j hj
    cases hj with
    | root _ => rfl
    | step hq _ => rw [hp] at hq; simp at hq
  | @step v u k hp _ ih =>
    intro j hj
    cases hj with
    | root hq => rw [hp] at hq; simp at hq
    | @step _ u' k' hq hrest =>
      rw [hp] at hq
      simp only [Option.some.injEq] at hq
      subst hq
      rw [ih k' hrest]

/-- The predecessor chain of a settled state, read from a node `x` whose chain ends after
`k` steps: the loop of `build_path_from_parent` writes the reversed node sequence of a walk
from `s` to `x` that has `k` edges, visits no node twice, and whose cost is `dist[x]`. -/
theorem buildLoop_walk {out : Nat → List (Nat × ℚ)} {s : Nat} {S : Finset Nat}
    {st st1 : DState} (H : Settled out s S st) (T : Touched out s st1)
    (hpar : st1.parent = st.parent) {x k : Nat} (h : Anc st.parent x k) :
    st1.dist x < INF → ∀ (fuel : Nat) (acc : List Nat), k + 1 ≤ fuel →
      ∃ p, MainCpp.buildLoop st.parent fuel x acc = some (acc ++ (walkNodes s p).reverse) ∧
        IsWalk out s p x ∧ walkCost p = st.dist x ∧
        (∀ y ∈ walkNodes s p, ∃ j, j ≤ k ∧ Anc st.parent y j) ∧ (walkNodes s p).Nodup := by
  induction h with
  | @root v hp =>
    intro hlt fuel acc hf
    obtain ⟨f, rfl⟩ : ∃ f, fuel = f + 1 := ⟨fuel - 1, by omega⟩
    have hv : v = s := by
      rcases T.root v hlt with h | h
      · exact h
      · rw [hpar] at h
        exact absurd hp h
    subst hv
    refine ⟨[], ?_, rfl, ?_, ?_, ?_⟩
    · simp [MainCpp.buildLoop, hp, walkNodes]
    · rw [H.src_dist]
      rfl
    · intro y hy
      simp only [walkNodes, List.map_nil, List.mem_singleton] at hy
      subst hy
      exact ⟨0, le_refl _, Anc.root hp⟩
    · simp [walkNodes]
  | @step v u k hp hanc ih =>
    intro hlt fuel acc hf
    obtain ⟨f, rfl⟩ : ∃ f, fuel = f + 1 := ⟨fuel - 1, by omega⟩
    obtain ⟨_, c, hc, hd⟩ := H.par v u hp
    have hu : st1.dist u < INF := (T.par v u (by rw [hpar]; exact hp)).1
    obtain ⟨p, hb, hw, hcost, hdepth, hnd⟩ := ih hu f (acc ++ [v]) (by omega)
    have hnodes : walkNodes s (p ++ [(v, c)]) = walkNodes s p ++ [v] := by
      simp [walkNodes]
    refine ⟨p ++ [(v, c)], ?_, isWalk_append p s u (v, c) hw hc, ?_, ?_, ?_⟩
    · simp only [MainCpp.buildLoop, hp]
      rw [hb, hnodes]
      simp
    · rw [walkCost_append, hcost, hd]
    · intro y hy
      rw [hnodes, List.mem_append, List.mem_singleton] at hy
      rcases hy with hy | rfl
      · obtain ⟨j, hj, ha⟩ := hdepth y hy
        exact ⟨j, by omega, ha⟩
      · exact ⟨k + 1, le_refl _, Anc.step hp hanc⟩
    · rw [hnodes]
      refine List.Nodup.append hnd (List.nodup_singleton v) ?_
      intro y hy1 hy2
      rw [List.mem_singleton] at hy2
      subst hy2
      obtain ⟨j, hj, ha⟩ := hdepth y hy1
      have := anc_unique (Anc.step hp hanc) j ha
      omega

namespace MainCpp

theorem isWalk_isPath_nodes {G : Graph} {F : List Nat} :
    ∀ (p : List (Nat × ℚ)) (u v : Nat), IsWalk (usable G F) u p v →
      ∃ es, IsPath G F u es v ∧ pathWeight es = walkCost p ∧
        es.map (fun e => e.dst) = p.map Prod.fst
  | [], _, _, h => ⟨[], h, rfl, rfl⟩
  | x :: p, u, v, h => by
    obtain ⟨h1, h2⟩ := h
    unfold usable at h1
    simp only [List.mem_map, List.mem_filter, decide_eq_true_eq] at h1
    obtain ⟨e, ⟨he1, he2⟩, rfl⟩ := h1
    obtain ⟨es, hes1, hes2, hes3⟩ := isWalk_isPath_nodes p e.dst v h2
    refine ⟨e :: es, ⟨he1, he2, hes1⟩, ?_, by simp [hes3]⟩
    simp only [pathWeight, walkCost, List.map_cons, List.sum_cons] at hes2 ⊢
    rw [hes2]

end MainCpp

/-! ### The distance stored with the first route, and the routes for growing `K` -/

namespace MainCpp

/-- C25 (failing input): on the graph built by `main`, from Hebbal (8) to Yelahanka (9),
`G[8]` holds two entries leading to 9, of weights 12000 and 11700 in this order;
`dijkstra(8, 9, {}, parent)` returns 11700, and the first result of
`yen_lite_k_shortest(8, 9, 1)` is the route `[8, 9]` stored with `dist = 12000`. -/
theorem stored_dist_differs :
    NonNeg demoGraph ∧
      (demoGraph.getD 8 []).filter (fun e => e.dst == 9)
        = [{ dst := 9, w := 12000, id := 18 }, { dst := 9, w := 11700, id := 57 }] ∧
      (dijkstra 80 demoGraph 8 9 []).map Prod.fst = some 11700 ∧
      yen_lite_k_shortest 80 demoGraph 8 9 1 = some [{ nodes := [8, 9], dist := 12000 }] := by
  refine ⟨by unfold NonNeg; decide!, by decide!, by decide!, by decide!⟩

theorem yenLoop_succ (fuel : Nat) (G : Graph) (s t : Nat) :
    ∀ (k : Nat) (results : List PathInfo) (cands : List (ℚ × List Nat)) (r2 : List PathInfo),
      yenLoop fuel G s t (k + 1) results cands = some r2 →
      ∃ r1 more, yenLoop fuel G s t k results cands = some r1 ∧ r2 = r1 ++ more ∧
        more.length ≤ 1
  | 0, results, cands, r2, h => by
    refine ⟨results, ?_⟩
    have e0 : yenLoop fuel G s t 0 results cands = some results := by simp [yenLoop]
    rw [e0]
    unfold yenLoop at h
    cases hl : results.getLast? with
    | none =>
      rw [hl] at h
      simp only [Option.some.injEq] at h
      exact ⟨[], rfl, by rw [← h]; simp, by simp⟩
    | some last =>
      rw [hl] at h
      simp only at h
      cases hp : probeLoop fuel G s t results (consecPairs last.nodes) cands with
      | none => rw [hp] at h; simp at h
      | some c1 =>
        rw [hp] at h
        simp only at h
        cases hm : candMin c1 with
        | none =>
          rw [hm] at h
          simp only [Option.some.injEq] at h
          exact ⟨[], rfl, by rw [← h]; simp, by simp⟩
        | some it =>
          rw [hm] at h
          simp only [yenLoop, Option.some.injEq] at h
          exact ⟨[compute_path_info G it.2], rfl, h.symm, by simp⟩
  | k + 1, results, cands, r2, h => by
    unfold yenLoop at h ⊢
    cases hl : results.getLast? with
    | none =>
      rw [hl] at h
      simp only [Option.some.injEq] at h
      exact ⟨results, [], rfl, by rw [← h]; simp, by simp⟩
    | some last =>
      rw [hl] at h
      simp only at h ⊢
      cases hp : probeLoop fuel G s t results (consecPairs last.nodes) cands with
      | none => rw [hp] at h; simp at h
      | some c1 =>
        rw [hp] at h
        simp only at h ⊢
        cases hm : candMin c1 with
        | none =>
          rw [hm] at h
          simp only [Option.some.injEq] at h
          exact ⟨results, [], rfl, by rw [← h]; simp, by simp⟩
        | some it =>
          rw [hm] at h
          simp only at h ⊢
          exact yenLoop_succ fuel G s t k _ _ r2 h

/-- C26: for every graph, every pair `(s, t)` and every `K`, when
`yen_lite_k_shortest(s, t, K + 1)` returns a list, `yen_lite_k_shortest(s, t, K)`
returns a list too, and the longer list is the shorter one followed by at most one more
route; on a graph with non-negative weights both calls return once the fuel exceeds the
number of adjacency entries plus one. -/
theorem yen_lite_extends (fuel : Nat) (G : Graph) (s t : Nat) (K : Int) :
    (∀ r2, yen_lite_k_shortest fuel G s t (K + 1) = some r2 →
      ∃ r1 more, yen_lite_k_shortest fuel G s t K = some r1 ∧ r2 = r1 ++ more ∧
        more.length ≤ 1) ∧
    (NonNeg G → (G.map List.length).sum + 1 < fuel →
      ∃ r1 r2 more, yen_lite_k_shortest fuel G s t K = some r1 ∧
        yen_lite_k_shortest fuel G s t (K + 1) = some r2 ∧ r2 = r1 ++ more ∧
        more.length ≤ 1) := by
  have hfirst : ∀ r2, yen_lite_k_shortest fuel G s t (K + 1) = some r2 →
      ∃ r1 more, yen_lite_k_shortest fuel G s t K = some r1 ∧ r2 = r1 ++ more ∧
        more.length ≤ 1 := by
    intro r2 h
    unfold yen_lite_k_shortest at h ⊢
    cases hd : dijkstra fuel G s t [] with
    | none => rw [hd] at h; simp at h
    | some dp =>
      obtain ⟨bestd, parent⟩ := dp
      rw [hd] at h
      simp only at h ⊢
      by_cases hge : bestd ≥ NOPATH
      · rw [if_pos hge] at h ⊢
        simp only [Option.some.injEq] at h
        exact ⟨[], [], rfl, by rw [← h]; simp, by simp⟩
      · rw [if_neg hge] at h ⊢
        cases hb : build_path_from_parent fuel t parent with
        | none => rw [hb] at h; simp at h
        | some bestpath =>
          rw [hb] at h
          simp only at h ⊢
          by_cases hK : 1 ≤ K
          · have e : (K + 1 - 1).toNat = (K - 1).toNat + 1 := by omega
            rw [e] at h
            exact yenLoop_succ fuel G s t _ _ _ r2 h
          · have e : (K + 1 - 1).toNat = (K - 1).toNat := by omega
            rw [e] at h
            exact ⟨r2, [], h, by simp, by simp⟩
  refine ⟨hfirst, ?_⟩
  intro hnn hfuel
  obtain ⟨r2, hr2, _, _⟩ := yen_lite_total G s t (K + 1) hnn fuel hfuel
  obtain ⟨r1, more, hr1, happ, hlen⟩ := hfirst r2 hr2
  exact ⟨r1, r2, more, hr1, hr2, happ, hlen⟩

/-- C26 (witness): the diamond from A to D with K = 1 and 20 units of fuel. -/
theorem yen_lite_extends_witness :
    ∃ r1 r2 more, yen_lite_k_shortest 20 diamondGraph 0 3 1 = some r1 ∧
      yen_lite_k_shortest 20 diamondGraph 0 3 (1 + 1) = some r2 ∧ r2 = r1 ++ more ∧
      more.length ≤ 1 :=
  (yen_lite_extends 20 diamondGraph 0 3 1).2 (by unfold NonNeg; decide!) (by decide)

end MainCpp

/-! ### Both directions of an edge record -/

namespace SafePath

end SafePath

/-! ### Reachability and whole-number distances in the relaxation loop -/

theorem wholeState_relaxOut {out : Nat → List (Nat × ℚ)} (hw : WholeOut out) {d : ℚ} {u : Nat}
    (hd : ∃ z : Int, d = z) :
    ∀ (l : List (Nat × ℚ)) (st : DState), (∀ e ∈ l, e ∈ out u) → WholeState st →
      WholeState (relaxOut d u l st)
  | [], st, _, W => W
  | e :: es, st, hl, W => by
    unfold relaxOut
    apply wholeState_relaxOut hw hd es _ (fun x hx => hl x (List.mem_cons_of_mem _ hx))
    unfold relaxStep
    split
    · obtain ⟨zd, hzd⟩ := hd
      obtain ⟨zc, hzc⟩ := hw u e (hl e (List.mem_cons_self _ _))
      have hsum : ∃ z : Int, d + e.2 = z := ⟨zd + zc, by rw [hzd, hzc]; push_cast; rfl⟩
      constructor
      · intro w
        by_cases hwv : w = e.1
        · subst hwv
          simpa using hsum
        · simp only [Function.update_noteq hwv]
          exact W.1 w
      · intro x hx
        rcases List.mem_cons.mp hx with rfl | hx
        · exact hsum
        · exact W.2 x hx
    · exact W

theorem wholeState_searchLoop {out : Nat → List (Nat × ℚ)} (hw : WholeOut out) (t : Nat) :
    ∀ (fuel : Nat) (st st1 : DState), WholeState st →
      searchLoop (fun d u st => relaxOut d u (out u) st) t fuel st = some st1 →
      WholeState st1
  | 0, st, st1, _, h => by simp [searchLoop] at h
  | fuel + 1, st, st1, W, h => by
    unfold searchLoop at h
    cases htop : pqTop st.pq with
    | none =>
      rw [htop] at h
      simp at h
      subst h
      exact W
    | some top =>
      rw [htop] at h
      simp only at h
      have hmem := pqTop_mem _ _ htop
      have W1 : WholeState { st with pq := st.pq.erase top } :=
        ⟨W.1, fun x hx => W.2 x (List.mem_of_mem_erase hx)⟩
      split at h
      · exact wholeState_searchLoop hw t fuel _ st1 W1 h
      · split at h
        · simp at h
          subst h
          exact W1
        · exact wholeState_searchLoop hw t fuel _ st1
            (wholeState_relaxOut hw (W.2 top hmem) (out top.2) _ (fun e he => he) W1) h

theorem wholeState_init (s : Nat) : WholeState (initState s) := by
  constructor
  · intro v
    by_cases h : v = s
    · subst h
      exact ⟨0, by simp [initState]⟩
    · exact ⟨1000000000000000000, by simp [initState, Function.update_noteq h, INF]⟩
  · intro x hx
    simp only [initState, List.mem_singleton] at hx
    subst hx
    exact ⟨0, by simp⟩

/-- Two whole numbers that differ by less than one tolerance `1e-9` in one direction are
ordered: the tolerance of the relaxation test has no effect on whole numbers. -/
theorem whole_le_of_le_add_eps {a b : ℚ} (ha : ∃ z : Int, a = z) (hb : ∃ z : Int, b = z)
    (h : a ≤ b + EPS) : a ≤ b := by
  obtain ⟨za, rfl⟩ := ha
  obtain ⟨zb, rfl⟩ := hb
  have hlt : (za : ℚ) < zb + 1 := by
    have : EPS < 1 := by unfold EPS; norm_num
    linarith
  have : za < zb + 1 := by exact_mod_cast hlt
  have : za ≤ zb := by omega
  exact_mod_cast this

theorem walkCost_whole {out : Nat → List (Nat × ℚ)} (hw : WholeOut out) :
    ∀ (p : List (Nat × ℚ)) (u v : Nat), IsWalk out u p v → ∃ z : Int, walkCost p = z
  | [], _, _, _ => ⟨0, by simp [walkCost]⟩
  | e :: es, u, v, h => by
    obtain ⟨he, hes⟩ := h
    obtain ⟨z1, h1⟩ := hw u e he
    obtain ⟨z2, h2⟩ := walkCost_whole hw es e.1 v hes
    refine ⟨z1 + z2, ?_⟩
    unfold walkCost at h2 ⊢
    simp only [List.map_cons, List.sum_cons]
    rw [h1, h2]
    push_cast
    rfl

/-- In a settled state with whole-number distances and costs, the distance of the target is
at most the cost of every walk from the source to it. -/
theorem settled_exact {out : Nat → List (Nat × ℚ)} {s t : Nat} {S : Finset Nat}
    {st : DState} (hnn : NonNegOut out) (hw : WholeOut out) (H : Settled out s S st)
    (W : ∀ v, ∃ z : Int, st.dist v = z)
    (R : Relaxed (fun u e => u ∈ S ∧ e ∈ out u) st)
    (hfin : ∀ u, st.dist u < st.dist t → u ∈ S) :
    ∀ (p : List (Nat × ℚ)) (v : Nat), IsWalk out s p v →
      st.dist t ≤ walkCost p ∨ st.dist v ≤ walkCost p := by
  intro p
  induction p using List.reverseRecOn with
  | nil =>
    intro v h
    simp only [IsWalk] at h
    subst h
    right
    simp [walkCost, H.src_dist]
  | append_singleton p e ih =>
    intro v h
    obtain ⟨m, hm1, hm2, hm3⟩ := isWalk_snoc p s v e h
    have hc : 0 ≤ e.2 := hnn m e hm2
    rw [walkCost_append]
    rcases ih m hm1 with h1 | h1
    · left; linarith
    · by_cases hlt : st.dist m < st.dist t
      · right
        have hr := R m e ⟨hfin m hlt, hm2⟩
        rw [hm3] at hr
        obtain ⟨zm, hzm⟩ := W m
        obtain ⟨zc, hzc⟩ := hw m e hm2
        have hle := whole_le_of_le_add_eps (W v)
          ⟨zm + zc, by rw [hzm, hzc]; push_cast; rfl⟩ hr
        linarith
      · left
        have := not_lt.mp hlt
        linarith

/-- Summary of the relaxation loop for non-negative whole-number costs: with more fuel than
usable edges plus one the loop exits, and the distance of the target is at most the cost of
every walk that reaches it. -/
theorem search_exact {out : Nat → List (Nat × ℚ)} (s t n : Nat) (hnn : NonNegOut out)
    (hw : WholeOut out) (hn : ∀ u, n ≤ u → out u = []) (fuel : Nat)
    (hfuel : 1 + ∑ u ∈ Finset.range n, (out u).length < fuel) :
    ∃ st S st0, searchLoop (fun d u st => relaxOut d u (out u) st) t fuel (initState s) = some st ∧
      Settled out s S st0 ∧ st0.dist = st.dist ∧ st0.parent = st.parent ∧
      (∀ p, IsWalk out s p t → st.dist t ≤ walkCost p) ∧
      S.card ≤ 1 + ∑ u ∈ Finset.range n, (out u).length := by
  have R0 : Relaxed (fun u e => u ∈ (∅ : Finset Nat) ∧ e ∈ out u) (initState s) := by
    intro u e ⟨hu, _⟩
    simp at hu
  have hwl : workLeft out n ∅ (initState s) < fuel := by
    rw [workLeft_init]; exact hfuel
  obtain ⟨st, S, st0, h1, h2, h3, h4, h5, h6, h7⟩ :=
    settled_searchLoop t n hnn hn fuel ∅ (initState s) (settled_init out s) R0 hwl
  have W := wholeState_searchLoop hw t fuel _ st (wholeState_init s) h1
  refine ⟨st, S, st0, h1, h2, h4, h5, ?_, ?_⟩
  · intro p hp
    have hfin : ∀ u, st0.dist u < st0.dist t → u ∈ S := by
      rw [h4]; exact h6
    have := settled_exact hnn hw h2 (by rw [h4]; exact W.1) h3 hfin p t hp
    rw [h4] at this
    rcases this with h | h <;> exact h
  · rw [workLeft_init] at h7
    simpa using h7

/-! ### `dijkstra` (main.cpp) on whole-number weights -/

namespace MainCpp

theorem wholeWeights_nonNeg {G : Graph} (hw : WholeWeights G) : NonNeg G :=
  fun l hl e he => (hw l hl e he).2

theorem wholeOut_usable {G : Graph} (hw : WholeWeights G) (F : List Nat) :
    WholeOut (usable G F) := by
  intro u e he
  unfold usable at he
  simp only [List.mem_map, List.mem_filter, decide_eq_true_eq] at he
  obtain ⟨x, ⟨hx, _⟩, rfl⟩ := he
  obtain ⟨l, hl, hxl⟩ := mem_getD_mem hx
  exact ⟨x.w.num, ((Rat.den_eq_one_iff _).mp (hw l hl x hxl).1).symm⟩

/-- The relaxation loop of `dijkstra` on a graph with non-negative whole-number weights: it
exits in a settled state, and the distance of `t` is at most the cost of every walk over
usable edges from `s` to `t`. -/
theorem dijkstra_exact (G : Graph) (F : List Nat) (s t : Nat) (hw : WholeWeights G)
    (fuel : Nat) (hfuel : (G.map List.length).sum + 1 < fuel) :
    ∃ (st : DState) (S : Finset Nat) (st0 : DState),
      dijkstra fuel G s t F = some (st.dist t, st.parent) ∧
      Settled (usable G F) s S st0 ∧ st0.dist = st.dist ∧ st0.parent = st.parent ∧
      (∀ p, IsWalk (usable G F) s p t → st.dist t ≤ walkCost p) ∧
      S.card ≤ (G.map List.length).sum + 1 := by
  have hsum := sum_usable_le G F
  obtain ⟨st, S, st0, h1, h2, h3, h4, h5, h6⟩ :=
    search_exact s t G.length (nonNegOut_usable (wholeWeights_nonNeg hw) F)
      (wholeOut_usable hw F) (usable_nil G F) fuel (by omega)
  refine ⟨st, S, st0, ?_, h2, h3, h4, h5, by omega⟩
  unfold dijkstra
  rw [relaxEdges_fun_eq, h1]

/-- C1 (amended): on a graph whose weights are non-negative whole numbers with a total below
`2^53` (binary64 then forms every sum of weights exactly, and the tolerance `1e-9` of the
relaxation test has no effect) `dijkstra(s, t, F, parent)` returns; the value is at most the
weight of every path from `s` to `t` that avoids `F`, and it is either the weight of such a
path, hence the minimum, or the sentinel `1e18`; it is the sentinel when there is no such
path. -/
theorem dijkstra_minimum_whole (G : Graph) (F : List Nat) (s t : Nat) (hw : WholeWeights G)
    (_hsum : totalWeight G < 2 ^ 53) (fuel : Nat)
    (hfuel : (G.map List.length).sum + 1 < fuel) :
    ∃ d parent, dijkstra fuel G s t F = some (d, parent) ∧
      (∀ es, IsPath G F s es t → d ≤ pathWeight es) ∧
      (d = INF ∨ ∃ es, IsPath G F s es t ∧ pathWeight es = d) ∧
      ((∀ es, ¬ IsPath G F s es t) → d = INF) := by
  obtain ⟨st, S, st0, h1, h2, h3, h4, h5, _⟩ := dijkstra_exact G F s t hw fuel hfuel
  have hach : st.dist t = INF ∨ ∃ es, IsPath G F s es t ∧ pathWeight es = st.dist t := by
    rcases lt_or_eq_of_le (h2.dist_le t) with hlt | heq
    · right
      obtain ⟨p, hp1, hp2⟩ := h2.reach t hlt
      obtain ⟨es, hes1, hes2, _⟩ := isWalk_isPath p s t hp1
      exact ⟨es, hes1, by rw [hes2, hp2, h3]⟩
    · left
      rw [← h3]; exact heq
  refine ⟨st.dist t, st.parent, h1, ?_, hach, ?_⟩
  · intro es hes
    have := h5 _ (isPath_isWalk es s t hes)
    rw [pathWeight_eq_walkCost] at this
    exact this
  · intro hno
    rcases hach with h | ⟨es, hes, _⟩
    · exact h
    · exact absurd hes (hno es)

/-- C1 (witness): the graph built by `main`, from Hebbal (8) to Yelahanka (9), no forbidden
edge, 80 units of fuel. -/
theorem dijkstra_minimum_whole_witness :
    ∃ d parent, dijkstra 80 demoGraph 8 9 [] = some (d, parent) ∧
      (∀ es, IsPath demoGraph [] 8 es 9 → d ≤ pathWeight es) ∧
      (d = INF ∨ ∃ es, IsPath demoGraph [] 8 es 9 ∧ pathWeight es = d) ∧
      ((∀ es, ¬ IsPath demoGraph [] 8 es 9) → d = INF) :=
  dijkstra_minimum_whole demoGraph [] 8 9 (by unfold WholeWeights; decide!) (by decide!) 80
    (by decide!)

theorem yen_lite_total_whole (G : Graph) (s t : Nat) (K : Int) (hw : WholeWeights G)
    (fuel : Nat) (hfuel : (G.map List.length).sum + 1 < fuel) :
    ∃ results, yen_lite_k_shortest fuel G s t K = some results ∧
      results.length ≤ 1 + (K - 1).toNat ∧
      ((∃ es, IsPath G [] s es t ∧ pathWeight es < NOPATH) → 1 ≤ results.length) := by
  have hnn := wholeWeights_nonNeg hw
  obtain ⟨st, S, st0, h1, h2, _, h4, h5, h6⟩ := dijkstra_exact G [] s t hw fuel hfuel
  obtain ⟨k, hk0, hk⟩ := settled_anc_all h2 t
  rw [h4] at hk
  obtain ⟨p, hp⟩ := buildLoop_of_anc hk fuel [] (by omega)
  have hb : build_path_from_parent fuel t st.parent = some p.reverse := by
    unfold build_path_from_parent
    rw [hp]
    rfl
  unfold yen_lite_k_shortest
  rw [h1]
  simp only
  by_cases hge : st.dist t ≥ NOPATH
  · rw [if_pos hge]
    refine ⟨[], rfl, by simp, ?_⟩
    rintro ⟨es, hes, hlt⟩
    have := h5 _ (isPath_isWalk es s t hes)
    rw [pathWeight_eq_walkCost] at this
    exact absurd (lt_of_le_of_lt this hlt) (not_lt.mpr hge)
  · rw [if_neg hge, hb]
    simp only
    obtain ⟨r, hr, hlen1, hlen2⟩ := yenLoop_total G s t hnn fuel hfuel (K - 1).toNat
      [compute_path_info G p.reverse] []
    simp only [List.length_singleton] at hlen1 hlen2
    exact ⟨r, hr, hlen2, fun _ => hlen1⟩

/-- C11 (amended): on a graph whose weights are non-negative whole numbers with a total
below `2^53`, for `K >= 1` and a pair `(s, t)` joined by some path of weight below `1e17`,
`yen_lite_k_shortest(s, t, K)` returns a list of at least one and at most `K` routes. -/
theorem yen_lite_length (G : Graph) (s t : Nat) (K : Int) (hw : WholeWeights G)
    (_hsum : totalWeight G < 2 ^ 53) (hK : 1 ≤ K)
    (es : List Edge) (hes : IsPath G [] s es t) (hlt : pathWeight es < NOPATH) (fuel : Nat)
    (hfuel : (G.map List.length).sum + 1 < fuel) :
    ∃ results, yen_lite_k_shortest fuel G s t K = some results ∧
      1 ≤ results.length ∧ (results.length : Int) ≤ K := by
  obtain ⟨results, hr, hlen, hone⟩ := yen_lite_total_whole G s t K hw fuel hfuel
  refine ⟨results, hr, hone ⟨es, hes, hlt⟩, ?_⟩
  have : ((K - 1).toNat : Int) = K - 1 := Int.toNat_of_nonneg (by omega)
  omega

/-- C11 (witness): the diamond from A to D with K = 2 and 20 units of fuel. -/
theorem yen_lite_length_witness :
    ∃ results, yen_lite_k_shortest 20 diamondGraph 0 3 2 = some results ∧
      1 ≤ results.length ∧ (results.length : Int) ≤ 2 :=
  yen_lite_length diamondGraph 0 3 2 (by unfold WholeWeights; decide!) (by decide!)
    (by decide)
    [{ dst := 1, w := 1000, id := 0 }, { dst := 3, w := 1000, id := 1 }]
    (by simp [IsPath, diamondGraph]) (by decide!) 20 (by decide)

/-- C24 (counterexample): on the chain 0 -> 1 -> 2 with the `double` weights `0.1` and `0.7`
the only path from 0 to 2 weighs `0.1 + 0.7`, and `dijkstra(0, 2, {}, parent)` in binary64
returns `7205759403792793 * 2^-53`, the rounded sum, which is below the weight of the path:
the weights along the path do not sum to the value returned, and the value is below the
minimum path weight. -/
theorem dijkstra64_below_path_weight :
    NonNeg tenthGraph ∧ (∀ l ∈ tenthGraph, ∀ e ∈ l, fl64 e.w = e.w) ∧
      (dijkstra64 10 tenthGraph 0 2 []).map Prod.fst
        = some (7205759403792793 / 9007199254740992) ∧
      (7205759403792793 / 9007199254740992 : ℚ) < NOPATH ∧
      (∀ es, IsPath tenthGraph [] 0 es 2 → pathWeight es = fl64 (1 / 10) + fl64 (7 / 10)) ∧
      (7205759403792793 / 9007199254740992 : ℚ) < fl64 (1 / 10) + fl64 (7 / 10) := by
  refine ⟨by unfold NonNeg; decide!, by decide!, by decide!, by decide!, ?_, by decide!⟩
  intro es hes
  cases es with
  | nil => simp [IsPath] at hes
  | cons e1 es1 =>
    obtain ⟨h1, _, hrest⟩ := hes
    simp only [tenthGraph, List.getD_cons_zero, List.mem_singleton] at h1
    subst h1
    cases es1 with
    | nil => simp [IsPath] at hrest
    | cons e2 es2 =>
      obtain ⟨h2, _, hrest2⟩ := hrest
      simp only [tenthGraph, List.getD_cons_succ, List.getD_cons_zero,
        List.mem_singleton] at h2
      subst h2
      cases es2 with
      | nil => simp [pathWeight]
      | cons e3 es3 =>
        obtain ⟨h3, _⟩ := hrest2
        simp [tenthGraph] at h3

/-- C24 (amended): on a graph with non-negative weights `dijkstra(s, t, F, parent)` returns,
and when the value `d` it returns is below `1e17`, `build_path_from_parent(t, parent)`
returns the node sequence of a path from `s` to `t` that repeats no node and takes only
entries whose id is not in `F`; when moreover the weights are whole numbers with a total
below `2^53` (no sum of weights is then rounded), the weights of these entries sum to exactly
`d`, and `d` is at most the weight of every path from `s` to `t` that avoids `F`. -/
theorem dijkstra_value_achieved (G : Graph) (F : List Nat) (s t : Nat) (hnn : NonNeg G)
    (fuel : Nat) (hfuel : (G.map List.length).sum + 1 < fuel) :
    ∃ d parent, dijkstra fuel G s t F = some (d, parent) ∧
      (d < NOPATH → ∃ path es, build_path_from_parent fuel t parent = some path ∧
        path.Nodup ∧ path = s :: es.map (fun e => e.dst) ∧ IsPath G F s es t ∧
        (WholeWeights G → totalWeight G < 2 ^ 53 →
          pathWeight es = d ∧ ∀ es1, IsPath G F s es1 t → d ≤ pathWeight es1)) := by
  obtain ⟨st, S, st0, h1, h2, h3, h4, _, h6⟩ := dijkstra_settled G F s t hnn fuel hfuel
  refine ⟨st.dist t, st.parent, h1, ?_⟩
  intro hd
  obtain ⟨st1, T, hdist, hpar⟩ := dijkstra_touched h1
  obtain ⟨k, hk0, hk⟩ := settled_anc_all h2 t
  have hlt : st1.dist t < INF := by
    rw [hdist]
    exact lt_trans hd nopath_lt_inf
  obtain ⟨p, hb, hw, hcost, _, hnd⟩ :=
    buildLoop_walk h2 T (by rw [hpar, h4]) hk hlt fuel [] (by omega)
  obtain ⟨es, hes1, hes2, hes3⟩ := isWalk_isPath_nodes p s t hw
  refine ⟨walkNodes s p, es, ?_, hnd, ?_, hes1, ?_⟩
  · unfold build_path_from_parent
    rw [← h4, hb]
    simp
  · unfold walkNodes
    rw [hes3]
  · intro hwhole _
    refine ⟨by rw [hes2, hcost, h3], ?_⟩
    obtain ⟨st2, S2, st3, e1, _, _, _, e5, _⟩ := dijkstra_exact G F s t hwhole fuel hfuel
    rw [h1] at e1
    simp only [Option.some.injEq, Prod.mk.injEq] at e1
    intro es1 hes1
    have := e5 _ (isPath_isWalk es1 s t hes1)
    rw [pathWeight_eq_walkCost, ← e1.1] at this
    exact this

/-- C24 (witness): the graph built by `main`, from Hebbal (8) to Yelahanka (9), no forbidden
edge, 80 units of fuel. -/
theorem dijkstra_value_achieved_witness :
    ∃ d parent, dijkstra 80 demoGraph 8 9 [] = some (d, parent) ∧
      (d < NOPATH → ∃ path es, build_path_from_parent 80 9 parent = some path ∧
        path.Nodup ∧ path = 8 :: es.map (fun e => e.dst) ∧ IsPath demoGraph [] 8 es 9 ∧
        (WholeWeights demoGraph → totalWeight demoGraph < 2 ^ 53 →
          pathWeight es = d ∧ ∀ es1, IsPath demoGraph [] 8 es1 9 → d ≤ pathWeight es1)) :=
  dijkstra_value_achieved demoGraph [] 8 9 (by unfold NonNeg; decide!) 80 (by decide!)

end MainCpp

/-! ### Unreachable targets -/

namespace GraphLogic

theorem get_path_mono (prev : Nat → Option Nat) :
    ∀ (fuel x : Nat) (acc r : List Nat), get_path prev fuel x acc = some r →
      ∀ k, get_path prev (fuel + k) x acc = some r
  | 0, _, _, _, h, _ => by simp [get_path] at h
  | fuel + 1, x, acc, r, h, k => by
    have hk : fuel + 1 + k = (fuel + k) + 1 := by omega
    rw [hk]
    unfold get_path at h ⊢
    cases hp : prev x with
    | none => rw [hp] at h; exact h
    | some y =>
      rw [hp] at h
      simp only at h ⊢
      cases hg : get_path prev fuel y acc with
      | none => rw [hg] at h; simp at h
      | some q =>
        rw [hg] at h
        rw [get_path_mono prev fuel y acc q hg k]
        exact h

set_option maxRecDepth 100000 in
/-- On the matrix that `main` holds, the solver in binary64 and the solver in exact
arithmetic write the same path, for every pair of nodes. -/
theorem demo_solve_agree : ∀ src, src < NODES → ∀ dest, dest < NODES →
    solve64 7 demoMatrix64 src dest = solve 7 demoMatrix64 src dest := by
  decide!

theorem demoMatrix64_nonNeg : NonNeg demoMatrix64 :=
  fun u v hu hv =>
    (by decide! : ∀ u, u < NODES → ∀ v, v < NODES →
      demoMatrix64 u v ≠ -1 → 0 ≤ demoMatrix64 u v) u hu v hv

theorem walk_dest_lt {graph : Matrix} :
    ∀ (p : List (Nat × ℚ)) (u v : Nat), IsWalk (out graph) u p v → u < NODES → v < NODES
  | [], u, v, h, hu => by
    simp only [IsWalk] at h
    subst h
    exact hu
  | e :: es, u, v, h, _ => by
    obtain ⟨he, hes⟩ := h
    obtain ⟨w, c⟩ := e
    exact walk_dest_lt es w v hes (mem_out.mp he).2.1

/-- C23 (amended): (1) for every matrix whose present entries are non-negative whole numbers
with a total below `2^53` (no sum that the code forms is then rounded) and every pair
`(src, dest)` such that `dest` is reached from `src` by a walk of total score below
`DBL_MAX`, the solver of `main` (`dijkstra` on an array `prev` filled with `-1`, then
`get_path`) returns a path of at most `NODES` nodes that starts at `src`, ends at `dest`,
follows present entries of the matrix, and whose total score is at most the total score of
every walk from `src` to `dest`; (2) the same holds of the solver in binary64 on the matrix
that `main` itself holds, whose scores are not whole numbers. -/
theorem solve_minimum (graph : Matrix) (src dest : Nat) (hw : WholeEntries graph)
    (_hsum : totalScore graph < 2 ^ 53) (hsrc : src < NODES) (p0 : List (Nat × ℚ))
    (hp0 : IsWalk (out graph) src p0 dest) (hc0 : walkCost p0 < DBL_MAX)
    (src1 dest1 : Nat) (hsrc1 : src1 < NODES) (p1 : List (Nat × ℚ))
    (hp1 : IsWalk (out demoMatrix64) src1 p1 dest1) (hc1 : walkCost p1 < DBL_MAX)
    (fuel : Nat) (hfuel : NODES ≤ fuel) :
    (∃ path, solve fuel graph src dest = some path ∧ path.length ≤ NODES ∧
      path.head? = some src ∧ path.getLast? = some dest ∧
      List.Chain' (fun u v => u < NODES ∧ v < NODES ∧ graph u v ≠ -1) path ∧
      ∀ p, IsWalk (out graph) src p dest → pathScore graph path ≤ walkCost p) ∧
    (∃ path, solve64 fuel demoMatrix64 src1 dest1 = some path ∧ path.length ≤ NODES ∧
      path.head? = some src1 ∧ path.getLast? = some dest1 ∧
      List.Chain' (fun u v => u < NODES ∧ v < NODES ∧ demoMatrix64 u v ≠ -1) path ∧
      ∀ p, IsWalk (out demoMatrix64) src1 p dest1 →
        pathScore demoMatrix64 path ≤ walkCost p) := by
  constructor
  · exact solve_minimum_exact graph src dest
      (fun u v hu hv hp => (hw u hu v hv hp).2) hsrc p0 hp0 hc0 fuel hfuel
  · obtain ⟨path, h1, h2, h3, h4, h5, h6⟩ :=
      solve_minimum_exact demoMatrix64 src1 dest1 demoMatrix64_nonNeg hsrc1 p1 hp1 hc1 7
        (le_refl _)
    refine ⟨path, ?_, h2, h3, h4, h5, h6⟩
    have hd1 : dest1 < NODES := walk_dest_lt p1 src1 dest1 hp1 hsrc1
    have hagree := demo_solve_agree src1 hsrc1 dest1 hd1
    rw [h1] at hagree
    obtain ⟨k, rfl⟩ : ∃ k, fuel = 7 + k := ⟨fuel - 7, by unfold NODES at hfuel; omega⟩
    unfold solve64 at hagree ⊢
    exact get_path_mono _ 7 dest1 [] path hagree k

/-- C23 (witness): the matrix of `main` with every score multiplied by ten, and the matrix of
`main` itself, from node 0 (Hospital) to node 6 (F) along 0 -> 1 -> 4 -> 6. -/
theorem solve_minimum_witness :
    (∃ path, solve 7 tenfoldMatrix 0 6 = some path ∧ path.length ≤ NODES ∧
      path.head? = some 0 ∧ path.getLast? = some 6 ∧
      List.Chain' (fun u v => u < NODES ∧ v < NODES ∧ tenfoldMatrix u v ≠ -1) path ∧
      ∀ p, IsWalk (out tenfoldMatrix) 0 p 6 → pathScore tenfoldMatrix path ≤ walkCost p) ∧
    (∃ path, solve64 7 demoMatrix64 0 6 = some path ∧ path.length ≤ NODES ∧
      path.head? = some 0 ∧ path.getLast? = some 6 ∧
      List.Chain' (fun u v => u < NODES ∧ v < NODES ∧ demoMatrix64 u v ≠ -1) path ∧
      ∀ p, IsWalk (out demoMatrix64) 0 p 6 → pathScore demoMatrix64 path ≤ walkCost p) :=
  solve_minimum tenfoldMatrix 0 6 (by unfold WholeEntries; decide!) (by decide!) (by decide)
    [(1, 31), (4, 30), (6, 34)] ⟨by decide!, by decide!, by decide!, rfl⟩ (by decide!)
    0 6 (by decide)
    [(1, demoMatrix64 0 1), (4, demoMatrix64 1 4), (6, demoMatrix64 4 6)]
    ⟨by decide!, by decide!, by decide!, rfl⟩ (by decide!) 7 (by decide)

end GraphLogic

/-! ### Distinct routes of `yen_lite_k_shortest` on whole-number weights -/

namespace MainCpp

theorem uniqueIds_inj {G : Graph} (hid : UniqueIds G) {u v : Nat} {e f : Edge}
    (he : e ∈ G.getD u []) (hf : f ∈ G.getD v []) (h : e.id = f.id) : u = v ∧ e = f := by
  have hmem : ∀ (w : Nat) (x : Edge), x ∈ G.getD w [] →
      (w, x) ∈ (List.range G.length).flatMap (fun u => (G.getD u []).map (fun e => (u, e))) := by
    intro w x hx
    rw [List.mem_flatMap]
    have hw : w < G.length := by
      by_contra hge
      rw [List.getD_eq_default _ _ (not_lt.mp hge)] at hx
      simp at hx
    exact ⟨w, List.mem_range.mpr hw, List.mem_map.mpr ⟨x, hx, rfl⟩⟩
  have := List.inj_on_of_nodup_map hid (hmem u e he) (hmem v f hf) h
  simp only [Prod.mk.injEq] at this
  exact this

theorem mem_forbidAll {G : Graph} {a b i : Nat} :
    i ∈ forbidAll G a b ↔ ∃ e ∈ G.getD a [], e.dst = b ∧ e.id = i := by
  unfold forbidAll
  simp only [List.mem_map, List.mem_filter, beq_iff_eq]
  constructor
  · rintro ⟨e, ⟨he, hd⟩, hi⟩
    exact ⟨e, he, hd, hi⟩
  · rintro ⟨e, he, hd, hi⟩
    exact ⟨e, ⟨he, hd⟩, hi⟩

/-- With distinct ids, a path that follows the node sequence of a path avoiding all entries
from `a` to `b` avoids them too. -/
theorem isPath_same_nodes {G : Graph} (hid : UniqueIds G) {a b : Nat} {F : List Nat} :
    ∀ (es1 es2 : List Edge) (u t : Nat), IsPath G (forbidAll G a b) u es1 t →
      IsPath G F u es2 t → es1.map (fun e => e.dst) = es2.map (fun e => e.dst) →
      IsPath G (forbidAll G a b) u es2 t
  | [], [], _, _, h1, _, _ => h1
  | [], _ :: _, _, _, _, _, hn => by simp at hn
  | _ :: _, [], _, _, _, _, hn => by simp at hn
  | e1 :: es1, e2 :: es2, u, t, h1, h2, hn => by
    obtain ⟨h1m, h1f, h1r⟩ := h1
    obtain ⟨h2m, _, h2r⟩ := h2
    simp only [List.map_cons, List.cons.injEq] at hn
    obtain ⟨hd, hrest⟩ := hn
    refine ⟨h2m, ?_, ?_⟩
    · intro hin
      obtain ⟨f, hf, hfd, hfi⟩ := mem_forbidAll.mp hin
      obtain ⟨hau, hfe⟩ := uniqueIds_inj hid hf h2m hfi
      subst hau
      subst hfe
      apply h1f
      exact mem_forbidAll.mpr ⟨e1, h1m, by rw [hd, hfd], rfl⟩
    · rw [← hd]
      exact isPath_same_nodes hid es1 es2 e1.dst t h1r (by rw [hd]; exact h2r) hrest

/-- With distinct ids, two probe outcomes with the same node sequence have the same
distance. -/
theorem probeResult_dist {G : Graph} (hid : UniqueIds G) {s t : Nat} {c1 c2 : ℚ × List Nat}
    (h1 : ProbeResult G s t c1) (h2 : ProbeResult G s t c2) (hp : c1.2 = c2.2) :
    c1.1 = c2.1 := by
  obtain ⟨a1, b1, es1, p1, n1, w1, m1⟩ := h1
  obtain ⟨a2, b2, es2, p2, n2, w2, m2⟩ := h2
  have hn : es1.map (fun e => e.dst) = es2.map (fun e => e.dst) := by
    rw [n1, n2] at hp
    simpa using hp
  have k1 := m1 es2 (isPath_same_nodes hid es1 es2 s t p1 p2 hn)
  have k2 := m2 es1 (isPath_same_nodes hid es2 es1 s t p2 p1 hn.symm)
  rw [w2] at k1
  rw [w1] at k2
  exact le_antisymm k1 k2

/-- The value of `dijkstra` along the predecessor chain: when the value `d` is below `1e17`,
`build_path_from_parent` returns the node sequence of a path that repeats no node, avoids
`F`, and weighs `d`. -/
theorem dijkstra_chain (G : Graph) (F : List Nat) (s t : Nat) (hnn : NonNeg G)
    (fuel : Nat) (hfuel : (G.map List.length).sum + 1 < fuel) {d : ℚ}
    {parent : Nat → Option Nat} (h : dijkstra fuel G s t F = some (d, parent))
    (hd : d < NOPATH) :
    ∃ path es, build_path_from_parent fuel t parent = some path ∧ path.Nodup ∧
      path = s :: es.map (fun e => e.dst) ∧ IsPath G F s es t ∧ pathWeight es = d := by
  obtain ⟨st, S, st0, h1, h2, h3, h4, _, h6⟩ := dijkstra_settled G F s t hnn fuel hfuel
  rw [h] at h1
  simp only [Option.some.injEq, Prod.mk.injEq] at h1
  obtain ⟨hd1, hp1⟩ := h1
  subst hd1
  subst hp1
  obtain ⟨st1, T, hdist, hpar⟩ := dijkstra_touched h
  obtain ⟨k, hk0, hk⟩ := settled_anc_all h2 t
  have hlt : st1.dist t < INF := by
    rw [hdist]
    exact lt_trans hd nopath_lt_inf
  obtain ⟨p, hb, hw, hcost, _, hnd⟩ :=
    buildLoop_walk h2 T (by rw [hpar, h4]) hk hlt fuel [] (by omega)
  obtain ⟨es, hes1, hes2, hes3⟩ := isWalk_isPath_nodes p s t hw
  refine ⟨walkNodes s p, es, ?_, hnd, ?_, hes1, ?_⟩
  · unfold build_path_from_parent
    rw [← h4, hb]
    simp
  · unfold walkNodes
    rw [hes3]
  · rw [hes2, hcost, h3]

theorem probeLoop_distinct (fuel : Nat) (G : Graph) (s t : Nat) (hw : WholeWeights G)
    (hfuel : (G.map List.length).sum + 1 < fuel) (results : List PathInfo) :
    ∀ (pairs : List (Nat × Nat)) (cands cands1 : List (ℚ × List Nat)),
      (∀ c ∈ cands, ProbeResult G s t c) → (∀ c ∈ cands, ∀ r ∈ results, r.nodes ≠ c.2) →
      cands.Nodup → probeLoop fuel G s t results pairs cands = some cands1 →
      (∀ c ∈ cands1, ProbeResult G s t c) ∧ (∀ c ∈ cands1, ∀ r ∈ results, r.nodes ≠ c.2) ∧
        cands1.Nodup
  | [], cands, cands1, h1, h2, h3, h => by
    simp only [probeLoop, Option.some.injEq] at h
    subst h
    exact ⟨h1, h2, h3⟩
  | ab :: rest, cands, cands1, h1, h2, h3, h => by
    unfold probeLoop at h
    cases hd : dijkstra fuel G s t (forbidAll G ab.1 ab.2) with
    | none => rw [hd] at h; simp at h
    | some r =>
      obtain ⟨d2, parent2⟩ := r
      rw [hd] at h
      simp only at h
      split at h
      · rename_i hlt
        cases hb : build_path_from_parent fuel t parent2 with
        | none => rw [hb] at h; simp at h
        | some p2 =>
          rw [hb] at h
          simp only at h
          split at h
          · exact probeLoop_distinct fuel G s t hw hfuel results rest _ cands1 h1 h2 h3 h
          · rename_i hdup
            have hres : ProbeResult G s t (d2, p2) := by
              obtain ⟨path, es, e1, _, e3, e4, e5⟩ :=
                dijkstra_chain G _ s t (wholeWeights_nonNeg hw) fuel hfuel hd hlt
              rw [hb] at e1
              simp only [Option.some.injEq] at e1
              subst e1
              obtain ⟨st2, S2, st3, x1, _, _, _, x5, _⟩ :=
                dijkstra_exact G (forbidAll G ab.1 ab.2) s t hw fuel hfuel
              rw [hd] at x1
              simp only [Option.some.injEq, Prod.mk.injEq] at x1
              refine ⟨ab.1, ab.2, es, e4, e3, e5, ?_⟩
              intro es1 hes1
              have := x5 _ (isPath_isWalk es1 s t hes1)
              rw [pathWeight_eq_walkCost, ← x1.1] at this
              exact this
            have hnew : ∀ r ∈ results, r.nodes ≠ p2 := by
              intro r hr heq
              apply hdup
              rw [List.any_eq_true]
              exact ⟨r, hr, by simpa using heq⟩
            refine probeLoop_distinct fuel G s t hw hfuel results rest _ cands1 ?_ ?_ ?_ h
            · intro c hc
              unfold candInsert at hc
              split at hc
              · exact h1 c hc
              · rcases List.mem_cons.mp hc with rfl | hc
                · exact hres
                · exact h1 c hc
            · intro c hc
              unfold candInsert at hc
              split at hc
              · exact h2 c hc
              · rcases List.mem_cons.mp hc with rfl | hc
                · exact hnew
                · exact h2 c hc
            · unfold candInsert
              split
              · exact h3
              · rename_i hnotin
                exact List.nodup_cons.mpr ⟨hnotin, h3⟩
      · exact probeLoop_distinct fuel G s t hw hfuel results rest _ cands1 h1 h2 h3 h

theorem yenLoop_distinct (fuel : Nat) (G : Graph) (s t : Nat) (hw : WholeWeights G)
    (hid : UniqueIds G) (hfuel : (G.map List.length).sum + 1 < fuel) :
    ∀ (k : Nat) (results r : List PathInfo) (cands : List (ℚ × List Nat)),
      (results.map (fun x => x.nodes)).Nodup →
      (∀ c ∈ cands, ProbeResult G s t c) → (∀ c ∈ cands, ∀ x ∈ results, x.nodes ≠ c.2) →
      cands.Nodup → yenLoop fuel G s t k results cands = some r →
      (r.map (fun x => x.nodes)).Nodup
  | 0, results, r, cands, h0, _, _, _, h => by
    simp only [yenLoop, Option.some.injEq] at h
    subst h
    exact h0
  | k + 1, results, r, cands, h0, h1, h2, h3, h => by
    unfold yenLoop at h
    cases hl : results.getLast? with
    | none =>
      rw [hl] at h
      simp only [Option.some.injEq] at h
      subst h
      exact h0
    | some last =>
      rw [hl] at h
      simp only at h
      cases hp : probeLoop fuel G s t results (consecPairs last.nodes) cands with
      | none => rw [hp] at h; simp at h
      | some c1 =>
        rw [hp] at h
        simp only at h
        obtain ⟨g1, g2, g3⟩ :=
          probeLoop_distinct fuel G s t hw hfuel results _ cands c1 h1 h2 h3 hp
        cases hm : candMin c1 with
        | none =>
          rw [hm] at h
          simp only [Option.some.injEq] at h
          subst h
          exact h0
        | some it =>
          rw [hm] at h
          simp only at h
          have hit : it ∈ c1 := SafePath.candMin_mem c1 it hm
          refine yenLoop_distinct fuel G s t hw hid hfuel k _ r _ ?_ ?_ ?_ ?_ h
          · rw [List.map_append, List.map_singleton]
            refine List.Nodup.append h0 (List.nodup_singleton _) ?_
            intro x hx1 hx2
            simp only [compute_path_info, List.mem_singleton] at hx2
            subst hx2
            obtain ⟨y, hy, hyx⟩ := List.mem_map.mp hx1
            exact g2 it hit y hy hyx
          · intro c hc
            exact g1 c (List.mem_of_mem_erase hc)
          · intro c hc x hx
            have hcm : c ∈ c1 := List.mem_of_mem_erase hc
            rcases List.mem_append.mp hx with hx | hx
            · exact g2 c hcm x hx
            · simp only [List.mem_singleton] at hx
              subst hx
              simp only [compute_path_info]
              intro heq
              have hne : c ≠ it := ((List.Nodup.mem_erase_iff g3).mp hc).1
              apply hne
              have hdist := probeResult_dist hid (g1 it hit) (g1 c hcm) heq
              exact Prod.ext hdist.symm heq.symm
          · exact List.Nodup.erase _ g3

/-- C6 (amended): on a graph whose weights are non-negative whole numbers with a total below
`2^53` and whose adjacency entries carry pairwise distinct ids (such are the graphs that
`add_edge` builds from whole-metre distances), `yen_lite_k_shortest(s, t, K)` returns a list
whose entries have pairwise distinct node sequences, for every `(s, t)` and every `K`. -/
theorem yen_lite_distinct (G : Graph) (s t : Nat) (K : Int) (hw : WholeWeights G)
    (_hsum : totalWeight G < 2 ^ 53) (hid : UniqueIds G) (fuel : Nat)
    (hfuel : (G.map List.length).sum + 1 < fuel) :
    ∃ results, yen_lite_k_shortest fuel G s t K = some results ∧
      (results.map (fun r => r.nodes)).Nodup := by
  obtain ⟨results, hr, _, _⟩ :=
    yen_lite_total G s t K (wholeWeights_nonNeg hw) fuel hfuel
  refine ⟨results, hr, ?_⟩
  unfold yen_lite_k_shortest at hr
  cases hd : dijkstra fuel G s t [] with
  | none => rw [hd] at hr; simp at hr
  | some dp =>
    obtain ⟨bestd, parent⟩ := dp
    rw [hd] at hr
    simp only at hr
    by_cases hge : bestd ≥ NOPATH
    · rw [if_pos hge] at hr
      simp only [Option.some.injEq] at hr
      subst hr
      simp
    · rw [if_neg hge] at hr
      cases hb : build_path_from_parent fuel t parent with
      | none => rw [hb] at hr; simp at hr
      | some bestpath =>
        rw [hb] at hr
        simp only at hr
        exact yenLoop_distinct fuel G s t hw hid hfuel _ _ results [] (by simp)
          (by intro c hc; simp at hc) (by intro c hc; simp at hc) List.nodup_nil hr

/-- C6 (witness): the graph built by `main`, from Jayanagar (6) to Rajajinagar (13) with
K = 3 and 80 units of fuel. -/
theorem yen_lite_distinct_witness :
    ∃ results, yen_lite_k_shortest 80 demoGraph 6 13 3 = some results ∧
      (results.map (fun r => r.nodes)).Nodup :=
  yen_lite_distinct demoGraph 6 13 3 (by unfold WholeWeights; decide!) (by decide!)
    (by unfold UniqueIds; decide!) 80 (by decide!)

end MainCpp

/-! ### The cost evaluator in rounded arithmetic -/

namespace SafePath

/-- With no rounding, `edge_cost_ofR` is the exact evaluator `edge_cost_of`. -/
theorem edge_cost_ofR_id (upd : Overlay) (e : Edge) :
    edge_cost_ofR id upd e = edge_cost_of upd e := by
  unfold edge_cost_ofR edge_cost_of costR
  simp

theorem near_exact (u : ℚ) (x : ℚ) : Near u 0 x x |x| := by
  simp [Near]

theorem near_nonneg {u : ℚ} {k : Nat} {xt x m : ℚ} (h : Near u k xt x m) : 0 ≤ m :=
  le_trans (abs_nonneg x) h.2

theorem near_mono {u : ℚ} (hu : 0 ≤ u) {k j : Nat} (hkj : k ≤ j) {xt x m : ℚ}
    (h : Near u k xt x m) : Near u j xt x m := by
  refine ⟨le_trans h.1 ?_, h.2⟩
  have hm := near_nonneg h
  have h1 : (1 + u) ^ k ≤ (1 + u) ^ j := pow_le_pow_right₀ (by linarith) hkj
  exact mul_le_mul_of_nonneg_right (by linarith) hm

theorem near_add {u : ℚ} {k : Nat} {xt x m yt y n : ℚ} (hx : Near u k xt x m)
    (hy : Near u k yt y n) : Near u k (xt + yt) (x + y) (m + n) := by
  refine ⟨?_, le_trans (abs_add x y) (add_le_add hx.2 hy.2)⟩
  have e : xt + yt - (x + y) = (xt - x) + (yt - y) := by ring
  rw [e, mul_add]
  exact le_trans (abs_add _ _) (add_le_add hx.1 hy.1)

theorem near_sub {u : ℚ} {k : Nat} {xt x m yt y n : ℚ} (hx : Near u k xt x m)
    (hy : Near u k yt y n) : Near u k (xt - yt) (x - y) (m + n) := by
  refine ⟨?_, le_trans (abs_sub x y) (add_le_add hx.2 hy.2)⟩
  have e : xt - yt - (x - y) = (xt - x) - (yt - y) := by ring
  rw [e, mul_add]
  exact le_trans (abs_sub _ _) (add_le_add hx.1 hy.1)

theorem near_mul {u : ℚ} {k : Nat} {xt x m : ℚ} (c : ℚ) (hc : 0 ≤ c)
    (hx : Near u k xt x m) : Near u k (c * xt) (c * x) (c * m) := by
  refine ⟨?_, ?_⟩
  · have e : c * xt - c * x = c * (xt - x) := by ring
    rw [e, abs_mul, abs_of_nonneg hc]
    calc c * |xt - x| ≤ c * (((1 + u) ^ k - 1) * m) := mul_le_mul_of_nonneg_left hx.1 hc
      _ = ((1 + u) ^ k - 1) * (c * m) := by ring
  · rw [abs_mul, abs_of_nonneg hc]
    exact mul_le_mul_of_nonneg_left hx.2 hc

theorem near_div {u : ℚ} {k : Nat} {xt x m : ℚ} (c : ℚ) (hc : 0 < c)
    (hx : Near u k xt x m) : Near u k (xt / c) (x / c) (m / c) := by
  have h := near_mul (1 / c) (by positivity) hx
  have e1 : 1 / c * xt = xt / c := by ring
  have e2 : 1 / c * x = x / c := by ring
  have e3 : 1 / c * m = m / c := by ring
  rwa [e1, e2, e3] at h

theorem near_round {u : ℚ} (hu : 0 ≤ u) {k : Nat} {xt x m : ℚ} (hx : Near u k xt x m)
    (y : ℚ) (hr : |y - xt| ≤ u * |xt|) : Near u (k + 1) y x m := by
  refine ⟨?_, hx.2⟩
  have hm := near_nonneg hx
  have h1 : |xt| ≤ (1 + u) ^ k * m := by
    have e : xt = x + (xt - x) := by ring
    calc |xt| = |x + (xt - x)| := by rw [← e]
      _ ≤ |x| + |xt - x| := abs_add _ _
      _ ≤ m + ((1 + u) ^ k - 1) * m := add_le_add hx.2 hx.1
      _ = (1 + u) ^ k * m := by ring
  have e : y - x = (y - xt) + (xt - x) := by ring
  calc |y - x| = |(y - xt) + (xt - x)| := by rw [e]
    _ ≤ |y - xt| + |xt - x| := abs_add _ _
    _ ≤ u * |xt| + ((1 + u) ^ k - 1) * m := add_le_add hr hx.1
    _ ≤ u * ((1 + u) ^ k * m) + ((1 + u) ^ k - 1) * m := by
        have := mul_le_mul_of_nonneg_left h1 hu
        linarith
    _ = ((1 + u) ^ (k + 1) - 1) * m := by ring

/-- The error analysis of `costR`: if each of its sixteen operations is rounded with relative
error at most `u`, the result is within `(1 + u) ^ 7 - 1` of the exact value, relative to the
sum of the magnitudes of the terms. -/
theorem costR_near (fl : ℚ → ℚ) (u : ℚ) (hu : 0 ≤ u) (d t rq si tm rain adj : ℚ)
    (hops : ∀ x ∈ costOps fl d t rq si tm rain adj, |fl x - x| ≤ u * |x|) :
    Near u 7 (costR fl d t rq si tm rain adj)
      (d + 300 * (tm - 1) + 250 * rain + 200 * ((10 - rq - adj) / 10)
        + 180 * ((10 - si) / 10) + 1 * t)
      (|d| + 300 * (|tm| + 1) + 250 * |rain| + 200 * ((10 + |rq| + |adj|) / 10)
        + 180 * ((10 + |si|) / 10) + 1 * |t|) := by
  have one : Near u 0 (1 : ℚ) 1 1 := by simp [Near]
  have ten : Near u 0 (10 : ℚ) 10 10 := by simp [Near]
  have A1 := near_round hu (near_sub (near_exact u tm) one) _
    (hops (tm - 1) (by simp [costOps]))
  have A2 := near_round hu (near_mul 300 (by norm_num) A1) _
    (hops (W_TRAFFIC * fl (tm - 1)) (by simp [costOps]))
  have S1 := near_round hu (near_add (near_mono hu (by decide : 0 ≤ 2) (near_exact u d)) A2) _
    (hops (d + fl (W_TRAFFIC * fl (tm - 1))) (by simp [costOps]))
  have B1 := near_round hu (near_mul 250 (by norm_num) (near_exact u rain)) _
    (hops (W_WEATHER * rain) (by simp [costOps]))
  have S2 := near_round hu (near_add S1 (near_mono hu (by decide : 1 ≤ 3) B1)) _
    (hops (fl (d + fl (W_TRAFFIC * fl (tm - 1))) + fl (W_WEATHER * rain)) (by simp [costOps]))
  have C1 := near_round hu (near_sub ten (near_exact u rq)) _
    (hops (10 - rq) (by simp [costOps]))
  have C2 := near_round hu (near_sub C1 (near_mono hu (by decide : 0 ≤ 1) (near_exact u adj))) _
    (hops (fl (10 - rq) - adj) (by simp [costOps]))
  have C3 := near_round hu (near_div 10 (by norm_num) C2) _
    (hops (fl (fl (10 - rq) - adj) / 10) (by simp [costOps]))
  have C4 := near_round hu (near_mul 200 (by norm_num) C3) _
    (hops (W_ROAD_QUAL * fl (fl (fl (10 - rq) - adj) / 10)) (by simp [costOps]))
  have S3 := near_round hu (near_add S2 C4) _
    (hops (fl (fl (d + fl (W_TRAFFIC * fl (tm - 1))) + fl (W_WEATHER * rain))
      + fl (W_ROAD_QUAL * fl (fl (fl (10 - rq) - adj) / 10))) (by simp [costOps]))
  have D1 := near_round hu (near_sub ten (near_exact u si)) _
    (hops (10 - si) (by simp [costOps]))
  have D2 := near_round hu (near_div 10 (by norm_num) D1) _
    (hops (fl (10 - si) / 10) (by simp [costOps]))
  have D3 := near_round hu (near_mul 180 (by norm_num) D2) _
    (hops (W_SAFETY * fl (fl (10 - si) / 10)) (by simp [costOps]))
  have S4 := near_round hu (near_add S3 (near_mono hu (by decide : 3 ≤ 5) D3)) _
    (hops (fl (fl (fl (d + fl (W_TRAFFIC * fl (tm - 1))) + fl (W_WEATHER * rain))
      + fl (W_ROAD_QUAL * fl (fl (fl (10 - rq) - adj) / 10)))
      + fl (W_SAFETY * fl (fl (10 - si) / 10))) (by simp [costOps]))
  have E1 := near_round hu (near_mul 1 (by norm_num) (near_exact u t)) _
    (hops (W_TIME * t) (by simp [costOps]))
  have S5 := near_round hu (near_add S4 (near_mono hu (by decide : 1 ≤ 6) E1)) _
    (hops (fl (fl (fl (fl (d + fl (W_TRAFFIC * fl (tm - 1))) + fl (W_WEATHER * rain))
      + fl (W_ROAD_QUAL * fl (fl (fl (10 - rq) - adj) / 10)))
      + fl (W_SAFETY * fl (fl (10 - si) / 10))) + fl (W_TIME * t)) (by simp [costOps]))
  simpa [costR, W_TRAFFIC, W_WEATHER, W_ROAD_QUAL, W_SAFETY, W_TIME] using S5

theorem edge_cost_ofR_blocked (fl : ℚ → ℚ) (upd : Overlay) (e : Edge)
    (hb : (getCondition upd e.edge_id).blocked = true) : edge_cost_ofR fl upd e = 10000000 := by
  unfold edge_cost_ofR
  unfold getCondition at hb
  cases hu : upd e.edge_id with
  | none => simp [hu] at hb
  | some o =>
    obtain ⟨tm, rn, bl, ra⟩ := o
    cases bl <;> simp_all [W_BLOCK]

theorem edge_cost_ofR_open (fl : ℚ → ℚ) (upd : Overlay) (e : Edge)
    (hb : (getCondition upd e.edge_id).blocked = false) :
    edge_cost_ofR fl upd e = costR fl e.distance_m e.freeflow_time_s e.road_quality
      e.safety_index (getCondition upd e.edge_id).trafficMultiplier
      (getCondition upd e.edge_id).rainfallMmPerHour
      (getCondition upd e.edge_id).roadQualityAdjust := by
  unfold edge_cost_ofR
  unfold getCondition at hb ⊢
  cases hu : upd e.edge_id with
  | none => simp
  | some o =>
    obtain ⟨tm, rn, bl, ra⟩ := o
    cases tm <;> cases rn <;> cases bl <;> cases ra <;> simp_all

/-- C2 (counterexample): on the zero-length edge of safety 10 whose road quality is the
double nearest to 9.3, with no live condition, `edge_cost` in binary64 returns
7881299347898359 / 2^49, one unit in the last place below the reference cost
985162418487295 / 2^46, which is itself a double and is also what the formula gives when it
is evaluated in binary64 in the order written. -/
theorem edge_cost_last_bit :
    fl64 roughEdge.road_quality = roughEdge.road_quality ∧
      edge_costR fl64 [roughEdge] noUpdates 0 = 7881299347898359 / 562949953421312 ∧
      specCost roughEdge (getCondition noUpdates roughEdge.edge_id)
        = 985162418487295 / 70368744177664 ∧
      fl64 (specCost roughEdge (getCondition noUpdates roughEdge.edge_id))
        = 985162418487295 / 70368744177664 ∧
      specCostR fl64 roughEdge (getCondition noUpdates roughEdge.edge_id)
        = 985162418487295 / 70368744177664 ∧
      edge_costR fl64 [roughEdge] noUpdates 0
        ≠ specCost roughEdge (getCondition noUpdates roughEdge.edge_id) := by
  decide!

/-- C2 (amended): if the entry of the edge has `blocked = true`, `edge_cost` returns exactly
1e7; and whenever each of the sixteen operations of `edge_cost` is rounded with relative error
at most `u` (for binary64 without overflow or underflow, `u = 2^-53`), its result differs from
the reference cost by at most `(1 + u) ^ 7 - 1` times the sum of the magnitudes of the terms
of the reference cost, absent live-condition fields at their defaults. With `u = 0` this is
the equality of the two in exact arithmetic. -/
theorem edge_cost_near_reference (fl : ℚ → ℚ) (u : ℚ) (hu : 0 ≤ u) (edges : List Edge)
    (upd : Overlay) (i : Nat) (hi : i < edges.length)
    (hops : ∀ x ∈ costOps fl edges[i].distance_m edges[i].freeflow_time_s
        edges[i].road_quality edges[i].safety_index
        (getCondition upd edges[i].edge_id).trafficMultiplier
        (getCondition upd edges[i].edge_id).rainfallMmPerHour
        (getCondition upd edges[i].edge_id).roadQualityAdjust, |fl x - x| ≤ u * |x|) :
    ((getCondition upd edges[i].edge_id).blocked = true →
        edge_costR fl edges upd i = 10000000) ∧
      |edge_costR fl edges upd i - specCost edges[i] (getCondition upd edges[i].edge_id)|
        ≤ ((1 + u) ^ 7 - 1) * costScale edges[i] (getCondition upd edges[i].edge_id) := by
  unfold edge_costR
  rw [getD_eq_of_lt edges i default hi]
  generalize edges[i] = e at hops
  have hnear := costR_near fl u hu _ _ _ _ _ _ _ hops
  refine ⟨edge_cost_ofR_blocked fl upd e, ?_⟩
  cases hb : (getCondition upd e.edge_id).blocked with
  | true =>
    rw [edge_cost_ofR_blocked fl upd e hb]
    simp only [specCost, hb, if_true, sub_self, abs_zero]
    have h1 : 0 ≤ (1 + u) ^ 7 - 1 := by
      have := one_le_pow₀ (by linarith : 1 ≤ 1 + u) (n := 7)
      linarith
    exact mul_nonneg h1 (near_nonneg hnear)
  | false =>
    rw [edge_cost_ofR_open fl upd e hb]
    have e1 : specCost e (getCondition upd e.edge_id)
        = e.distance_m + 300 * ((getCondition upd e.edge_id).trafficMultiplier - 1)
          + 250 * (getCondition upd e.edge_id).rainfallMmPerHour
          + 200 * ((10 - e.road_quality - (getCondition upd e.edge_id).roadQualityAdjust) / 10)
          + 180 * ((10 - e.safety_index) / 10) + 1 * e.freeflow_time_s := by
      simp only [specCost, hb]
      simp
      ring
    rw [e1]
    exact hnear.1

/-- C2 (witness): the bound for binary64, `u = 2^-53`, on an edge with traffic, rain and a
quality adjustment, where `edge_cost` returns 1186043192881971 / 2^39, about
2157.3999999999996. -/
theorem edge_cost_near_reference_witness :
    edge_costR fl64 [busyEdge] busyUpdates 0 = 1186043192881971 / 549755813888 ∧
      |edge_costR fl64 [busyEdge] busyUpdates 0
          - specCost busyEdge (getCondition busyUpdates busyEdge.edge_id)|
        ≤ ((1 + 1 / 2 ^ 53) ^ 7 - 1)
          * costScale busyEdge (getCondition busyUpdates busyEdge.edge_id) :=
  ⟨by decide!,
    (edge_cost_near_reference fl64 (1 / 2 ^ 53) (by norm_num) [busyEdge] busyUpdates 0
      (by decide) (by decide!)).2⟩

end SafePath

/-! ### Binary64 and exact arithmetic on the graph of `main` -/

namespace MainCpp

set_option maxRecDepth 1000000 in
set_option synthInstance.maxHeartbeats 400000 in
set_option synthInstance.maxSize 4000 in
/-- On the graph that `main` builds, `dijkstra` in binary64 and `dijkstra` in exact arithmetic
return the same value and leave the same array `parent`, from Jayanagar (6) and from
Hebbal (8) to every node. -/
theorem demo_dijkstra64_agree : ∀ s ∈ [6, 8], ∀ t, t < 20 →
    outcome 20 (dijkstra64 80 demoGraph s t []) = outcome 20 (dijkstra 80 demoGraph s t []) := by
  decide!

end MainCpp

/-! ### Binary64 rounding of whole numbers -/

theorem bitLength_le : ∀ (fuel n k : Nat), n < 2 ^ k → bitLength fuel n ≤ k
  | 0, _, _, _ => by simp [bitLength]
  | fuel + 1, n, k, h => by
    unfold bitLength
    split
    · omega
    · rename_i hn
      cases k with
      | zero => simp at h; omega
      | succ k =>
        have h2 : n / 2 < 2 ^ k := by
          rw [pow_succ] at h
          omega
        have := bitLength_le fuel (n / 2) k h2
        omega

theorem lt_pow_bitLength : ∀ (fuel n : Nat), n < 2 ^ fuel → n < 2 ^ bitLength fuel n
  | 0, n, h => by simpa [bitLength] using h
  | fuel + 1, n, h => by
    unfold bitLength
    split
    · rename_i hn
      subst hn
      simp
    · have h2 : n / 2 < 2 ^ fuel := by
        rw [pow_succ] at h
        omega
      have := lt_pow_bitLength fuel (n / 2) h2
      rw [pow_succ]
      omega

theorem pow2_nonneg_exp (k : Nat) : pow2 (k : Int) = (2 : ℚ) ^ k := by
  unfold pow2
  simp

theorem pow2_neg_exp (k : Nat) : pow2 (-(k : Int)) = 1 / (2 : ℚ) ^ k := by
  unfold pow2
  cases k with
  | zero => simp
  | succ k =>
    have : ¬ (0 : Int) ≤ -((k + 1 : Nat) : Int) := by omega
    rw [if_neg this]
    simp

theorem pow2_pos (e : Int) : 0 < pow2 e := by
  unfold pow2
  split <;> positivity

/-- A positive rational below `2^53` whose denominator is below `2^4096` lies in a binade
of exponent at most 52. -/
theorem binade_le (q : ℚ) (h0 : 0 < q) (h1 : q < 2 ^ 53) (hden : q.den < 2 ^ 4096) :
    binade q ≤ 52 := by
  have hnum : 0 < q.num := Rat.num_pos.mpr h0
  have hq : (q.num.natAbs : ℚ) < 2 ^ 53 * q.den := by
    have e : (q.num.natAbs : ℚ) = q.num := by
      rw [Nat.cast_natAbs, abs_of_pos hnum]
    rw [e]
    have hd : (0 : ℚ) < q.den := by exact_mod_cast q.den_pos
    have := (div_lt_iff₀ hd).mp (by rw [Rat.num_div_den]; exact h1)
    exact this
  have hq2 : q.num.natAbs < 2 ^ 53 * q.den := by exact_mod_cast hq
  have hd2 := lt_pow_bitLength 4096 q.den hden
  have hn : q.num.natAbs < 2 ^ (53 + bitLength 4096 q.den) := by
    rw [pow_add]
    calc q.num.natAbs < 2 ^ 53 * q.den := hq2
      _ ≤ 2 ^ 53 * 2 ^ bitLength 4096 q.den := Nat.mul_le_mul_left _ (le_of_lt hd2)
  have hb := bitLength_le 4096 _ _ hn
  unfold binade
  simp only
  split
  · rename_i hle
    by_contra hcon
    have e53 : (bitLength 4096 q.num.natAbs : Int) - (bitLength 4096 q.den : Int) = 53 := by
      omega
    rw [e53] at hle
    have : pow2 53 = (2 : ℚ) ^ 53 := pow2_nonneg_exp 53
    rw [this] at hle
    linarith
  · omega

theorem roundEven_ge_floor (q : ℚ) : Rat.floor q ≤ roundEven q := by
  unfold roundEven
  simp only
  split
  · exact le_refl _
  · split
    · omega
    · split <;> omega

theorem roundEven_le_floor_succ (q : ℚ) : roundEven q ≤ Rat.floor q + 1 := by
  unfold roundEven
  simp only
  split
  · omega
  · split
    · omega
    · split <;> omega

theorem roundEven_of_frac_lt (q : ℚ) (h : q - Rat.floor q < 1 / 2) :
    roundEven q = Rat.floor q := by
  unfold roundEven
  simp only
  rw [if_pos h]

theorem rat_floor_eq (q : ℚ) : Rat.floor q = ⌊q⌋ := rfl

/-- The shape of `fl64` on a positive number below `2^53`: the number is scaled by a power of
two with a non-negative exponent, rounded to a whole number, and scaled back. -/
theorem fl64_scaled (x : ℚ) (h0 : 0 < x) (h1 : x < 2 ^ 53) (hden : x.den < 2 ^ 4096) :
    ∃ m : Nat, fl64 x = (roundEven (x * 2 ^ m) : ℚ) / 2 ^ m := by
  have hb : binade |x| ≤ 52 := by
    rw [abs_of_pos h0]
    exact binade_le x h0 h1 hden
  have he : max (binade |x|) (-1022) ≤ 52 := max_le hb (by norm_num)
  refine ⟨(52 - max (binade |x|) (-1022)).toNat, ?_⟩
  have hm : max (binade |x|) (-1022) - 52
      = -(((52 - max (binade |x|) (-1022)).toNat : Nat) : Int) := by
    rw [Int.toNat_of_nonneg (by omega)]
    ring
  unfold fl64
  rw [if_neg (ne_of_gt h0)]
  simp only
  rw [hm, pow2_neg_exp]
  have hp : (0 : ℚ) < 2 ^ (52 - max (binade |x|) (-1022)).toNat := by positivity
  rw [div_div_eq_mul_div, div_one, mul_one_div]

/-- A whole number from 0 to `2^53` is a double: `fl64` leaves it as it is. -/
theorem fl64_whole (n : Nat) (h1 : (n : ℚ) < 2 ^ 53) : fl64 (n : ℚ) = n := by
  by_cases h0 : n = 0
  · subst h0
    simp [fl64]
  · have hpos : (0 : ℚ) < n := by
      have : 0 < n := Nat.pos_of_ne_zero h0
      exact_mod_cast this
    obtain ⟨m, hm⟩ := fl64_scaled n hpos h1 (by
      have : ((n : ℚ)).den = 1 := Rat.den_natCast n
      rw [this]
      apply Nat.one_lt_two_pow
      decide)
    rw [hm]
    have e : ((n : ℚ) * 2 ^ m) = (((n * 2 ^ m : Nat) : Int) : ℚ) := by push_cast; ring
    have hr : roundEven ((n : ℚ) * 2 ^ m) = ((n * 2 ^ m : Nat) : Int) := by
      rw [e, roundEven_of_frac_lt]
      · rw [rat_floor_eq, Int.floor_intCast]
      · rw [rat_floor_eq, Int.floor_intCast]
        norm_num
    rw [hr]
    push_cast
    field_simp

/-- Adding less than one half to a whole number below `2^53` and rounding to binary64 gives a
number from the whole number up to, but not including, the next one. -/
theorem fl64_near_whole (n : Nat) (ε : ℚ) (hε0 : 0 < ε) (hε : ε < 1 / 2)
    (h1 : (n : ℚ) + ε < 2 ^ 53) (hden : ((n : ℚ) + ε).den < 2 ^ 4096) :
    (n : ℚ) ≤ fl64 (n + ε) ∧ fl64 (n + ε) < n + 1 := by
  have hn0 : (0 : ℚ) ≤ n := Nat.cast_nonneg n
  obtain ⟨m, hm⟩ := fl64_scaled (n + ε) (by linarith) h1 hden
  clear hden
  rw [hm]
  have hp : (0 : ℚ) < 2 ^ m := by positivity
  have hlow : (((n * 2 ^ m : Nat) : Int)) ≤ roundEven (((n : ℚ) + ε) * 2 ^ m) := by
    refine le_trans ?_ (roundEven_ge_floor _)
    rw [rat_floor_eq, Int.le_floor]
    push_cast
    nlinarith
  have hup : roundEven (((n : ℚ) + ε) * 2 ^ m) < (((n + 1) * 2 ^ m : Nat) : Int) := by
    cases m with
    | zero =>
      have hfl : ⌊((n : ℚ) + ε) * 2 ^ 0⌋ = (n : Int) := by
        rw [Int.floor_eq_iff]
        constructor
        · push_cast; linarith
        · push_cast; linarith
      rw [roundEven_of_frac_lt]
      · rw [rat_floor_eq, hfl]
        push_cast
        omega
      · rw [rat_floor_eq, hfl]
        push_cast
        linarith
    | succ k =>
      have hfl : ⌊((n : ℚ) + ε) * 2 ^ (k + 1)⌋ < (((2 * n + 1) * 2 ^ k : Nat) : Int) := by
        rw [Int.floor_lt]
        push_cast
        have hk : (0 : ℚ) < 2 ^ k := by positivity
        rw [pow_succ]
        nlinarith
      have := roundEven_le_floor_succ (((n : ℚ) + ε) * 2 ^ (k + 1))
      rw [rat_floor_eq] at this
      have h2 : (((2 * n + 1) * 2 ^ k : Nat) : Int) < (((n + 1) * 2 ^ (k + 1) : Nat) : Int) := by
        have hk : 0 < 2 ^ k := by positivity
        have : (2 * n + 1) * 2 ^ k < (n + 1) * 2 ^ (k + 1) := by
          rw [pow_succ]
          nlinarith
        exact_mod_cast this
      omega
  constructor
  · rw [le_div_iff₀ hp]
    have : (((n * 2 ^ m : Nat) : Int) : ℚ) ≤ (roundEven (((n : ℚ) + ε) * 2 ^ m) : ℚ) := by
      exact_mod_cast hlow
    push_cast at this
    exact this
  · rw [div_lt_iff₀ hp]
    have : (roundEven (((n : ℚ) + ε) * 2 ^ m) : ℚ) < (((n + 1) * 2 ^ m : Nat) : Int) := by
      exact_mod_cast hup
    push_cast at this
    exact this

theorem eps64_bounds : 0 < EPS64 ∧ EPS64 < 1 / 2 ∧ EPS64.den < 2 ^ 128 := by
  decide!

theorem den_whole_add_eps64 (n : Nat) : ((n : ℚ) + EPS64).den < 2 ^ 4096 := by
  have h1 : ((n : ℚ) + EPS64).den ∣ (n : ℚ).den * EPS64.den := Rat.add_den_dvd _ _
  rw [Rat.den_natCast, one_mul] at h1
  have h2 := Nat.le_of_dvd EPS64.den_pos h1
  have h3 : (2 : Nat) ^ 128 ≤ 2 ^ 4096 := by apply Nat.pow_le_pow_right <;> decide
  exact lt_of_le_of_lt h2 (lt_of_lt_of_le eps64_bounds.2.2 h3)

/-- On whole numbers whose sum is below `2^53`, one relaxation step in binary64 is the
relaxation step in exact arithmetic: the sum `d + c` is a double, and the rounded sum
`nd + 1e-9` is below the whole number `dist[v]` exactly when `nd` is. -/
theorem relaxStep64_eq (n k : Nat) (u v : Nat) (st : DState) (hv : ∃ z : Int, st.dist v = z)
    (hsum : ((n + k : Nat) : ℚ) < 2 ^ 53) :
    relaxStep64 n u st v k = relaxStep n u st v k := by
  obtain ⟨z, hz⟩ := hv
  have hnd : fl64 ((n : ℚ) + k) = (n : ℚ) + k := by
    have := fl64_whole (n + k) hsum
    push_cast at this
    exact this
  have hle : ((n + k : Nat) : ℚ) + 1 ≤ 2 ^ 53 := by
    have h1 : (n + k : Nat) < 2 ^ 53 := by exact_mod_cast hsum
    have h2 : (n + k : Nat) + 1 ≤ 2 ^ 53 := h1
    exact_mod_cast h2
  obtain ⟨e0, e1, _⟩ := eps64_bounds
  have hb := fl64_near_whole (n + k) EPS64 e0 e1 (by linarith) (den_whole_add_eps64 (n + k))
  push_cast at hb
  have hEPS : EPS < 1 := by unfold EPS; norm_num
  have htest : fl64 ((n : ℚ) + k + EPS64) < st.dist v ↔ (n : ℚ) + k + EPS < st.dist v := by
    rw [hz]
    constructor
    · intro h
      have h1 : ((n + k : Nat) : ℚ) < (z : ℚ) := by push_cast; linarith [hb.1]
      have h2 : ((n + k : Nat) : Int) < z := by exact_mod_cast h1
      have h3 : ((n + k : Nat) : Int) + 1 ≤ z := h2
      have h4 : ((n + k : Nat) : ℚ) + 1 ≤ (z : ℚ) := by exact_mod_cast h3
      push_cast at h4
      linarith
    · intro h
      have h1 : ((n + k : Nat) : ℚ) < (z : ℚ) := by push_cast; linarith [eps_pos]
      have h2 : ((n + k : Nat) : Int) < z := by exact_mod_cast h1
      have h3 : ((n + k : Nat) : Int) + 1 ≤ z := h2
      have h4 : ((n + k : Nat) : ℚ) + 1 ≤ (z : ℚ) := by exact_mod_cast h3
      push_cast at h4
      linarith [hb.2]
  unfold relaxStep64 relaxStep
  simp only [hnd]
  by_cases h : (n : ℚ) + k + EPS < st.dist v
  · rw [if_pos h, if_pos (htest.mpr h)]
  · rw [if_neg h, if_neg (fun h1 => h (htest.mp h1))]

theorem whole_dist_relaxStep (d c : ℚ) (u v : Nat) (st : DState) (hd : ∃ z : Int, d + c = z)
    (hst : ∀ x, ∃ z : Int, st.dist x = z) : ∀ x, ∃ z : Int, (relaxStep d u st v c).dist x = z := by
  intro x
  unfold relaxStep
  split
  · by_cases hx : x = v
    · subst hx
      simp only [Function.update_same]
      exact hd
    · simp only [Function.update_noteq hx]
      exact hst x
  · exact hst x

namespace MainCpp

/-- On whole numbers below `2^53`, the loop over the entries of `G[u]` in binary64 is the loop
in exact arithmetic. -/
theorem relaxEdges64_eq (F : List Nat) (n u : Nat) :
    ∀ (es : List Edge) (st : DState),
      (∀ e ∈ es, ∃ k : Nat, e.w = k ∧ ((n + k : Nat) : ℚ) < 2 ^ 53) →
      (∀ x, ∃ z : Int, st.dist x = z) →
      relaxEdges64 F n u es st = relaxEdges F n u es st
  | [], st, _, _ => by simp [relaxEdges64, relaxEdges]
  | e :: es, st, hes, hst => by
    have ih := relaxEdges64_eq F n u es
    have hes1 : ∀ e ∈ es, ∃ k : Nat, e.w = k ∧ ((n + k : Nat) : ℚ) < 2 ^ 53 :=
      fun x hx => hes x (List.mem_cons_of_mem _ hx)
    unfold relaxEdges64 relaxEdges
    split
    · exact ih st hes1 hst
    · obtain ⟨k, hk, hsum⟩ := hes e (List.mem_cons_self _ _)
      rw [hk, relaxStep64_eq n k u e.dst st (hst e.dst) hsum]
      exact ih _ hes1 (whole_dist_relaxStep n k u e.dst st ⟨((n + k : Nat) : Int), by
        rw [Int.cast_natCast, Nat.cast_add]⟩ hst)

end MainCpp

namespace GraphLogic

/-- On whole numbers below `2^53`, the loop of `dijkstra` over the neighbours of `u` in
binary64 is the loop in exact arithmetic. -/
theorem relaxLoop64_eq (graph : Matrix) (u n : Nat) :
    ∀ (vs : List Nat) (st : State), st.dist u = n →
      (∀ v ∈ vs, graph u v ≠ -1 → ∃ k : Nat, graph u v = k ∧ ((n + k : Nat) : ℚ) < 2 ^ 53) →
      relaxLoop64 graph u vs st = relaxLoop graph u vs st
  | [], st, _, _ => by simp [relaxLoop64, relaxLoop]
  | v :: vs, st, hu, hvs => by
    have ih := relaxLoop64_eq graph u n vs
    have hvs1 : ∀ x ∈ vs, graph u x ≠ -1 →
        ∃ k : Nat, graph u x = k ∧ ((n + k : Nat) : ℚ) < 2 ^ 53 :=
      fun x hx => hvs x (List.mem_cons_of_mem _ hx)
    unfold relaxLoop64 relaxLoop
    by_cases hp : graph u v ≠ -1
    · obtain ⟨k, hk, hsum⟩ := hvs v (List.mem_cons_self _ _) hp
      have hfl : fl64 (st.dist u + graph u v) = st.dist u + graph u v := by
        rw [hu, hk]
        have := fl64_whole (n + k) hsum
        push_cast at this
        exact this
      rw [hfl]
      split
      · rename_i hlt
        apply ih _ _ hvs1
        by_cases huv : u = v
        · subst huv
          exfalso
          have h0 : (0 : ℚ) ≤ graph u u := by rw [hk]; exact Nat.cast_nonneg k
          linarith [hlt.2]
        · simp only [Function.update_noteq huv]
          exact hu
      · exact ih st hu hvs1
    · have h1 : ¬ (graph u v ≠ -1 ∧ fl64 (st.dist u + graph u v) < st.dist v) :=
        fun h => hp h.1
      have h2 : ¬ (graph u v ≠ -1 ∧ st.dist u + graph u v < st.dist v) := fun h => hp h.1
      rw [if_neg h1, if_neg h2]
      exact ih st hu hvs1

end GraphLogic
